import Mathlib

/-!
# Fleet management: data-structure engines

A shallow embedding of the C++ engines of the fleet-management backend
(`hash_table.h`, `driver_queue.h`, `min_heap.h`, `graph.h`, `btree.h`,
`vehicle.h`) together with theorems about them.

Conventions of the embedding.

* A `Vehicle*` / `Driver*` is an address (`Nat`), `NULL` is address `0`, and the
  records behind the addresses are given by a memory `mem : VehiclePtr → Vehicle`.
  The containers store addresses only, as the source does.
* Fixed-size C arrays are lists of the array's length, read with `List.getD`
  and written with `List.set`.
* Singly linked chains whose only entry point is their head (hash buckets,
  adjacency lists) are lists, head first.  The driver queue keeps a second
  pointer (`rear`) into its chain, so its nodes live in an explicit node store.
* The memory is total: reading a record through an address is always defined.  Where
  the source tests a pointer argument against `NULL` the test is embedded; the heap
  and the sorted index make no such test and are given pointers to vehicle objects.
* A `std::string` is a `String`; its `char`s are the bytes of its UTF-8 encoding, and
  `char` is a signed 8-bit type, as on x86.  The order `operator<` of `std::string`
  compares the bytes as unsigned values, which on UTF-8 is the order of the characters.
* `int` arithmetic that can overflow is wrapped to 32 bits by `wrapInt32`.
* An operation returns `none` where the source leaves the defined behaviour
  of C++ (an array index outside the array) or where a loop of the embedding
  would need more iterations than the bound it was given.
-/

namespace Fleet

/-! # Part I: the embedding -/

/-! ## Machine integers and strings -/

/-- Largest value of a 32-bit `int`. -/
def INT_MAX : Int := 2147483647

/-- Two's-complement wrap of an exact integer into the range of a 32-bit `int`. -/
def wrapInt32 (x : Int) : Int := (x + 2147483648) % 4294967296 - 2147483648

/-- Lexicographic comparison of the character sequences: `operator<` of `std::string`. -/
def strLt (a b : String) : Bool := decide (a.toList < b.toList)

/-- Conversion `(int)x` of an exact number: truncation toward zero. -/
def truncToInt (x : ℚ) : Int := Int.tdiv x.num x.den

/-! ## vehicle.h and the pointers to vehicles and drivers -/

/-- Record of `class Vehicle`; `kilometersRun` (a `double`) is an exact rational. -/
structure Vehicle where
  vehicleId : String
  registrationNumber : String
  model : String
  type : String
  year : Int
  kilometersRun : ℚ
  daysSinceLastService : Int
  status : String
  assignedDriverId : String

/-- Constructor `Vehicle(id, regNum, mdl, tp, yr)`. -/
def Vehicle.new (id regNum mdl tp : String) (yr : Int) : Vehicle :=
  { vehicleId := id, registrationNumber := regNum, model := mdl, type := tp, year := yr,
    kilometersRun := 0, daysSinceLastService := 0, status := "AVAILABLE",
    assignedDriverId := "" }

/-- Method `Vehicle::getMaintenancePriority`. -/
def Vehicle.getMaintenancePriority (v : Vehicle) : Int :=
  let priority : Int := 0
  let priority := wrapInt32 (priority + truncToInt (v.kilometersRun / 5000))
  let priority := wrapInt32 (priority + Int.tdiv v.daysSinceLastService 30)
  priority

/-- Method `Vehicle::needsMaintenance`. -/
def Vehicle.needsMaintenance (v : Vehicle) : Bool :=
  decide (v.kilometersRun > 10000) || decide (v.daysSinceLastService > 90)

/-- Address of a `Vehicle` object. -/
abbrev VehiclePtr := Nat

/-- Address of a `Driver` object. -/
abbrev DriverPtr := Nat

/-- The null pointer. -/
def NULL : Nat := 0

/-- Contents of the vehicle objects, by address. -/
abbrev VehicleMem := VehiclePtr → Vehicle

/-- Priority score of the vehicle at address `p`, read through the pointer. -/
def prio (mem : VehicleMem) (p : VehiclePtr) : Int := (mem p).getMaintenancePriority

/-! ## driver_queue.h -/

/-- Node of the queue's chain: `struct QueueNode`; `next` is a node address, `0` for `NULL`. -/
structure QueueNode where
  driver : DriverPtr
  next : Nat

/-- State of `class DriverQueue`.  `store` holds every node ever allocated: the node at
address `a ≥ 1` is `store[a - 1]`; `new` allocates the next address and `delete` leaves
the store alone. -/
structure DriverQueue where
  store : List QueueNode
  front : Nat
  rear : Nat
  size : Int

/-- Constructor `DriverQueue()`. -/
def DriverQueue.empty : DriverQueue := { store := [], front := NULL, rear := NULL, size := 0 }

/-- Node at address `a` of a node store (dereference of a `QueueNode*`). -/
def nodeAt (store : List QueueNode) (a : Nat) : QueueNode :=
  store.getD (a - 1) { driver := NULL, next := NULL }

/-- The assignment `a->next = next` on a node store. -/
def setNext (store : List QueueNode) (a next : Nat) : List QueueNode :=
  store.set (a - 1) { driver := (nodeAt store a).driver, next := next }

/-- Node at address `a` (dereference of a `QueueNode*`). -/
def DriverQueue.node (q : DriverQueue) (a : Nat) : QueueNode := nodeAt q.store a

/-- Method `DriverQueue::isEmpty`. -/
def DriverQueue.isEmpty (q : DriverQueue) : Bool := q.front == NULL

/-- Method `DriverQueue::getSize`. -/
def DriverQueue.getSize (q : DriverQueue) : Int := q.size

/-- Method `DriverQueue::enqueue`. -/
def DriverQueue.enqueue (q : DriverQueue) (driver : DriverPtr) : DriverQueue :=
  if driver = NULL then q
  else
    let newNode := q.store.length + 1
    let store := q.store ++ [{ driver := driver, next := NULL }]
    if q.rear = NULL then
      { store := store, front := newNode, rear := newNode, size := q.size + 1 }
    else
      { store := setNext store q.rear newNode,
        front := q.front, rear := newNode, size := q.size + 1 }

/-- Method `DriverQueue::dequeue`: the returned driver (`NULL` on an empty queue) and
the queue afterwards. -/
def DriverQueue.dequeue (q : DriverQueue) : DriverPtr × DriverQueue :=
  if q.isEmpty then (NULL, q)
  else
    let temp := q.front
    let driver := (q.node temp).driver
    let front := (q.node temp).next
    let rear := if front = NULL then NULL else q.rear
    (driver, { store := q.store, front := front, rear := rear, size := q.size - 1 })

/-- Method `DriverQueue::peek`. -/
def DriverQueue.peek (q : DriverQueue) : DriverPtr :=
  if q.isEmpty then NULL else (q.node q.front).driver

/-- Successive `enqueue` calls, in list order. -/
def DriverQueue.enqueueAll (q : DriverQueue) (drivers : List DriverPtr) : DriverQueue :=
  drivers.foldl DriverQueue.enqueue q

/-- The drivers returned by `n` successive `dequeue` calls, and the queue afterwards. -/
def DriverQueue.dequeueN : Nat → DriverQueue → List DriverPtr × DriverQueue
  | 0, q => ([], q)
  | n + 1, q =>
    let r := q.dequeue
    let rest := DriverQueue.dequeueN n r.2
    (r.1 :: rest.1, rest.2)

/-- The chain of nodes that starts at address `a` consists of the cells `cells`, each an
address with the driver stored there, and ends in `NULL`. -/
def DriverQueue.Linked (store : List QueueNode) : Nat → List (Nat × DriverPtr) → Prop
  | a, [] => a = NULL
  | a, c :: rest =>
    a = c.1 ∧ 0 < c.1 ∧ (nodeAt store c.1).driver = c.2 ∧
      DriverQueue.Linked store (nodeAt store c.1).next rest

/-- Address of the last cell, `NULL` for no cells. -/
def DriverQueue.lastAddr (cells : List (Nat × DriverPtr)) : Nat :=
  match cells.getLast? with
  | some c => c.1
  | none => NULL

/-- The statement `q.Holds waiting`: the chain of the queue from `front` carries exactly the drivers
`waiting`, front first, `rear` points at its last node, and `size` is their number. -/
def DriverQueue.Holds (q : DriverQueue) (waiting : List DriverPtr) : Prop :=
  ∃ cells : List (Nat × DriverPtr),
    cells.map Prod.snd = waiting ∧
    DriverQueue.Linked q.store q.front cells ∧
    (cells.map Prod.fst).Pairwise (· < ·) ∧
    (∀ c ∈ cells, c.1 ≤ q.store.length) ∧
    q.rear = DriverQueue.lastAddr cells ∧
    q.size = (waiting.length : Int)

/-- A queue reached from the empty queue by `enqueue` and `dequeue` calls. -/
inductive DriverQueue.Reachable : DriverQueue → Prop where
  | empty : DriverQueue.Reachable DriverQueue.empty
  | enqueue (q : DriverQueue) (driver : DriverPtr) :
      DriverQueue.Reachable q → DriverQueue.Reachable (q.enqueue driver)
  | dequeue (q : DriverQueue) :
      DriverQueue.Reachable q → DriverQueue.Reachable q.dequeue.2

/-- A call on a driver queue: `enqueue(driver)` or `dequeue()`. -/
inductive QueueCall where
  | enqueue (driver : DriverPtr)
  | dequeue

/-- The queue after one call. -/
def DriverQueue.call (q : DriverQueue) : QueueCall → DriverQueue
  | QueueCall.enqueue driver => q.enqueue driver
  | QueueCall.dequeue => q.dequeue.2

/-- The queue after a run of calls, in list order. -/
def DriverQueue.runCalls (q : DriverQueue) (calls : List QueueCall) : DriverQueue :=
  calls.foldl DriverQueue.call q

/-- Successful enqueues minus successful dequeues of a run of calls that starts on `q`:
an `enqueue` succeeds when its driver is not `NULL`, a `dequeue` when it returns a
driver (not `NULL`). -/
def DriverQueue.netEnqueued : DriverQueue → List QueueCall → Int
  | _, [] => 0
  | q, QueueCall.enqueue driver :: rest =>
    (if driver ≠ NULL then 1 else 0) + DriverQueue.netEnqueued (q.enqueue driver) rest
  | q, QueueCall.dequeue :: rest =>
    (if q.dequeue.1 ≠ NULL then -1 else 0) + DriverQueue.netEnqueued q.dequeue.2 rest

/-! ## hash_table.h -/

/-- Number of buckets. -/
def TABLE_SIZE : Nat := 100

/-- Node of a bucket chain: `struct HashNode` (the `next` link is the list structure). -/
structure HashNode where
  key : String
  vehicle : VehiclePtr
deriving DecidableEq

/-- State of `class HashTable`: the `TABLE_SIZE` bucket chains and the counter. -/
structure HashTable where
  table : List (List HashNode)
  totalVehicles : Int

/-- Constructor `HashTable()`. -/
def HashTable.empty : HashTable :=
  { table := List.replicate TABLE_SIZE [], totalVehicles := 0 }

/-- The bytes that a character takes in a `std::string`: its UTF-8 encoding, one byte
for an ASCII character and two to four bytes for any other. -/
def utf8Bytes (c : Char) : List Nat :=
  if c.toNat < 128 then [c.toNat]
  else if c.toNat < 2048 then [192 + c.toNat / 64, 128 + c.toNat % 64]
  else if c.toNat < 65536 then
    [224 + c.toNat / 4096, 128 + c.toNat / 64 % 64, 128 + c.toNat % 64]
  else
    [240 + c.toNat / 262144, 128 + c.toNat / 4096 % 64, 128 + c.toNat / 64 % 64,
      128 + c.toNat % 64]

/-- The value of a `char` that holds the byte `b`, converted to `int`: `char` is a signed
8-bit type (as on x86), so the bytes from 128 on are negative. -/
def charValue (b : Nat) : Int := if b < 128 then (b : Int) else (b : Int) - 256

/-- The values `key[0]`, ..., `key[key.length() - 1]` of a `std::string`. -/
def stringChars (key : String) : List Int :=
  (key.toList.foldr (fun c acc => utf8Bytes c ++ acc) []).map charValue

/-- Method `HashTable::hashFunction`: the `int` accumulator adds the `char`s of the key
and the result is the C++ remainder by `TABLE_SIZE`, which is negative for a negative
sum. -/
def hashFunction (key : String) : Int :=
  let hash := (stringChars key).foldl (fun (hash : Int) (c : Int) => wrapInt32 (hash + c)) 0
  Int.tmod hash TABLE_SIZE

/-- Read of `table[index]`; `none` when `index` is outside the array. -/
def HashTable.bucket (t : HashTable) (index : Int) : Option (List HashNode) :=
  if 0 ≤ index then t.table[index.toNat]? else none

/-- Method `HashTable::insert`: the returned flag and the table afterwards. -/
def HashTable.insert (mem : VehicleMem) (t : HashTable) (v : VehiclePtr) :
    Option (Bool × HashTable) :=
  if v = NULL then some (false, t)
  else
    let key := (mem v).vehicleId
    let index := hashFunction key
    match t.bucket index with
    | none => none
    | some chain =>
      if chain.any (fun node => node.key == key) then some (false, t)
      else
        some (true, { table := t.table.set index.toNat ({ key := key, vehicle := v } :: chain),
                      totalVehicles := t.totalVehicles + 1 })

/-- Method `HashTable::search`: `some NULL` is the not-found result. -/
def HashTable.search (t : HashTable) (vehicleId : String) : Option VehiclePtr :=
  match t.bucket (hashFunction vehicleId) with
  | none => none
  | some chain =>
    match chain.find? (fun node => node.key == vehicleId) with
    | some node => some node.vehicle
    | none => some NULL

/-- Method `HashTable::deleteVehicle`: the returned flag and the table afterwards
(the first node of the chain with the key is unlinked). -/
def HashTable.deleteVehicle (t : HashTable) (vehicleId : String) : Option (Bool × HashTable) :=
  let index := hashFunction vehicleId
  match t.bucket index with
  | none => none
  | some chain =>
    if chain.any (fun node => node.key == vehicleId) then
      some (true, { table := t.table.set index.toNat (chain.eraseP (fun node => node.key == vehicleId)),
                    totalVehicles := t.totalVehicles - 1 })
    else some (false, t)

/-- Method `HashTable::getTotalVehicles`. -/
def HashTable.getTotalVehicles (t : HashTable) : Int := t.totalVehicles

/-- Successive `insert` calls, in list order: the flags returned and the final table. -/
def HashTable.insertAll (mem : VehicleMem) :
    HashTable → List VehiclePtr → Option (List Bool × HashTable)
  | t, [] => some ([], t)
  | t, v :: vs =>
    match HashTable.insert mem t v with
    | none => none
    | some (ok, t1) =>
      match HashTable.insertAll mem t1 vs with
      | none => none
      | some (oks, t2) => some (ok :: oks, t2)

/-- Sum of the character codes of a key, as an exact integer. -/
def charSum (key : String) : Int := (key.toList.map (fun c => (c.toNat : Int))).sum

/-- A key made of ASCII characters (codes 0..127) and short enough that the `int`
accumulator of `hashFunction` does not overflow. -/
def validKey (key : String) : Prop :=
  (∀ c ∈ key.toList, c.toNat < 128) ∧ charSum key ≤ INT_MAX

instance (key : String) : Decidable (validKey key) := by
  unfold validKey; infer_instance

/-- The stored entries, bucket after bucket. -/
def HashTable.entries (t : HashTable) : List HashNode := t.table.foldr (fun chain acc => chain ++ acc) []

/-- The id of the vehicle at address `v`, read through the pointer. -/
def vehicleIdOf (mem : VehicleMem) (v : VehiclePtr) : String := (mem v).vehicleId

/-- The statement `t.Stores id p`: some bucket chain holds an entry with key `id` and
vehicle `p`. -/
def HashTable.Stores (t : HashTable) (id : String) (p : VehiclePtr) : Prop :=
  ∃ chain ∈ t.table, ({ key := id, vehicle := p } : HashNode) ∈ chain

/-- A table reached from the empty table by `insert` and `deleteVehicle` calls. -/
inductive HashTable.Reachable (mem : VehicleMem) : HashTable → Prop where
  | empty : HashTable.Reachable mem HashTable.empty
  | insert (t t1 : HashTable) (v : VehiclePtr) (ok : Bool) :
      HashTable.Reachable mem t → HashTable.insert mem t v = some (ok, t1) →
      HashTable.Reachable mem t1
  | deleteVehicle (t t1 : HashTable) (vehicleId : String) (ok : Bool) :
      HashTable.Reachable mem t → HashTable.deleteVehicle t vehicleId = some (ok, t1) →
      HashTable.Reachable mem t1

/-- Shape of a table: `TABLE_SIZE` chains, every entry in the bucket of its key's hash,
no key twice in a chain, no null vehicle, and the counter equal to the number of entries. -/
structure HashTable.WellFormed (t : HashTable) : Prop where
  size_eq : t.table.length = TABLE_SIZE
  bucket_eq : ∀ (i : Nat) (chain : List HashNode), t.table[i]? = some chain →
    ∀ node ∈ chain, hashFunction node.key = (i : Int)
  keys_nodup : ∀ chain ∈ t.table, (chain.map HashNode.key).Nodup
  not_null : ∀ chain ∈ t.table, ∀ node ∈ chain, node.vehicle ≠ NULL
  total_eq : t.totalVehicles = ((t.table.map List.length).sum : Nat)

/-! ## btree.h -/

/-- Capacity of the sorted index. -/
def MAX_VEHICLES : Nat := 100

/-- State of `class BTree`: the array `vehicles[MAX_VEHICLES]` and `count`. -/
structure BTree where
  vehicles : List VehiclePtr
  count : Nat

/-- Constructor `BTree()`. -/
def BTree.empty : BTree := { vehicles := List.replicate MAX_VEHICLES NULL, count := 0 }

/-- The id read through `vehicles[i]->vehicleId`. -/
def BTree.idAt (mem : VehicleMem) (t : BTree) (i : Nat) : String :=
  (mem (t.vehicles.getD i NULL)).vehicleId

/-- The `while(left <= right)` loop of `BTree::binarySearch`, run for at most `fuel`
iterations; `none` when the loop test still holds after them. -/
def BTree.binarySearchLoop (mem : VehicleMem) (t : BTree) (vehicleId : String) :
    Nat → Int → Int → Option Int
  | 0, left, right => if left ≤ right then none else some (-1)
  | fuel + 1, left, right =>
    if left ≤ right then
      let mid := left + Int.tdiv (right - left) 2
      if t.idAt mem mid.toNat == vehicleId then some mid
      else if strLt (t.idAt mem mid.toNat) vehicleId then
        BTree.binarySearchLoop mem t vehicleId fuel (mid + 1) right
      else
        BTree.binarySearchLoop mem t vehicleId fuel left (mid - 1)
    else some (-1)

/-- Method `BTree::binarySearch`. -/
def BTree.binarySearch (mem : VehicleMem) (t : BTree) (vehicleId : String) : Option Int :=
  BTree.binarySearchLoop mem t vehicleId t.count 0 ((t.count : Int) - 1)

/-- The loop of `BTree::findInsertPosition` from position `pos`, with
`remaining = count - pos`: `remaining = 0` is the loop test `pos < count` failing. -/
def BTree.findInsertPositionFrom (mem : VehicleMem) (t : BTree) (vehicleId : String) :
    Nat → Nat → Nat
  | 0, pos => pos
  | remaining + 1, pos =>
    if strLt (t.idAt mem pos) vehicleId then
      BTree.findInsertPositionFrom mem t vehicleId remaining (pos + 1)
    else pos

/-- Method `BTree::findInsertPosition`. -/
def BTree.findInsertPosition (mem : VehicleMem) (t : BTree) (vehicleId : String) : Nat :=
  BTree.findInsertPositionFrom mem t vehicleId t.count 0

/-- The shift loop `for(i = count; i > pos; i--) vehicles[i] = vehicles[i - 1]` of
`BTree::insert`, with `k = i - pos` iterations left. -/
def BTree.shiftRight (pos : Nat) : Nat → List VehiclePtr → List VehiclePtr
  | 0, vehicles => vehicles
  | k + 1, vehicles =>
    BTree.shiftRight pos k (vehicles.set (pos + k + 1) (vehicles.getD (pos + k) NULL))

/-- Method `BTree::insert`. -/
def BTree.insert (mem : VehicleMem) (t : BTree) (vehicle : VehiclePtr) : BTree :=
  if t.count ≥ MAX_VEHICLES then t
  else
    let pos := t.findInsertPosition mem (mem vehicle).vehicleId
    let vehicles := BTree.shiftRight pos (t.count - pos) t.vehicles
    { vehicles := vehicles.set pos vehicle, count := t.count + 1 }

/-- Method `BTree::search`: `some NULL` is the not-found result. -/
def BTree.search (mem : VehicleMem) (t : BTree) (vehicleId : String) : Option VehiclePtr :=
  match t.binarySearch mem vehicleId with
  | none => none
  | some index => if index ≠ -1 then some (t.vehicles.getD index.toNat NULL) else some NULL

/-- Method `BTree::displayRange`: the vehicles whose line is printed, in print order
(the empty list stands for the line "No vehicles in range"). -/
def BTree.displayRange (mem : VehicleMem) (t : BTree) (start stop : String) : List VehiclePtr :=
  ((List.range t.count).filter (fun i =>
      !strLt (t.idAt mem i) start && !strLt stop (t.idAt mem i))).map
    (fun i => t.vehicles.getD i NULL)

/-- Method `BTree::getTotalVehicles`. -/
def BTree.getTotalVehicles (t : BTree) : Nat := t.count

/-- The stored sequence `vehicles[0..count)`. -/
def BTree.stored (t : BTree) : List VehiclePtr := t.vehicles.take t.count

/-- Successive `insert` calls, in list order. -/
def BTree.insertAll (mem : VehicleMem) (t : BTree) (vs : List VehiclePtr) : BTree :=
  vs.foldl (BTree.insert mem) t

/-- The key of the vehicle at address `p`: the character sequence of its id, ordered
lexicographically. -/
def idKey (mem : VehicleMem) (p : VehiclePtr) : List Char := (mem p).vehicleId.toList

/-- The stored sequence is in non-decreasing id order. -/
def BTree.IsSorted (mem : VehicleMem) (t : BTree) : Prop :=
  t.stored.Pairwise (fun a b => idKey mem a ≤ idKey mem b)

/-- Shape of the index: the array has `MAX_VEHICLES` cells and `count` is within it. -/
def BTree.WellFormed (t : BTree) : Prop :=
  t.vehicles.length = MAX_VEHICLES ∧ t.count ≤ MAX_VEHICLES

/-- Membership of an id by a linear scan of the stored sequence. -/
def BTree.linearMember (mem : VehicleMem) (t : BTree) (vehicleId : String) : Bool :=
  t.stored.any (fun p => (mem p).vehicleId == vehicleId)

/-- The test of `displayRange` on one id: `start <= id && id <= stop`. -/
def inRange (mem : VehicleMem) (start stop : String) (p : VehiclePtr) : Bool :=
  decide (start.toList ≤ idKey mem p) && decide (idKey mem p ≤ stop.toList)

/-! ## min_heap.h -/

/-- Capacity of the maintenance heap. -/
def MAX_HEAP_SIZE : Nat := 100

/-- State of `class MinHeap`: the array `heap[MAX_HEAP_SIZE]` and `size`. -/
structure MinHeap where
  heap : List VehiclePtr
  size : Nat

/-- Constructor `MinHeap()`. -/
def MinHeap.empty : MinHeap := { heap := List.replicate MAX_HEAP_SIZE NULL, size := 0 }

/-- Method `MinHeap::parent`. -/
def MinHeap.parent (i : Nat) : Nat := (i - 1) / 2

/-- Method `MinHeap::leftChild`. -/
def MinHeap.leftChild (i : Nat) : Nat := 2 * i + 1

/-- Method `MinHeap::rightChild`. -/
def MinHeap.rightChild (i : Nat) : Nat := 2 * i + 2

/-- Read of `heap[i]`. -/
def MinHeap.elem (h : MinHeap) (i : Nat) : VehiclePtr := h.heap.getD i NULL

/-- Method `MinHeap::swap`. -/
def MinHeap.swap (h : MinHeap) (i j : Nat) : MinHeap :=
  let temp := h.elem i
  { h with heap := (h.heap.set i (h.elem j)).set j temp }

/-- Method `MinHeap::heapifyUp`: the `while` loop run for at most `fuel` iterations;
`none` when the loop test still holds after them. -/
def MinHeap.heapifyUp (mem : VehicleMem) : Nat → MinHeap → Nat → Option MinHeap
  | 0, h, index =>
    if index > 0 ∧ prio mem (h.elem (MinHeap.parent index)) > prio mem (h.elem index) then none
    else some h
  | fuel + 1, h, index =>
    if index > 0 ∧ prio mem (h.elem (MinHeap.parent index)) > prio mem (h.elem index) then
      MinHeap.heapifyUp mem fuel (h.swap index (MinHeap.parent index)) (MinHeap.parent index)
    else some h

/-- The index `minIndex` chosen by `MinHeap::heapifyDown` among `index` and its children. -/
def MinHeap.minChild (mem : VehicleMem) (h : MinHeap) (index : Nat) : Nat :=
  let minIndex := index
  let left := MinHeap.leftChild index
  let right := MinHeap.rightChild index
  let minIndex :=
    if left < h.size ∧ prio mem (h.elem left) < prio mem (h.elem minIndex) then left else minIndex
  let minIndex :=
    if right < h.size ∧ prio mem (h.elem right) < prio mem (h.elem minIndex) then right else minIndex
  minIndex

/-- Method `MinHeap::heapifyDown`, recursion depth at most `fuel`; `none` when a
deeper call would be needed. -/
def MinHeap.heapifyDown (mem : VehicleMem) : Nat → MinHeap → Nat → Option MinHeap
  | 0, h, index => if index ≠ MinHeap.minChild mem h index then none else some h
  | fuel + 1, h, index =>
    let minIndex := MinHeap.minChild mem h index
    if index ≠ minIndex then MinHeap.heapifyDown mem fuel (h.swap index minIndex) minIndex
    else some h

/-- Method `MinHeap::isEmpty`. -/
def MinHeap.isEmpty (h : MinHeap) : Bool := h.size == 0

/-- Method `MinHeap::getSize`. -/
def MinHeap.getSize (h : MinHeap) : Nat := h.size

/-- Method `MinHeap::insert`: the returned flag and the heap afterwards. -/
def MinHeap.insert (mem : VehicleMem) (h : MinHeap) (vehicle : VehiclePtr) :
    Option (Bool × MinHeap) :=
  if h.size ≥ MAX_HEAP_SIZE then some (false, h)
  else
    let h1 : MinHeap := { h with heap := h.heap.set h.size vehicle }
    match MinHeap.heapifyUp mem h1.size h1 h1.size with
    | none => none
    | some h2 => some (true, { h2 with size := h2.size + 1 })

/-- Method `MinHeap::extractMin`: the returned vehicle (`NULL` on an empty heap) and the
heap afterwards. -/
def MinHeap.extractMin (mem : VehicleMem) (h : MinHeap) : Option (VehiclePtr × MinHeap) :=
  if h.isEmpty then some (NULL, h)
  else
    let minVehicle := h.elem 0
    let h1 : MinHeap := { heap := h.heap.set 0 (h.elem (h.size - 1)), size := h.size - 1 }
    if h1.size > 0 then
      match MinHeap.heapifyDown mem h1.size h1 0 with
      | none => none
      | some h2 => some (minVehicle, h2)
    else some (minVehicle, h1)

/-- Method `MinHeap::peekMin`. -/
def MinHeap.peekMin (h : MinHeap) : VehiclePtr :=
  if h.isEmpty then NULL else h.elem 0

/-- Successive `insert` calls, in list order: the flags returned and the final heap. -/
def MinHeap.insertAll (mem : VehicleMem) : MinHeap → List VehiclePtr → Option (List Bool × MinHeap)
  | h, [] => some ([], h)
  | h, v :: vs =>
    match MinHeap.insert mem h v with
    | none => none
    | some (ok, h1) =>
      match MinHeap.insertAll mem h1 vs with
      | none => none
      | some (oks, h2) => some (ok :: oks, h2)

/-- The loop `while(!heap.isEmpty()) out.push_back(heap.extractMin())`, for at most
`fuel` extractions: the vehicles returned, in order; `none` when the heap is still
non-empty after them. -/
def MinHeap.extractAll (mem : VehicleMem) : Nat → MinHeap → Option (List VehiclePtr)
  | 0, h => if h.isEmpty then some [] else none
  | fuel + 1, h =>
    if h.isEmpty then some []
    else
      match MinHeap.extractMin mem h with
      | none => none
      | some (v, h1) =>
        match MinHeap.extractAll mem fuel h1 with
        | none => none
        | some vs => some (v :: vs)

/-- The min-heap property of the array over the priority scores. -/
def MinHeap.HeapProperty (mem : VehicleMem) (h : MinHeap) : Prop :=
  ∀ i, 0 < i → i < h.size → prio mem (h.elem ((i - 1) / 2)) ≤ prio mem (h.elem i)

/-- A heap reached from the empty heap by `insert` and `extractMin` calls. -/
inductive MinHeap.Reachable (mem : VehicleMem) : MinHeap → Prop where
  | empty : MinHeap.Reachable mem MinHeap.empty
  | insert (h h1 : MinHeap) (vehicle : VehiclePtr) (ok : Bool) :
      MinHeap.Reachable mem h → MinHeap.insert mem h vehicle = some (ok, h1) →
      MinHeap.Reachable mem h1
  | extractMin (h h1 : MinHeap) (v : VehiclePtr) :
      MinHeap.Reachable mem h → MinHeap.extractMin mem h = some (v, h1) →
      MinHeap.Reachable mem h1

/-- The entries of the heap: `heap[0..size)`. -/
def MinHeap.live (h : MinHeap) : List VehiclePtr := h.heap.take h.size

/-- Shape of the heap: the array has `MAX_HEAP_SIZE` cells and `size` is within it. -/
def MinHeap.WellFormed (h : MinHeap) : Prop :=
  h.heap.length = MAX_HEAP_SIZE ∧ h.size ≤ MAX_HEAP_SIZE

/-- The priority score found through cell `k` of the array. -/
def MinHeap.score (mem : VehicleMem) (h : MinHeap) (k : Nat) : Int := prio mem (h.elem k)

/-- Loop invariant of `heapifyUp` on the first `n` cells, for the scores `f` of the
cells: the heap order holds at every cell but `index`, and the cells below `index`
respect the parent of `index`. -/
def UpInv (f : Nat → Int) (n index : Nat) : Prop :=
  (∀ i, 0 < i → i < n → i ≠ index → f ((i - 1) / 2) ≤ f i) ∧
  (∀ i, 0 < i → i < n → (i - 1) / 2 = index → 0 < index → f ((index - 1) / 2) ≤ f i)

/-- Invariant of `heapifyDown` on the first `n` cells, for the scores `f` of the cells:
the heap order holds at every cell whose parent is not `index`, and the children of
`index` respect the parent of `index`. -/
def DownInv (f : Nat → Int) (n index : Nat) : Prop :=
  (∀ i, 0 < i → i < n → (i - 1) / 2 ≠ index → f ((i - 1) / 2) ≤ f i) ∧
  (∀ i, 0 < i → i < n → (i - 1) / 2 = index → 0 < index → f ((index - 1) / 2) ≤ f i)

/-- The scores after two cells have been exchanged. -/
def swapScores (f : Nat → Int) (i j : Nat) : Nat → Int :=
  fun k => if k = j then f i else if k = i then f j else f k

/-- The index exchange behind `swap`. -/
def swapIndex (i j : Nat) : Nat → Nat :=
  fun k => if k = j then i else if k = i then j else k

/-- The assignments `p->kilometersRun = km; p->daysSinceLastService = days` through a
vehicle pointer, as `main` makes them: the memory afterwards. -/
def setCounters (mem : VehicleMem) (p : VehiclePtr) (km : ℚ) (days : Int) : VehicleMem :=
  fun q => if q = p then { mem q with kilometersRun := km, daysSinceLastService := days } else mem q

/-! ## graph.h -/

/-- Capacity of the location table. -/
def MAX_VERTICES : Nat := 20

/-- The distance standing for "not reached": `#define INF INT_MAX`. -/
def INF : Int := INT_MAX

/-- Node of an adjacency chain: `struct Edge` (the `next` link is the list structure).
A stored `destination` is never negative: `addRoad` with a negative endpoint leaves
defined behaviour before the call returns. -/
structure Edge where
  destination : Nat
  weight : Int

/-- Record `struct Location`. -/
structure Location where
  name : String
  id : Int

/-- State of `class Graph`: the arrays `adjacencyList[MAX_VERTICES]`,
`locations[MAX_VERTICES]` and `numVertices`. -/
structure Graph where
  adjacencyList : List (List Edge)
  locations : List Location
  numVertices : Nat

/-- Constructor `Graph()`. -/
def Graph.empty : Graph :=
  { adjacencyList := List.replicate MAX_VERTICES [],
    locations := List.replicate MAX_VERTICES { name := "", id := -1 },
    numVertices := 0 }

/-- Read of `adjacencyList[u]`. -/
def Graph.adj (g : Graph) (u : Nat) : List Edge := g.adjacencyList.getD u []

/-- Method `Graph::addLocation`. -/
def Graph.addLocation (g : Graph) (name : String) : Graph :=
  if g.numVertices ≥ MAX_VERTICES then g
  else
    { g with
      locations := g.locations.set g.numVertices { name := name, id := g.numVertices }
      numVertices := g.numVertices + 1 }

/-- Method `Graph::addRoad`; `none` when an endpoint indexes `adjacencyList` below 0. -/
def Graph.addRoad (g : Graph) (source destination distance : Int) : Option Graph :=
  if source ≥ g.numVertices ∨ destination ≥ g.numVertices then some g
  else if source < 0 ∨ destination < 0 then none
  else
    let adj1 := g.adjacencyList.set source.toNat
      ({ destination := destination.toNat, weight := distance } :: g.adjacencyList.getD source.toNat [])
    let adj2 := adj1.set destination.toNat
      ({ destination := source.toNat, weight := distance } :: adj1.getD destination.toNat [])
    some { g with adjacencyList := adj2 }

/-- The local arrays `dist`, `visited`, `parent` of `Graph::dijkstra`, cells
`[0, numVertices)`. -/
structure DijkstraState where
  dist : List Int
  visited : List Bool
  parent : List Int

/-- Method `Graph::findMinDistance`. -/
def Graph.findMinDistance (g : Graph) (dist : List Int) (visited : List Bool) : Int :=
  let r := (List.range g.numVertices).foldl
    (fun (acc : Int × Int) (i : Nat) =>
      if !visited.getD i false && decide (dist.getD i 0 < acc.1) then (dist.getD i 0, (i : Int))
      else acc)
    (INF, -1)
  r.2

/-- Body of the `while(current != NULL)` loop of `Graph::dijkstra` for one edge of
`adjacencyList[u]`. -/
def Graph.relaxEdge (u : Nat) (st : DijkstraState) (e : Edge) : DijkstraState :=
  let v := e.destination
  let weight := e.weight
  if !st.visited.getD v false && st.dist.getD u 0 != INF
      && decide (wrapInt32 (st.dist.getD u 0 + weight) < st.dist.getD v 0) then
    { st with
      dist := st.dist.set v (wrapInt32 (st.dist.getD u 0 + weight))
      parent := st.parent.set v (u : Int) }
  else st

/-- One iteration of the main loop of `Graph::dijkstra`; `none` is the `break`. -/
def Graph.dijkstraStep (g : Graph) (st : DijkstraState) : Option DijkstraState :=
  let u := g.findMinDistance st.dist st.visited
  if u = -1 then none
  else
    let st1 : DijkstraState := { st with visited := st.visited.set u.toNat true }
    some ((g.adj u.toNat).foldl (Graph.relaxEdge u.toNat) st1)

/-- The main loop `for(count = 0; count < numVertices - 1; count++)` with `k`
iterations left. -/
def Graph.dijkstraLoop (g : Graph) : Nat → DijkstraState → DijkstraState
  | 0, st => st
  | k + 1, st =>
    match g.dijkstraStep st with
    | none => st
    | some st1 => Graph.dijkstraLoop g k st1

/-- The arrays after the initialisation loop and `dist[source] = 0`. -/
def Graph.dijkstraInit (g : Graph) (source : Nat) : DijkstraState :=
  { dist := (List.replicate g.numVertices INF).set source 0,
    visited := List.replicate g.numVertices false,
    parent := List.replicate g.numVertices (-1) }

/-- The arrays of `Graph::dijkstra` when its main loop has ended. -/
def Graph.dijkstraRun (g : Graph) (source : Nat) : DijkstraState :=
  g.dijkstraLoop (g.numVertices - 1) (g.dijkstraInit source)

/-- The loop `while(current != -1) path[pathLength++] = current` with `room` free cells
left in `path[MAX_VERTICES]`: the cells written, in order; `none` when a write falls
outside the array. -/
def Graph.pathFrom (parent : List Int) : Nat → Int → Option (List Nat)
  | 0, current => if current ≠ -1 then none else some []
  | room + 1, current =>
    if current ≠ -1 then
      match Graph.pathFrom parent room (parent.getD current.toNat (-1)) with
      | none => none
      | some rest => some (current.toNat :: rest)
    else some []

/-- The distance printed between two consecutive stops: the weight of the first edge
of `adjacencyList[src]` that leads to `dst`, `0` when there is none. -/
def Graph.legDistance (g : Graph) (src dst : Nat) : Int :=
  match (g.adj src).find? (fun e => e.destination == dst) with
  | some e => e.weight
  | none => 0

/-- The distances printed along a route. -/
def Graph.legs (g : Graph) : List Nat → List Int
  | a :: b :: rest => g.legDistance a b :: Graph.legs g (b :: rest)
  | _ => []

/-- What `Graph::dijkstra` reports. -/
inductive RouteResult where
  | invalid
  | noRoute
  | route (distance : Int) (path : List Nat) (legs : List Int)

/-- Method `Graph::dijkstra`; `none` when an array is indexed outside its bounds. -/
def Graph.dijkstra (g : Graph) (source destination : Int) : Option RouteResult :=
  if source ≥ g.numVertices ∨ destination ≥ g.numVertices then some RouteResult.invalid
  else if source < 0 ∨ destination < 0 then none
  else
    let st := g.dijkstraRun source.toNat
    if st.dist.getD destination.toNat 0 = INF then some RouteResult.noRoute
    else
      match Graph.pathFrom st.parent MAX_VERTICES destination with
      | none => none
      | some path =>
        some (RouteResult.route (st.dist.getD destination.toNat 0) path.reverse
          (g.legs path.reverse))

/-- Method `Graph::getLocationName`. -/
def Graph.getLocationName (g : Graph) (id : Int) : String :=
  if id ≥ 0 ∧ id < g.numVertices then (g.locations.getD id.toNat { name := "", id := -1 }).name
  else "Unknown"

/-- Method `Graph::getNumVertices`. -/
def Graph.getNumVertices (g : Graph) : Nat := g.numVertices

/-- A road: the two endpoints and the distance given to an accepted `addRoad` call. -/
structure Road where
  source : Nat
  destination : Nat
  distance : Int
deriving DecidableEq

/-- The statement `Graph.Built roads g`: the graph `g` is built from the empty graph by `addLocation`
calls and by `addRoad` calls whose endpoints are valid location ids at the time of the
call and whose distance is not negative; `roads` lists these roads, latest first. -/
inductive Graph.Built : List Road → Graph → Prop where
  | empty : Graph.Built [] Graph.empty
  | addLocation (roads : List Road) (g : Graph) (name : String) :
      Graph.Built roads g → Graph.Built roads (g.addLocation name)
  | addRoad (roads : List Road) (g g1 : Graph) (source destination : Nat) (distance : Int) :
      Graph.Built roads g → source < g.numVertices → destination < g.numVertices →
      0 ≤ distance → g.addRoad source destination distance = some g1 →
      Graph.Built ({ source := source, destination := destination, distance := distance } :: roads) g1

/-- Sum of the distances of the roads. -/
def totalDistance (roads : List Road) : Int := (roads.map Road.distance).sum

/-- The statement `RoadPath roads u v len`: some sequence of roads, each travelled in either
direction, leads from location `u` to location `v`, and the distances of the roads
along it add up to `len`. -/
inductive RoadPath (roads : List Road) : Nat → Nat → Int → Prop where
  | nil (u : Nat) : RoadPath roads u u 0
  | forward (r : Road) (v : Nat) (len : Int) :
      r ∈ roads → RoadPath roads r.destination v len →
      RoadPath roads r.source v (r.distance + len)
  | backward (r : Road) (v : Nat) (len : Int) :
      r ∈ roads → RoadPath roads r.source v len →
      RoadPath roads r.destination v (r.distance + len)

/-- What a built graph looks like: the adjacency chains hold, for every road, the edge
and its mirror, and nothing else; endpoints are valid ids and distances not negative. -/
structure GraphOk (g : Graph) (roads : List Road) : Prop where
  adj_len : g.adjacencyList.length = MAX_VERTICES
  n_le : g.numVertices ≤ MAX_VERTICES
  edge_road : ∀ (u : Nat) (e : Edge), e ∈ g.adj u →
    u < g.numVertices ∧ e.destination < g.numVertices ∧ 0 ≤ e.weight ∧
    ∃ r ∈ roads, r.distance = e.weight ∧
      ((r.source = u ∧ r.destination = e.destination) ∨
       (r.destination = u ∧ r.source = e.destination))
  road_edge : ∀ r ∈ roads,
    r.source < g.numVertices ∧ r.destination < g.numVertices ∧ 0 ≤ r.distance ∧
    ({ destination := r.destination, weight := r.distance } : Edge) ∈ g.adj r.source ∧
    ({ destination := r.source, weight := r.distance } : Edge) ∈ g.adj r.destination

/-- Sum of the distances of the roads with both endpoints in the set `inside`. -/
def insideWeight (roads : List Road) (inside : Nat → Bool) : Int :=
  (roads.map (fun r => if inside r.source && inside r.destination then r.distance else 0)).sum

/-- The locations not yet marked visited. -/
def unvisited (st : DijkstraState) (n : Nat) : List Nat :=
  (List.range n).filter (fun i => !st.visited.getD i false)

/-- Invariant of the main loop of `dijkstra` (with `done u e` for the edges `e` of a
visited `u` that have been relaxed already). -/
structure DijkstraInv (g : Graph) (roads : List Road) (source : Nat)
    (done : Nat → Edge → Prop) (st : DijkstraState) : Prop where
  len_dist : st.dist.length = g.numVertices
  len_visited : st.visited.length = g.numVertices
  len_parent : st.parent.length = g.numVertices
  src_zero : st.dist.getD source 0 = 0
  bound : ∀ v, v < g.numVertices → st.dist.getD v 0 = INF ∨
    (0 ≤ st.dist.getD v 0 ∧
      st.dist.getD v 0 ≤ insideWeight roads (fun x => st.visited.getD x false || x == v))
  path : ∀ v, v < g.numVertices → st.dist.getD v 0 ≠ INF →
    RoadPath roads source v (st.dist.getD v 0)
  relaxed : ∀ u, u < g.numVertices → st.visited.getD u false = true →
    ∀ e ∈ g.adj u, done u e → st.dist.getD e.destination 0 ≤ st.dist.getD u 0 + e.weight
  mono : ∀ x y, x < g.numVertices → y < g.numVertices → st.visited.getD x false = true →
    st.visited.getD y false = false → st.dist.getD x 0 ≤ st.dist.getD y 0
  finite : ∀ u, u < g.numVertices → st.visited.getD u false = true → st.dist.getD u 0 ≠ INF
  ranked : ∃ rank : Nat → Nat, ∀ v, v < g.numVertices →
    (st.visited.getD v false = true → rank v + (unvisited st g.numVertices).length < g.numVertices) ∧
    (st.visited.getD v false = false → rank v + (unvisited st g.numVertices).length = g.numVertices) ∧
    (st.parent.getD v (-1) = -1 ∨
      ∃ p, p < g.numVertices ∧ st.parent.getD v (-1) = (p : Int) ∧
        st.visited.getD p false = true ∧ rank p < rank v)

/-- The least of the numbers, `0` for none. -/
def leastOf : List Int → Int
  | [] => 0
  | x :: xs => xs.foldl min x

/-- The weights of the stored roads from `a` to `b`: those of the edges of
`adjacencyList[a]` that lead to `b`. -/
def Graph.roadWeights (g : Graph) (a b : Nat) : List Int :=
  ((g.adj a).filter (fun e => e.destination == b)).map Edge.weight

/-- The statement `g.Joined a b`: some stored road leads from `a` to `b`. -/
def Graph.Joined (g : Graph) (a b : Nat) : Prop := ∃ e ∈ g.adj a, e.destination = b

/-- Length of a route, taking the lightest stored road between each consecutive pair
of its locations. -/
def Graph.routeLength (g : Graph) : List Nat → Int
  | a :: b :: rest => leastOf (g.roadWeights a b) + Graph.routeLength g (b :: rest)
  | _ => 0

/-- What the `parent` array of `dijkstra` records: the source has no parent, every other
location without a parent is not reached, and a parent is a visited location with a
stored road to the child along which the child's distance was set. -/
structure ParentInv (g : Graph) (source : Nat) (st : DijkstraState) : Prop where
  src_none : st.parent.getD source (-1) = -1
  rooted : ∀ v, v < g.numVertices → v ≠ source → st.parent.getD v (-1) = -1 →
    st.dist.getD v 0 = INF
  linked : ∀ v, v < g.numVertices → st.parent.getD v (-1) ≠ -1 →
    ∃ u, u < g.numVertices ∧ st.parent.getD v (-1) = (u : Int) ∧
      st.visited.getD u false = true ∧
      ∃ e ∈ g.adj u, e.destination = v ∧ st.dist.getD v 0 = st.dist.getD u 0 + e.weight

/-- A graph reached from the empty graph by `addLocation` and `addRoad` calls, with any
arguments. -/
inductive Graph.Reachable : Graph → Prop where
  | empty : Graph.Reachable Graph.empty
  | addLocation (g : Graph) (name : String) :
      Graph.Reachable g → Graph.Reachable (g.addLocation name)
  | addRoad (g g1 : Graph) (source destination distance : Int) :
      Graph.Reachable g → g.addRoad source destination distance = some g1 →
      Graph.Reachable g1

/-- How many edges of `adjacencyList[u]` lead to `v` with weight `w`. -/
def Graph.edgeCount (g : Graph) (u v : Nat) (w : Int) : Nat :=
  (g.adj u).countP (fun e => e.destination == v && e.weight == w)

/-- The visiting order kept by the main loop of `dijkstra`, whatever the distances are:
the visited locations are ranked in the order of their visits, below every unvisited
location, and a parent is a visited location of lower rank than its child. -/
structure RankInv (g : Graph) (st : DijkstraState) : Prop where
  len_visited : st.visited.length = g.numVertices
  len_parent : st.parent.length = g.numVertices
  ranked : ∃ rank : Nat → Nat, ∀ v, v < g.numVertices →
    (st.visited.getD v false = true → rank v + (unvisited st g.numVertices).length < g.numVertices) ∧
    (st.visited.getD v false = false → rank v + (unvisited st g.numVertices).length = g.numVertices) ∧
    (st.parent.getD v (-1) = -1 ∨
      ∃ p, p < g.numVertices ∧ st.parent.getD v (-1) = (p : Int) ∧
        st.visited.getD p false = true ∧ rank p < rank v)

/-! ## main.cpp: the data of the demo run -/

/-- A vehicle as `main` sets it up: the constructor call, then the two counters. -/
def mainVehicle (id regNum mdl tp : String) (yr : Int) (km : ℚ) (days : Int) : Vehicle :=
  { Vehicle.new id regNum mdl tp yr with kilometersRun := km, daysSinceLastService := days }

/-- The vehicle objects allocated by `main`; the object with id `Vnnn` is given the
address `nnn` (`VB99` the address 299). -/
def mainMem : VehicleMem := fun p =>
  match p with
  | 1 => mainVehicle "V001" "MH-12-AB-1234" "Tata Ace" "Truck" 2020 12000 95
  | 2 => mainVehicle "V002" "DL-01-CD-5678" "Mahindra Bolero" "Van" 2019 8500 45
  | 3 => mainVehicle "V003" "KA-03-EF-9012" "Maruti Eeco" "Car" 2021 15000 120
  | 4 => mainVehicle "V004" "TN-09-GH-3456" "Ashok Leyland" "Truck" 2018 25000 150
  | 101 => mainVehicle "V101" "MH-01-XY-1111" "Tata Super Ace" "Truck" 2017 28000 180
  | 102 => mainVehicle "V102" "DL-02-AB-2222" "Maruti Suzuki" "Car" 2020 9500 60
  | 103 => mainVehicle "V103" "KA-05-CD-3333" "Mahindra Pickup" "Truck" 2016 35000 200
  | 104 => mainVehicle "V104" "TN-07-EF-4444" "Hyundai i10" "Car" 2021 6000 40
  | 105 => mainVehicle "V105" "UP-09-GH-5555" "Tata Ace" "Truck" 2018 18000 150
  | 106 => mainVehicle "V106" "RJ-11-IJ-6666" "Force Traveller" "Van" 2019 22000 170
  | 201 => mainVehicle "V201" "DL-08-EF-9012" "Maruti Omni" "Van" 2018 20000 0
  | 202 => mainVehicle "V202" "TN-09-IJ-7890" "Force Traveller" "Van" 2020 12000 0
  | 203 => mainVehicle "V203" "GJ-01-AB-1234" "Tata Winger" "Van" 2020 9000 0
  | 205 => mainVehicle "V205" "RJ-14-XY-7890" "Eicher Truck" "Truck" 2019 15000 0
  | 207 => mainVehicle "V207" "KA-05-GH-3456" "Ashok Leyland" "Truck" 2019 18000 0
  | 208 => mainVehicle "V208" "MH-14-CD-5678" "Mahindra Scorpio" "SUV" 2021 7500 0
  | 299 => mainVehicle "VB99" "KA-03-CC-3333" "Duplicate Car" "Car" 2023 0 0
  | _ => Vehicle.new "" "" "" "" 0

/-- The vehicle directory of `main` after its four `insert` calls. -/
def mainTable : HashTable :=
  match HashTable.insertAll mainMem HashTable.empty [1, 2, 3, 4] with
  | some r => r.2
  | none => HashTable.empty

/-- The maintenance heap of `main` after its six `insert` calls. -/
def mainHeap : MinHeap :=
  match MinHeap.insertAll mainMem MinHeap.empty [101, 102, 103, 104, 105, 106] with
  | some r => r.2
  | none => MinHeap.empty

/-- Successive `addRoad` calls, in list order. -/
def Graph.addRoads : Graph → List Road → Option Graph
  | g, [] => some g
  | g, r :: rs =>
    match g.addRoad r.source r.destination r.distance with
    | none => none
    | some g1 => Graph.addRoads g1 rs

/-- The roads of `main`, in call order. -/
def mainRoads : List Road :=
  [⟨0, 1, 15⟩, ⟨0, 2, 8⟩, ⟨1, 3, 12⟩, ⟨2, 3, 10⟩, ⟨3, 4, 18⟩, ⟨1, 4, 25⟩, ⟨2, 5, 14⟩, ⟨4, 5, 20⟩]

/-- The city map of `main` after its six `addLocation` calls. -/
def cityLocations : Graph :=
  ["Warehouse", "City Center", "Service Station", "Highway Junction", "Delivery Hub",
    "Industrial Area"].foldl Graph.addLocation Graph.empty

/-- The city map of `main` after its eight `addRoad` calls. -/
def cityMap : Graph :=
  match Graph.addRoads cityLocations mainRoads with
  | some g => g
  | none => Graph.empty

/-- The sorted index of `main` after its six `insert` calls (V205, V203, V208, V201,
V207, V202). -/
def mainIndex : BTree := BTree.empty.insertAll mainMem [205, 203, 208, 201, 207, 202]

/-- The memory of `main` with one more vehicle object, at address 305, that carries the
id `V205` of an indexed vehicle. -/
def twinMem : VehicleMem := fun p =>
  if p = 305 then mainVehicle "V205" "RJ-14-ZZ-0000" "Eicher Pro" "Truck" 2022 100 0
  else mainMem p

/-- The six locations of `main` with two roads only, Warehouse - City Center and
Highway Junction - Delivery Hub: the Delivery Hub cannot be reached from the Warehouse. -/
def splitMap : Graph :=
  match Graph.addRoads cityLocations [⟨0, 1, 15⟩, ⟨3, 4, 18⟩] with
  | some g => g
  | none => Graph.empty

/-- Two locations joined by two roads, of 5 km and then of 9 km. -/
def twinRoadMap : Graph :=
  match Graph.addRoads (["Depot", "Yard"].foldl Graph.addLocation Graph.empty)
      [⟨0, 1, 5⟩, ⟨0, 1, 9⟩] with
  | some g => g
  | none => Graph.empty

/-- The memory of `main` with two more vehicle objects whose ids are not ASCII: `é` at
address 401 and `éVVVV` at address 402. -/
def accentMem : VehicleMem := fun p =>
  if p = 401 then mainVehicle "é" "MH-12-ZZ-0401" "Tata Ace" "Truck" 2020 0 0
  else if p = 402 then mainVehicle "éVVVV" "MH-12-ZZ-0402" "Tata Ace" "Truck" 2020 0 0
  else mainMem p

/-! # Part II: theorems -/

/-! ## Machine integers, reading and writing arrays -/

theorem wrapInt32_of_range (x : Int) (h0 : 0 ≤ x) (h1 : x ≤ INT_MAX) : wrapInt32 x = x := by
  unfold INT_MAX at h1
  unfold wrapInt32
  omega

theorem getD_set_self {α : Type} (l : List α) (i : Nat) (x d : α) (h : i < l.length) :
    (l.set i x).getD i d = x := by
  simp [List.getD_eq_getElem?_getD, List.getElem?_set_self h]

theorem getD_set_other {α : Type} (l : List α) (i j : Nat) (x d : α) (h : i ≠ j) :
    (l.set i x).getD j d = l.getD j d := by
  simp [List.getD_eq_getElem?_getD, List.getElem?_set_ne h]

theorem getD_set_if {α : Type} (l : List α) (i j : Nat) (x d : α) (h : i < l.length) :
    (l.set i x).getD j d = if i = j then x else l.getD j d := by
  by_cases hij : i = j
  · subst hij; rw [getD_set_self l i x d h, if_pos rfl]
  · rw [getD_set_other l i j x d hij, if_neg hij]

theorem getD_append_lt {α : Type} (l m : List α) (i : Nat) (d : α) (h : i < l.length) :
    (l ++ m).getD i d = l.getD i d := by
  simp only [List.getD_eq_getElem?_getD]
  rw [List.getElem?_append_left h]

theorem getD_append_length {α : Type} (l : List α) (x d : α) :
    (l ++ [x]).getD l.length d = x := by
  simp [List.getD_eq_getElem?_getD]

theorem getD_replicate {α : Type} (n i : Nat) (x : α) : (List.replicate n x).getD i x = x := by
  simp only [List.getD_eq_getElem?_getD, List.getElem?_replicate]
  split <;> rfl

theorem getD_of_lt {α : Type} (l : List α) (i : Nat) (d : α) (h : i < l.length) :
    l[i]? = some (l.getD i d) := by
  simp [List.getD_eq_getElem?_getD, List.getElem?_eq_getElem h]

theorem ext_getD {α : Type} (l1 l2 : List α) (d : α) (hlen : l1.length = l2.length)
    (h : ∀ i, i < l1.length → l1.getD i d = l2.getD i d) : l1 = l2 := by
  apply List.ext_getElem?
  intro n
  by_cases hn : n < l1.length
  · rw [getD_of_lt l1 n d hn, getD_of_lt l2 n d (hlen ▸ hn), h n hn]
  · rw [List.getElem?_eq_none (by omega), List.getElem?_eq_none (by omega)]

theorem getD_take {α : Type} (l : List α) (n i : Nat) (d : α) (h : i < n) :
    (l.take n).getD i d = l.getD i d := by
  simp [List.getD_eq_getElem?_getD, List.getElem?_take_of_lt h]

theorem getD_drop {α : Type} (l : List α) (n i : Nat) (d : α) :
    (l.drop n).getD i d = l.getD (n + i) d := by
  simp [List.getD_eq_getElem?_getD, List.getElem?_drop]

theorem getD_append_ge {α : Type} (l m : List α) (i : Nat) (d : α) (h : l.length ≤ i) :
    (l ++ m).getD i d = m.getD (i - l.length) d := by
  simp only [List.getD_eq_getElem?_getD]
  rw [List.getElem?_append_right h]

theorem getD_mem {α : Type} (l : List α) (i : Nat) (d : α) (h : i < l.length) :
    l.getD i d ∈ l := by
  exact List.mem_iff_getElem?.mpr ⟨i, getD_of_lt l i d h⟩

theorem mem_iff_getD {α : Type} (l : List α) (d x : α) :
    x ∈ l ↔ ∃ i, i < l.length ∧ l.getD i d = x := by
  constructor
  · intro h
    obtain ⟨n, hn⟩ := List.mem_iff_getElem?.mp h
    have hlt : n < l.length := by
      by_contra hge
      rw [List.getElem?_eq_none (by omega)] at hn
      cases hn
    refine ⟨n, hlt, ?_⟩
    rw [getD_of_lt l n d hlt] at hn
    exact Option.some.inj hn
  · rintro ⟨i, hi, rfl⟩
    exact getD_mem l i d hi

theorem map_range_getD {α : Type} (l : List α) (n : Nat) (d : α) (h : n ≤ l.length) :
    (List.range n).map (fun i => l.getD i d) = l.take n := by
  apply ext_getD _ _ d
  · simp [List.length_take, Nat.min_eq_left h]
  · intro i hi
    simp only [List.length_map, List.length_range] at hi
    rw [getD_take l n i d hi]
    simp only [List.getD_eq_getElem?_getD, List.getElem?_map, List.getElem?_range hi]
    rfl

theorem pairwise_getD {α : Type} (R : α → α → Prop) (l : List α) (d : α)
    (h : l.Pairwise R) (i j : Nat) (hij : i < j) (hj : j < l.length) :
    R (l.getD i d) (l.getD j d) := by
  have hi : i < l.length := by omega
  have := (List.pairwise_iff_getElem.mp h) i j hi hj hij
  have e1 : l.getD i d = l[i] := by
    simp [List.getD_eq_getElem?_getD, List.getElem?_eq_getElem hi]
  have e2 : l.getD j d = l[j] := by
    simp [List.getD_eq_getElem?_getD, List.getElem?_eq_getElem hj]
  rw [e1, e2]; exact this

theorem take_set_ge {α : Type} (l : List α) (n i : Nat) (x : α) (h : n ≤ i) :
    (l.set i x).take n = l.take n := by
  apply List.ext_getElem?
  intro k
  rw [List.getElem?_take, List.getElem?_take]
  by_cases hk : k < n
  · rw [if_pos hk, if_pos hk, List.getElem?_set_ne (by omega)]
  · rw [if_neg hk, if_neg hk]

/-! ## Driver queue: FIFO order -/

theorem nodeAt_append (store : List QueueNode) (x : QueueNode) (a : Nat)
    (h1 : 0 < a) (h2 : a ≤ store.length) : nodeAt (store ++ [x]) a = nodeAt store a := by
  unfold nodeAt
  exact getD_append_lt store [x] (a - 1) _ (by omega)

theorem nodeAt_append_new (store : List QueueNode) (x : QueueNode) :
    nodeAt (store ++ [x]) (store.length + 1) = x := by
  unfold nodeAt
  simp

theorem nodeAt_setNext_self (store : List QueueNode) (a next : Nat)
    (h1 : 0 < a) (h2 : a ≤ store.length) :
    nodeAt (setNext store a next) a = { driver := (nodeAt store a).driver, next := next } := by
  unfold setNext
  rw [nodeAt]
  exact getD_set_self store (a - 1) _ _ (by omega)

theorem nodeAt_setNext_other (store : List QueueNode) (a b next : Nat)
    (h1 : 0 < a) (h2 : 0 < b) (h : a ≠ b) :
    nodeAt (setNext store a next) b = nodeAt store b := by
  unfold setNext
  rw [nodeAt, nodeAt]
  exact getD_set_other store (a - 1) (b - 1) _ _ (by omega)

theorem DriverQueue.holds_empty : DriverQueue.empty.Holds [] := by
  refine ⟨[], rfl, ?_, List.Pairwise.nil, ?_, rfl, rfl⟩
  · simp [DriverQueue.Linked, DriverQueue.empty]
  · intro c hc; cases hc

theorem DriverQueue.linked_pos (store : List QueueNode) :
    ∀ (cells : List (Nat × DriverPtr)) (a : Nat), DriverQueue.Linked store a cells →
      ∀ x ∈ cells, 0 < x.1 := by
  intro cells
  induction cells with
  | nil => intro a _ x hx; cases hx
  | cons y ys ih =>
    intro a h x hx
    rcases List.mem_cons.mp hx with rfl | hx
    · exact h.2.1
    · exact ih _ h.2.2.2 x hx

theorem DriverQueue.lastAddr_mem (c : Nat × DriverPtr) (rest : List (Nat × DriverPtr)) :
    ∃ c3 ∈ c :: rest, DriverQueue.lastAddr (c :: rest) = c3.1 := by
  refine ⟨(c :: rest).getLast (by simp), List.getLast_mem _, ?_⟩
  simp [DriverQueue.lastAddr, List.getLast?_eq_getLast]

theorem DriverQueue.lastAddr_snoc (cells : List (Nat × DriverPtr)) (c : Nat × DriverPtr) :
    DriverQueue.lastAddr (cells ++ [c]) = c.1 := by
  simp [DriverQueue.lastAddr]

/-- Linking a fresh node behind the last cell of a chain appends one cell. -/
theorem DriverQueue.linked_snoc (store : List QueueNode) (d : DriverPtr) :
    ∀ (cells : List (Nat × DriverPtr)) (a : Nat), cells ≠ [] →
      (∀ c ∈ cells, c.1 ≤ store.length) →
      (cells.map Prod.fst).Pairwise (· < ·) →
      DriverQueue.Linked store a cells →
      DriverQueue.Linked
        (setNext (store ++ [{ driver := d, next := NULL }]) (DriverQueue.lastAddr cells)
          (store.length + 1))
        a (cells ++ [(store.length + 1, d)]) := by
  intro cells
  induction cells with
  | nil => intro a h; exact absurd rfl h
  | cons c rest ih =>
    intro a _ hb hs h
    obtain ⟨h1, h2, h3, h4⟩ := h
    have hc : c.1 ≤ store.length := hb c (List.mem_cons_self _ _)
    cases rest with
    | nil =>
      have hlast : DriverQueue.lastAddr [c] = c.1 := rfl
      rw [hlast]
      have hself := nodeAt_setNext_self (store ++ [{ driver := d, next := NULL }]) c.1
        (store.length + 1) h2 (by simp; omega)
      rw [nodeAt_append store _ c.1 h2 hc] at hself
      have hnew : nodeAt (setNext (store ++ [{ driver := d, next := NULL }]) c.1
          (store.length + 1)) (store.length + 1) = { driver := d, next := NULL } := by
        rw [nodeAt_setNext_other _ _ _ _ h2 (Nat.succ_pos _) (by omega)]
        exact nodeAt_append_new store _
      refine ⟨h1, h2, ?_, ?_⟩
      · rw [hself]; exact h3
      · rw [hself]
        refine ⟨rfl, Nat.succ_pos _, ?_, ?_⟩
        · show (nodeAt _ (store.length + 1)).driver = d
          rw [hnew]
        · show DriverQueue.Linked _ (nodeAt _ (store.length + 1)).next []
          rw [hnew]; rfl
    | cons c2 rest2 =>
      have hlast : DriverQueue.lastAddr (c :: c2 :: rest2) = DriverQueue.lastAddr (c2 :: rest2) := by
        simp [DriverQueue.lastAddr, List.getLast?_cons_cons]
      rw [hlast]
      obtain ⟨c3, hc3, hc3eq⟩ := DriverQueue.lastAddr_mem c2 rest2
      have hs2 := hs
      simp only [List.map_cons, List.pairwise_cons] at hs2
      have hlt : c.1 < c3.1 := by
        apply hs2.1
        have := List.mem_map_of_mem Prod.fst hc3
        simpa using this
      have hget : nodeAt (setNext (store ++ [{ driver := d, next := NULL }])
          (DriverQueue.lastAddr (c2 :: rest2)) (store.length + 1)) c.1 = nodeAt store c.1 := by
        rw [nodeAt_setNext_other _ _ _ _ (by omega) h2 (by omega)]
        exact nodeAt_append store _ c.1 h2 hc
      refine ⟨h1, h2, ?_, ?_⟩
      · rw [hget]; exact h3
      · rw [hget]
        exact ih _ (by simp) (fun c' hc' => hb c' (List.mem_cons_of_mem _ hc'))
          (by simpa using hs2.2) h4

theorem DriverQueue.holds_enqueue (q : DriverQueue) (waiting : List DriverPtr) (d : DriverPtr)
    (hq : q.Holds waiting) (hd : d ≠ NULL) : (q.enqueue d).Holds (waiting ++ [d]) := by
  obtain ⟨cells, hmap, hlink, hsorted, hbound, hrear, hsize⟩ := hq
  have hsorted2 : ((cells ++ [(q.store.length + 1, d)]).map Prod.fst).Pairwise (· < ·) := by
    rw [List.map_append, List.pairwise_append]
    refine ⟨hsorted, by simp, ?_⟩
    intro a ha b hb
    simp at hb
    obtain ⟨x, hx⟩ := List.mem_map.mp ha
    have := hbound x hx.1
    omega
  have hbound2 : ∀ c ∈ cells ++ [(q.store.length + 1, d)], c.1 ≤ q.store.length + 1 := by
    intro c hc
    rcases List.mem_append.mp hc with h | h
    · exact Nat.le_succ_of_le (hbound c h)
    · simp at h; simp [h]
  unfold DriverQueue.enqueue
  rw [if_neg hd]
  by_cases hr : q.rear = NULL
  · simp only [hr, if_true]
    have hnil : cells = [] := by
      cases cells with
      | nil => rfl
      | cons c rest =>
        exfalso
        obtain ⟨c3, hc3, hc3eq⟩ := DriverQueue.lastAddr_mem c rest
        have hpos : 0 < c3.1 := DriverQueue.linked_pos _ _ _ hlink c3 hc3
        rw [hrear, hc3eq] at hr
        simp [NULL] at hr
        omega
    subst hnil
    refine ⟨[(q.store.length + 1, d)], ?_, ?_, ?_, ?_, ?_, ?_⟩
    · simpa using hmap
    · refine ⟨rfl, Nat.succ_pos _, ?_, ?_⟩
      · show (nodeAt _ (q.store.length + 1)).driver = d
        rw [nodeAt_append_new]
      · show DriverQueue.Linked _ (nodeAt _ (q.store.length + 1)).next []
        rw [nodeAt_append_new]; rfl
    · simp
    · intro c hc; simp at hc; simp [hc]
    · rfl
    · simp at hmap; subst hmap; simpa using hsize
  · simp only [hr, if_false]
    have hne : cells ≠ [] := by
      intro h; subst h; exact hr (by simpa [DriverQueue.lastAddr] using hrear)
    refine ⟨cells ++ [(q.store.length + 1, d)], ?_, ?_, hsorted2, ?_, ?_, ?_⟩
    · simp [hmap]
    · have := DriverQueue.linked_snoc q.store d cells q.front hne hbound hsorted hlink
      rw [← hrear] at this
      exact this
    · simpa [setNext] using hbound2
    · simp [DriverQueue.lastAddr_snoc]
    · simp [hsize]

theorem DriverQueue.holds_dequeue (q : DriverQueue) (d : DriverPtr) (waiting : List DriverPtr)
    (hq : q.Holds (d :: waiting)) : q.dequeue.1 = d ∧ q.dequeue.2.Holds waiting := by
  obtain ⟨cells, hmap, hlink, hsorted, hbound, hrear, hsize⟩ := hq
  cases cells with
  | nil => simp at hmap
  | cons c rest =>
    simp only [List.map_cons, List.cons.injEq] at hmap
    obtain ⟨h1, h2, h3, h4⟩ := hlink
    have hfront : q.isEmpty = false := by
      simp [DriverQueue.isEmpty, NULL, h1]; omega
    unfold DriverQueue.dequeue
    simp only [hfront, Bool.false_eq_true, if_false, DriverQueue.node, h1]
    refine ⟨by rw [h3]; exact hmap.1, rest, hmap.2, h4, ?_, ?_, ?_, ?_⟩
    · simp only [List.map_cons, List.pairwise_cons] at hsorted; exact hsorted.2
    · intro c' hc'; exact hbound c' (List.mem_cons_of_mem _ hc')
    · cases rest with
      | nil =>
        have : (nodeAt q.store c.1).next = NULL := h4
        simp [this, DriverQueue.lastAddr]
      | cons c2 rest2 =>
        have hnz : (nodeAt q.store c.1).next ≠ NULL := by
          have := h4.1; have := h4.2.1
          simp [NULL]; omega
        simp only [hnz, if_false]
        rw [hrear]
        simp [DriverQueue.lastAddr, List.getLast?_cons_cons]
    · simp at hsize ⊢; omega

theorem DriverQueue.holds_nil_isEmpty (q : DriverQueue) (hq : q.Holds []) :
    q.isEmpty = true ∧ q.getSize = 0 := by
  obtain ⟨cells, hmap, hlink, -, -, -, hsize⟩ := hq
  have : cells = [] := by simpa using hmap
  subst this
  have hf : q.front = NULL := hlink
  simp [DriverQueue.isEmpty, DriverQueue.getSize, hf, hsize]

theorem DriverQueue.holds_enqueueAll (drivers : List DriverPtr) :
    ∀ (q : DriverQueue) (waiting : List DriverPtr), q.Holds waiting →
      (∀ d ∈ drivers, d ≠ NULL) → (q.enqueueAll drivers).Holds (waiting ++ drivers) := by
  induction drivers with
  | nil => intro q waiting hq _; simpa [DriverQueue.enqueueAll] using hq
  | cons d ds ih =>
    intro q waiting hq hnn
    have h1 := DriverQueue.holds_enqueue q waiting d hq (hnn d (List.mem_cons_self _ _))
    have h2 := ih (q.enqueue d) (waiting ++ [d]) h1 (fun x hx => hnn x (List.mem_cons_of_mem _ hx))
    simpa [DriverQueue.enqueueAll] using h2

theorem DriverQueue.dequeueN_holds (waiting : List DriverPtr) :
    ∀ (q : DriverQueue), q.Holds waiting →
      (q.dequeueN waiting.length).1 = waiting ∧ (q.dequeueN waiting.length).2.Holds [] := by
  induction waiting with
  | nil => intro q hq; exact ⟨rfl, hq⟩
  | cons d ds ih =>
    intro q hq
    obtain ⟨h1, h2⟩ := DriverQueue.holds_dequeue q d ds hq
    obtain ⟨h3, h4⟩ := ih _ h2
    simp only [List.length_cons, DriverQueue.dequeueN]
    exact ⟨by rw [h1, h3], h4⟩

/-- C3: drivers `d1..dn` (non-null) enqueued in that order into an empty queue come back
from `n` successive `dequeue` calls as exactly `d1..dn`, in that order, and the queue is
empty afterwards. -/
theorem DriverQueue.fifo_order (drivers : List DriverPtr) (hnn : ∀ d ∈ drivers, d ≠ NULL) :
    ((DriverQueue.empty.enqueueAll drivers).dequeueN drivers.length).1 = drivers ∧
    ((DriverQueue.empty.enqueueAll drivers).dequeueN drivers.length).2.isEmpty = true ∧
    ((DriverQueue.empty.enqueueAll drivers).dequeueN drivers.length).2.getSize = 0 := by
  have h := DriverQueue.holds_enqueueAll drivers DriverQueue.empty [] DriverQueue.holds_empty hnn
  simp only [List.nil_append] at h
  obtain ⟨h1, h2⟩ := DriverQueue.dequeueN_holds drivers _ h
  exact ⟨h1, DriverQueue.holds_nil_isEmpty _ h2⟩

theorem DriverQueue.fifo_order_witness :
    (∀ d ∈ [1, 2, 3, 4, 5], d ≠ NULL) ∧
    ((DriverQueue.empty.enqueueAll [1, 2, 3, 4, 5]).dequeueN 5).1 = [1, 2, 3, 4, 5] ∧
    ((DriverQueue.empty.enqueueAll [1, 2, 3, 4, 5]).dequeueN 5).2.isEmpty = true :=
  ⟨by decide, (DriverQueue.fifo_order [1, 2, 3, 4, 5] (by decide)).1,
    (DriverQueue.fifo_order [1, 2, 3, 4, 5] (by decide)).2.1⟩

/-! ## Hash table -/

theorem foldl_charCodes (l : List Char) :
    ∀ acc : Int, 0 ≤ acc → acc + (l.map (fun c => (c.toNat : Int))).sum ≤ INT_MAX →
      l.foldl (fun (hash : Int) (c : Char) => wrapInt32 (hash + (c.toNat : Int))) acc
        = acc + (l.map (fun c => (c.toNat : Int))).sum := by
  induction l with
  | nil => intro acc _ _; simp
  | cons c cs ih =>
    intro acc h0 h1
    have hnn : ∀ m : List Char, 0 ≤ (m.map (fun c => (c.toNat : Int))).sum := by
      intro m
      induction m with
      | nil => simp
      | cons a as iha => simp only [List.map_cons, List.sum_cons]; omega
    have hcs := hnn cs
    simp only [List.map_cons, List.sum_cons] at h1
    simp only [List.foldl_cons, List.map_cons, List.sum_cons]
    rw [wrapInt32_of_range _ (by omega) (by omega)]
    rw [ih _ (by omega) (by omega)]
    omega

theorem charSum_nonneg (key : String) : 0 ≤ charSum key := by
  unfold charSum
  generalize key.toList = m
  induction m with
  | nil => simp
  | cons a as iha => simp only [List.map_cons, List.sum_cons]; omega

theorem utf8Bytes_ascii (c : Char) (h : c.toNat < 128) : utf8Bytes c = [c.toNat] := by
  unfold utf8Bytes
  rw [if_pos h]

/-- The `char`s of a key of ASCII characters are the character codes. -/
theorem stringChars_ascii (key : String) (h : ∀ c ∈ key.toList, c.toNat < 128) :
    stringChars key = key.toList.map (fun c => (c.toNat : Int)) := by
  unfold stringChars
  generalize key.toList = l at h
  induction l with
  | nil => rfl
  | cons c cs ih =>
    have hc := h c (List.mem_cons_self _ _)
    rw [List.foldr_cons, List.map_append, List.map_cons,
      ih (fun x hx => h x (List.mem_cons_of_mem _ hx)), utf8Bytes_ascii c hc]
    have hv : charValue c.toNat = (c.toNat : Int) := by
      unfold charValue
      rw [if_pos hc]
    rw [List.map_cons, List.map_nil, hv]
    rfl

/-- For an ASCII key, without overflow of the accumulator, the hash is the character sum
modulo `TABLE_SIZE`. -/
theorem hashFunction_eq (key : String) (h : validKey key) :
    hashFunction key = charSum key % 100 := by
  unfold hashFunction
  rw [stringChars_ascii key h.1, List.foldl_map]
  have := foldl_charCodes key.toList 0 (le_refl _) (by simpa [charSum] using h.2)
  simp only [this, zero_add]
  have h0 := charSum_nonneg key
  unfold charSum at h0
  rw [TABLE_SIZE]
  rw [Int.tmod_eq_emod h0 (by decide)]
  rfl

theorem hashFunction_range (key : String) (h : validKey key) :
    0 ≤ hashFunction key ∧ hashFunction key < 100 := by
  rw [hashFunction_eq key h]
  omega

/-- The remainder by `TABLE_SIZE` is below `TABLE_SIZE` for every key. -/
theorem hashFunction_lt (key : String) : hashFunction key < 100 := by
  unfold hashFunction
  exact Int.tmod_lt_of_pos _ (by decide)

/-- The hash on the bytes of three ids: an ASCII id, an id whose `char`s add up to 196,
and an id whose `char`s add up to -148. -/
theorem hashFunction_signed_bytes :
    stringChars "V102" = [86, 49, 48, 50] ∧ hashFunction "V102" = 33 ∧
    stringChars "éVVVV" = [-61, -87, 86, 86, 86, 86] ∧ hashFunction "éVVVV" = 96 ∧
    stringChars "é" = [-61, -87] ∧ hashFunction "é" = -48 := by
  decide

theorem HashTable.bucket_some (t : HashTable) (index : Int) (chain : List HashNode)
    (h : t.bucket index = some chain) : 0 ≤ index ∧ t.table[index.toNat]? = some chain := by
  unfold HashTable.bucket at h
  by_cases h0 : 0 ≤ index
  · rw [if_pos h0] at h; exact ⟨h0, h⟩
  · rw [if_neg h0] at h; cases h

theorem HashTable.bucket_of_range (t : HashTable) (hsize : t.table.length = TABLE_SIZE)
    (index : Int) (h0 : 0 ≤ index) (h1 : index < 100) :
    ∃ chain, t.bucket index = some chain := by
  unfold HashTable.bucket
  rw [if_pos h0]
  have : index.toNat < t.table.length := by rw [hsize, TABLE_SIZE]; omega
  exact ⟨t.table[index.toNat], List.getElem?_eq_getElem this⟩

theorem sum_map_set {α : Type} (f : α → Nat) (x : α) :
    ∀ (l : List α) (i : Nat) (y : α), l[i]? = some y →
      ((l.set i x).map f).sum + f y = (l.map f).sum + f x := by
  intro l
  induction l with
  | nil => intro i y h; simp at h
  | cons a as ih =>
    intro i y h
    cases i with
    | zero =>
      simp at h; subst h
      simp only [List.set_cons_zero, List.map_cons, List.sum_cons]; omega
    | succ j =>
      simp at h
      have := ih j y h
      simp only [List.set_cons_succ, List.map_cons, List.sum_cons]; omega

theorem mem_set_cases {α : Type} (l : List α) (i : Nat) (x c : α) (h : c ∈ l.set i x) :
    c = x ∨ ∃ j, j ≠ i ∧ l[j]? = some c := by
  obtain ⟨n, hn⟩ := List.mem_iff_getElem?.mp h
  rw [List.getElem?_set] at hn
  by_cases hin : i = n
  · rw [if_pos hin] at hn
    split at hn
    · left; exact (Option.some.inj hn).symm
    · cases hn
  · rw [if_neg hin] at hn
    right; exact ⟨n, fun h => hin h.symm, hn⟩

theorem HashTable.table_wellFormed_empty : HashTable.empty.WellFormed := by
  have hmem : ∀ chain ∈ HashTable.empty.table, chain = [] := by
    intro chain h
    exact (List.mem_replicate.mp h).2
  refine ⟨by simp [HashTable.empty], ?_, ?_, ?_, ?_⟩
  · intro i chain h node hn
    have := hmem chain (List.mem_iff_getElem?.mpr ⟨i, h⟩)
    subst this; cases hn
  · intro chain h; rw [hmem chain h]; exact List.nodup_nil
  · intro chain h node hn; rw [hmem chain h] at hn; cases hn
  · simp [HashTable.empty]

theorem HashTable.stores_iff_bucket (t : HashTable) (hw : t.WellFormed) (id : String)
    (p : VehiclePtr) :
    t.Stores id p ↔
      ∃ chain, t.bucket (hashFunction id) = some chain ∧ ({ key := id, vehicle := p } : HashNode) ∈ chain := by
  constructor
  · rintro ⟨chain, hc, hn⟩
    obtain ⟨i, hi⟩ := List.mem_iff_getElem?.mp hc
    have hh := hw.bucket_eq i chain hi _ hn
    simp only at hh
    refine ⟨chain, ?_, hn⟩
    unfold HashTable.bucket
    rw [hh, if_pos (by omega)]
    simpa using hi
  · rintro ⟨chain, hb, hn⟩
    obtain ⟨-, hi⟩ := HashTable.bucket_some t _ _ hb
    exact ⟨chain, List.mem_iff_getElem?.mpr ⟨_, hi⟩, hn⟩

theorem find_key_of_nodup (chain : List HashNode) (id : String) (p : VehiclePtr)
    (hnd : (chain.map HashNode.key).Nodup) (hn : ({ key := id, vehicle := p } : HashNode) ∈ chain) :
    chain.find? (fun node => node.key == id) = some { key := id, vehicle := p } := by
  induction chain with
  | nil => cases hn
  | cons a as ih =>
    simp only [List.map_cons, List.nodup_cons] at hnd
    rcases List.mem_cons.mp hn with h | h
    · subst h; simp
    · have hne : a.key ≠ id := by
        intro he
        apply hnd.1
        rw [he]
        exact List.mem_map.mpr ⟨_, h, rfl⟩
      rw [List.find?_cons_of_neg _ (by simpa using hne)]
      exact ih hnd.2 h

/-- In a well-formed table `search` returns the vehicle stored under the id. -/
theorem HashTable.search_of_stores (t : HashTable) (hw : t.WellFormed) (id : String)
    (p : VehiclePtr) (hs : t.Stores id p) : t.search id = some p := by
  obtain ⟨chain, hb, hn⟩ := (HashTable.stores_iff_bucket t hw id p).mp hs
  obtain ⟨-, hi⟩ := HashTable.bucket_some t _ _ hb
  unfold HashTable.search
  rw [hb]
  simp only
  rw [find_key_of_nodup chain id p (hw.keys_nodup chain (List.mem_iff_getElem?.mpr ⟨_, hi⟩)) hn]

/-- When no entry of the id's bucket has the id, `search` returns `NULL`. -/
theorem HashTable.search_of_absent (t : HashTable) (id : String) (chain : List HashNode)
    (hb : t.bucket (hashFunction id) = some chain) (hn : ∀ node ∈ chain, node.key ≠ id) :
    t.search id = some NULL := by
  unfold HashTable.search
  rw [hb]
  simp only
  have : chain.find? (fun node => node.key == id) = none := by
    rw [List.find?_eq_none]
    intro x hx; simpa using hn x hx
  rw [this]

/-- Anatomy of a successful `insert`: the new entry heads the chain of its bucket. -/
theorem HashTable.insert_true (mem : VehicleMem) (t t1 : HashTable) (v : VehiclePtr)
    (h : HashTable.insert mem t v = some (true, t1)) :
    v ≠ NULL ∧ ∃ chain, t.bucket (hashFunction (mem v).vehicleId) = some chain ∧
      (∀ node ∈ chain, node.key ≠ (mem v).vehicleId) ∧
      t1 = { table := t.table.set (hashFunction (mem v).vehicleId).toNat
                ({ key := (mem v).vehicleId, vehicle := v } :: chain),
             totalVehicles := t.totalVehicles + 1 } := by
  unfold HashTable.insert at h
  by_cases hv : v = NULL
  · rw [if_pos hv] at h; simp at h
  · rw [if_neg hv] at h
    simp only at h
    cases hb : t.bucket (hashFunction (mem v).vehicleId) with
    | none => rw [hb] at h; cases h
    | some chain =>
      rw [hb] at h
      simp only at h
      by_cases ha : chain.any (fun node => node.key == (mem v).vehicleId) = true
      · rw [if_pos ha] at h; simp at h
      · rw [if_neg ha] at h
        refine ⟨hv, chain, rfl, ?_, ?_⟩
        · intro node hn he
          apply ha
          rw [List.any_eq_true]
          exact ⟨node, hn, by simpa using he⟩
        · simp at h; exact h.symm

/-- A rejected `insert` leaves the table as it was. -/
theorem HashTable.insert_false (mem : VehicleMem) (t t1 : HashTable) (v : VehiclePtr)
    (h : HashTable.insert mem t v = some (false, t1)) : t1 = t := by
  unfold HashTable.insert at h
  by_cases hv : v = NULL
  · rw [if_pos hv] at h; simp at h; exact h.symm
  · rw [if_neg hv] at h
    simp only at h
    cases hb : t.bucket (hashFunction (mem v).vehicleId) with
    | none => rw [hb] at h; cases h
    | some chain =>
      rw [hb] at h
      simp only at h
      by_cases ha : chain.any (fun node => node.key == (mem v).vehicleId) = true
      · rw [if_pos ha] at h; simp at h; exact h.symm
      · rw [if_neg ha] at h; simp at h

theorem HashTable.wellFormed_set (t : HashTable) (hw : t.WellFormed) (index : Int)
    (chain newChain : List HashNode) (total : Int)
    (hb : t.bucket index = some chain)
    (hkeys : (newChain.map HashNode.key).Nodup)
    (hhash : ∀ node ∈ newChain, hashFunction node.key = index)
    (hnull : ∀ node ∈ newChain, node.vehicle ≠ NULL)
    (htotal : total + chain.length = t.totalVehicles + newChain.length) :
    HashTable.WellFormed { table := t.table.set index.toNat newChain, totalVehicles := total } := by
  obtain ⟨h0, hi⟩ := HashTable.bucket_some t _ _ hb
  refine ⟨by simp [hw.size_eq], ?_, ?_, ?_, ?_⟩
  · intro j c hj node hn
    simp only [List.getElem?_set] at hj
    by_cases hij : index.toNat = j
    · rw [if_pos hij] at hj
      split at hj
      · have := Option.some.inj hj; subst this
        rw [hhash node hn, ← hij]; omega
      · cases hj
    · rw [if_neg hij] at hj
      exact hw.bucket_eq j c hj node hn
  · intro c hc
    rcases mem_set_cases _ _ _ _ hc with h | ⟨j, -, hj⟩
    · subst h; exact hkeys
    · exact hw.keys_nodup c (List.mem_iff_getElem?.mpr ⟨j, hj⟩)
  · intro c hc
    rcases mem_set_cases _ _ _ _ hc with h | ⟨j, -, hj⟩
    · subst h; exact hnull
    · exact hw.not_null c (List.mem_iff_getElem?.mpr ⟨j, hj⟩)
  · have hsum := sum_map_set List.length newChain t.table index.toNat chain hi
    have := hw.total_eq
    simp only at htotal ⊢
    omega

theorem HashTable.wellFormed_insert (mem : VehicleMem) (t t1 : HashTable) (v : VehiclePtr)
    (ok : Bool) (hw : t.WellFormed) (h : HashTable.insert mem t v = some (ok, t1)) :
    t1.WellFormed := by
  cases ok with
  | false => rw [HashTable.insert_false mem t t1 v h]; exact hw
  | true =>
    obtain ⟨hv, chain, hb, hnew, ht1⟩ := HashTable.insert_true mem t t1 v h
    obtain ⟨h0, hi⟩ := HashTable.bucket_some t _ _ hb
    have hc : chain ∈ t.table := List.mem_iff_getElem?.mpr ⟨_, hi⟩
    rw [ht1]
    apply HashTable.wellFormed_set t hw _ chain _ _ hb
    · simp only [List.map_cons, List.nodup_cons]
      refine ⟨?_, hw.keys_nodup chain hc⟩
      intro hm
      obtain ⟨node, hn, he⟩ := List.mem_map.mp hm
      exact hnew node hn he
    · intro node hn
      rcases List.mem_cons.mp hn with h | h
      · subst h; rfl
      · rw [hw.bucket_eq _ chain hi node h]; omega
    · intro node hn
      rcases List.mem_cons.mp hn with h | h
      · subst h; exact hv
      · exact hw.not_null chain hc node h
    · simp only [List.length_cons]; push_cast; omega

/-- Anatomy of `deleteVehicle`: either the id's chain has no entry with the id and the
table is unchanged, or the first such entry is unlinked. -/
theorem HashTable.deleteVehicle_cases (t t1 : HashTable) (id : String) (ok : Bool)
    (h : HashTable.deleteVehicle t id = some (ok, t1)) :
    ∃ chain, t.bucket (hashFunction id) = some chain ∧
      ((ok = false ∧ t1 = t ∧ ∀ node ∈ chain, node.key ≠ id) ∨
       (ok = true ∧ (∃ node ∈ chain, node.key = id) ∧
        t1 = { table := t.table.set (hashFunction id).toNat
                  (chain.eraseP (fun node => node.key == id)),
               totalVehicles := t.totalVehicles - 1 })) := by
  unfold HashTable.deleteVehicle at h
  simp only at h
  cases hb : t.bucket (hashFunction id) with
  | none => rw [hb] at h; cases h
  | some chain =>
    rw [hb] at h
    simp only at h
    refine ⟨chain, rfl, ?_⟩
    by_cases ha : chain.any (fun node => node.key == id) = true
    · rw [if_pos ha] at h
      right
      simp only [Option.some.injEq, Prod.mk.injEq] at h
      refine ⟨h.1.symm, ?_, h.2.symm⟩
      obtain ⟨node, hn, he⟩ := List.any_eq_true.mp ha
      exact ⟨node, hn, by simpa using he⟩
    · rw [if_neg ha] at h
      left
      simp only [Option.some.injEq, Prod.mk.injEq] at h
      refine ⟨h.1.symm, h.2.symm, ?_⟩
      intro node hn he
      apply ha
      rw [List.any_eq_true]
      exact ⟨node, hn, by simpa using he⟩

theorem eraseP_key_absent (id : String) (chain : List HashNode)
    (hnd : (chain.map HashNode.key).Nodup) :
    ∀ node ∈ chain.eraseP (fun node => node.key == id), node.key ≠ id := by
  induction chain with
  | nil => intro node hn; simp at hn
  | cons a as ih =>
    simp only [List.map_cons, List.nodup_cons] at hnd
    intro node hn
    rw [List.eraseP_cons] at hn
    by_cases ha : a.key = id
    · have : (a.key == id) = true := by simpa using ha
      rw [this] at hn
      simp only [cond_true] at hn
      intro he
      apply hnd.1
      rw [ha, ← he]
      exact List.mem_map.mpr ⟨node, hn, rfl⟩
    · have : (a.key == id) = false := by simpa using ha
      rw [this] at hn
      simp only [cond_false] at hn
      rcases List.mem_cons.mp hn with h | h
      · subst h; exact ha
      · exact ih hnd.2 node h

theorem HashTable.wellFormed_deleteVehicle (t t1 : HashTable) (id : String) (ok : Bool)
    (hw : t.WellFormed) (h : HashTable.deleteVehicle t id = some (ok, t1)) : t1.WellFormed := by
  obtain ⟨chain, hb, hcase⟩ := HashTable.deleteVehicle_cases t t1 id ok h
  rcases hcase with ⟨-, ht1, -⟩ | ⟨-, ⟨node, hn, he⟩, ht1⟩
  · rw [ht1]; exact hw
  · obtain ⟨h0, hi⟩ := HashTable.bucket_some t _ _ hb
    have hc : chain ∈ t.table := List.mem_iff_getElem?.mpr ⟨_, hi⟩
    have hsub := List.eraseP_sublist (p := fun node => node.key == id) chain
    rw [ht1]
    apply HashTable.wellFormed_set t hw _ chain _ _ hb
    · exact List.Nodup.sublist (hsub.map _) (hw.keys_nodup chain hc)
    · intro x hx
      rw [hw.bucket_eq _ chain hi x (hsub.subset hx)]; omega
    · intro x hx
      exact hw.not_null chain hc x (hsub.subset hx)
    · have hany : chain.any (fun node => node.key == id) = true :=
        List.any_eq_true.mpr ⟨node, hn, by simpa using he⟩
      have hlen : 0 < chain.length := List.length_pos_of_mem hn
      rw [List.length_eraseP, if_pos hany]
      push_cast [Nat.cast_sub (Nat.succ_le_of_lt hlen)]
      omega

/-- Every table reached from the empty one is well formed. -/
theorem HashTable.wellFormed_of_reachable (mem : VehicleMem) (t : HashTable)
    (h : HashTable.Reachable mem t) : t.WellFormed := by
  induction h with
  | empty => exact HashTable.table_wellFormed_empty
  | insert t t1 v ok _ hins ih => exact HashTable.wellFormed_insert mem t t1 v ok ih hins
  | deleteVehicle t t1 id ok _ hdel ih => exact HashTable.wellFormed_deleteVehicle t t1 id ok ih hdel

/-- A vehicle whose id is not stored yet, and whose id has a hash that is not negative, is
accepted, and afterwards the table stores what it stored before and the new entry. -/
theorem HashTable.insert_new (mem : VehicleMem) (t : HashTable) (v : VehiclePtr)
    (hw : t.WellFormed) (hv : v ≠ NULL) (hidx : 0 ≤ hashFunction (mem v).vehicleId)
    (hnew : ∀ p, ¬ t.Stores (mem v).vehicleId p) :
    ∃ t1, HashTable.insert mem t v = some (true, t1) ∧ t1.WellFormed ∧
      t1.Stores (mem v).vehicleId v ∧ ∀ id p, t.Stores id p → t1.Stores id p := by
  have h0 := hidx
  have h1 := hashFunction_lt (mem v).vehicleId
  obtain ⟨chain, hb⟩ := HashTable.bucket_of_range t hw.size_eq _ h0 h1
  obtain ⟨-, hi⟩ := HashTable.bucket_some t _ _ hb
  have hlt : (hashFunction (mem v).vehicleId).toNat < t.table.length := by
    rw [hw.size_eq, TABLE_SIZE]; omega
  have hany : ¬ chain.any (fun node => node.key == (mem v).vehicleId) = true := by
    intro ha
    obtain ⟨node, hn, he⟩ := List.any_eq_true.mp ha
    have he2 : node.key = (mem v).vehicleId := by simpa using he
    apply hnew node.vehicle
    refine ⟨chain, List.mem_iff_getElem?.mpr ⟨_, hi⟩, ?_⟩
    rw [← he2]; exact hn
  have hins : HashTable.insert mem t v = some (true,
      { table := t.table.set (hashFunction (mem v).vehicleId).toNat
          ({ key := (mem v).vehicleId, vehicle := v } :: chain),
        totalVehicles := t.totalVehicles + 1 }) := by
    unfold HashTable.insert
    rw [if_neg hv]
    simp only [hb]
    rw [if_neg hany]
  refine ⟨_, hins, HashTable.wellFormed_insert mem t _ v true hw hins, ?_, ?_⟩
  · refine ⟨{ key := (mem v).vehicleId, vehicle := v } :: chain, ?_, List.mem_cons_self _ _⟩
    exact List.mem_iff_getElem?.mpr ⟨_, by rw [List.getElem?_set_self hlt]⟩
  · rintro id p ⟨c, hc, hn⟩
    obtain ⟨j, hj⟩ := List.mem_iff_getElem?.mp hc
    by_cases hij : (hashFunction (mem v).vehicleId).toNat = j
    · have : c = chain := by
        rw [← hij, hi] at hj; exact (Option.some.inj hj).symm
      subst this
      refine ⟨{ key := (mem v).vehicleId, vehicle := v } :: c, ?_, List.mem_cons_of_mem _ hn⟩
      exact List.mem_iff_getElem?.mpr ⟨_, by rw [List.getElem?_set_self hlt]⟩
    · refine ⟨c, ?_, hn⟩
      exact List.mem_iff_getElem?.mpr ⟨j, by rw [List.getElem?_set_ne hij]; exact hj⟩

theorem HashTable.not_stores_empty (id : String) (p : VehiclePtr) :
    ¬ HashTable.empty.Stores id p := by
  rintro ⟨chain, hc, hn⟩
  have : chain = [] := (List.mem_replicate.mp hc).2
  subst this; cases hn

theorem HashTable.insertAll_new (mem : VehicleMem) (vs : List VehiclePtr) :
    ∀ t : HashTable, t.WellFormed → (∀ v ∈ vs, v ≠ NULL) →
      (∀ v ∈ vs, 0 ≤ hashFunction (mem v).vehicleId) →
      (vs.map (vehicleIdOf mem)).Nodup →
      (∀ v ∈ vs, ∀ p, ¬ t.Stores (mem v).vehicleId p) →
      ∃ oks t1, HashTable.insertAll mem t vs = some (oks, t1) ∧
        oks = List.replicate vs.length true ∧ t1.WellFormed ∧
        (∀ v ∈ vs, t1.Stores (mem v).vehicleId v) ∧
        (∀ id p, t.Stores id p → t1.Stores id p) := by
  induction vs with
  | nil =>
    intro t hw _ _ _ _
    exact ⟨[], t, rfl, rfl, hw, fun v hv => absurd hv (List.not_mem_nil v), fun _ _ h => h⟩
  | cons v vs ih =>
    intro t hw hnn hfit hnd hnew
    simp only [List.map_cons, List.nodup_cons] at hnd
    obtain ⟨t1, hins, hw1, hst, hkeep⟩ := HashTable.insert_new mem t v hw
      (hnn v (List.mem_cons_self _ _)) (hfit v (List.mem_cons_self _ _))
      (hnew v (List.mem_cons_self _ _))
    have hnew1 : ∀ x ∈ vs, ∀ p, ¬ t1.Stores (mem x).vehicleId p := by
      intro x hx p hs
      have hne : (mem x).vehicleId ≠ (mem v).vehicleId := by
        intro he
        apply hnd.1
        exact List.mem_map.mpr ⟨x, hx, he⟩
      obtain ⟨v1, chain, hb, hnew', ht1⟩ := HashTable.insert_true mem t t1 v hins
      obtain ⟨c, hc, hn⟩ := hs
      rw [ht1] at hc
      rcases mem_set_cases _ _ _ _ hc with h | ⟨j, -, hj⟩
      · subst h
        rcases List.mem_cons.mp hn with h | h
        · exact hne (congrArg HashNode.key h)
        · obtain ⟨-, hi⟩ := HashTable.bucket_some t _ _ hb
          exact hnew x (List.mem_cons_of_mem _ hx) p
            ⟨chain, List.mem_iff_getElem?.mpr ⟨_, hi⟩, h⟩
      · exact hnew x (List.mem_cons_of_mem _ hx) p ⟨c, List.mem_iff_getElem?.mpr ⟨j, hj⟩, hn⟩
    obtain ⟨oks, t2, hall, hoks, hw2, hst2, hkeep2⟩ := ih t1 hw1
      (fun x hx => hnn x (List.mem_cons_of_mem _ hx))
      (fun x hx => hfit x (List.mem_cons_of_mem _ hx)) hnd.2 hnew1
    refine ⟨true :: oks, t2, ?_, ?_, hw2, ?_, ?_⟩
    · simp only [HashTable.insertAll, hins, hall]
    · simp [hoks, List.replicate_succ]
    · intro x hx
      rcases List.mem_cons.mp hx with h | h
      · subst h; exact hkeep2 _ _ hst
      · exact hst2 x h
    · intro id p hs
      exact hkeep2 id p (hkeep id p hs)

theorem HashTable.table_reachable_insertAll (mem : VehicleMem) (vs : List VehiclePtr) :
    ∀ (t t1 : HashTable) (oks : List Bool), HashTable.Reachable mem t →
      HashTable.insertAll mem t vs = some (oks, t1) → HashTable.Reachable mem t1 := by
  induction vs with
  | nil =>
    intro t t1 oks hr hall
    simp only [HashTable.insertAll, Option.some.injEq, Prod.mk.injEq] at hall
    rw [← hall.2]; exact hr
  | cons v vs ih =>
    intro t t1 oks hr hall
    simp only [HashTable.insertAll] at hall
    cases hins : HashTable.insert mem t v with
    | none => rw [hins] at hall; cases hall
    | some r =>
      obtain ⟨ok, t2⟩ := r
      rw [hins] at hall
      simp only at hall
      cases hrest : HashTable.insertAll mem t2 vs with
      | none => rw [hrest] at hall; cases hall
      | some r2 =>
        obtain ⟨oks2, t3⟩ := r2
        rw [hrest] at hall
        simp only [Option.some.injEq, Prod.mk.injEq] at hall
        rw [← hall.2]
        exact ih t2 t3 oks2 (HashTable.Reachable.insert t t2 v ok hr hins) hrest

theorem mainTable_eq :
    HashTable.insertAll mainMem HashTable.empty [1, 2, 3, 4]
      = some ([true, true, true, true], mainTable) := by
  rfl

theorem mainTable_reachable : HashTable.Reachable mainMem mainTable :=
  HashTable.table_reachable_insertAll mainMem _ _ _ _ HashTable.Reachable.empty mainTable_eq

theorem mainTable_stores : mainTable.Stores "V002" 2 := by
  unfold HashTable.Stores; decide

/-- Vehicles with pairwise distinct ids whose hash is not negative (any number of them,
also more than `TABLE_SIZE`), inserted into an empty table, are all accepted, and
afterwards `search` returns for each inserted id exactly the vehicle inserted under
it. -/
theorem HashTable.insert_then_search (mem : VehicleMem) (vs : List VehiclePtr)
    (hnn : ∀ v ∈ vs, v ≠ NULL)
    (hidx : ∀ v ∈ vs, 0 ≤ hashFunction (mem v).vehicleId)
    (hnd : (vs.map (vehicleIdOf mem)).Nodup) :
    ∃ t, HashTable.insertAll mem HashTable.empty vs = some (List.replicate vs.length true, t) ∧
      ∀ v ∈ vs, t.search (mem v).vehicleId = some v := by
  obtain ⟨oks, t, hall, hoks, hw, hst, -⟩ := HashTable.insertAll_new mem vs HashTable.empty
    HashTable.table_wellFormed_empty hnn hidx hnd
    (fun v _ p => HashTable.not_stores_empty _ p)
  subst hoks
  exact ⟨t, hall, fun v hv => HashTable.search_of_stores t hw _ v (hst v hv)⟩

/-- The four vehicles of `main`, and a vehicle with the id `éVVVV`, whose `char`s add up
to 196: all are accepted and found. -/
theorem HashTable.insert_then_search_main :
    (∀ v ∈ [1, 2, 3, 4, 402], v ≠ NULL) ∧
    (∀ v ∈ [1, 2, 3, 4, 402], 0 ≤ hashFunction (accentMem v).vehicleId) ∧
    ([1, 2, 3, 4, 402].map (vehicleIdOf accentMem)).Nodup ∧
    hashFunction "éVVVV" = 96 ∧
    ∃ t, HashTable.insertAll accentMem HashTable.empty [1, 2, 3, 4, 402]
        = some (List.replicate 5 true, t) ∧
      ∀ v ∈ [1, 2, 3, 4, 402], t.search (accentMem v).vehicleId = some v :=
  ⟨by decide, by decide, by decide, by decide,
    HashTable.insert_then_search accentMem [1, 2, 3, 4, 402] (by decide) (by decide)
      (by decide)⟩

/-- C9: inserting a vehicle whose id is already stored returns `false` and leaves the
table unchanged, so `search` of that id still returns the stored record, every other
search result and `getTotalVehicles` are as before. -/
theorem HashTable.insert_duplicate (mem : VehicleMem) (t : HashTable) (v p : VehiclePtr)
    (hr : HashTable.Reachable mem t) (hs : t.Stores (mem v).vehicleId p) :
    ∃ t1, HashTable.insert mem t v = some (false, t1) ∧
      t1.search (mem v).vehicleId = some p ∧
      (∀ id, t1.search id = t.search id) ∧
      t1.getTotalVehicles = t.getTotalVehicles ∧ t1 = t := by
  have hw := HashTable.wellFormed_of_reachable mem t hr
  have hsearch := HashTable.search_of_stores t hw _ p hs
  refine ⟨t, ?_, hsearch, fun _ => rfl, rfl, rfl⟩
  unfold HashTable.insert
  by_cases hv : v = NULL
  · rw [if_pos hv]
  · rw [if_neg hv]
    obtain ⟨chain, hb, hn⟩ := (HashTable.stores_iff_bucket t hw _ p).mp hs
    simp only [hb]
    have hany : chain.any (fun node => node.key == (mem v).vehicleId) = true :=
      List.any_eq_true.mpr ⟨_, hn, by simp⟩
    rw [if_pos hany]

theorem HashTable.insert_duplicate_witness :
    HashTable.Reachable mainMem mainTable ∧ mainTable.Stores (mainMem 2).vehicleId 2 ∧
    ∃ t1, HashTable.insert mainMem mainTable 2 = some (false, t1) ∧
      t1.search (mainMem 2).vehicleId = some 2 ∧
      (∀ id, t1.search id = mainTable.search id) ∧
      t1.getTotalVehicles = mainTable.getTotalVehicles ∧ t1 = mainTable :=
  ⟨mainTable_reachable, mainTable_stores,
    HashTable.insert_duplicate mainMem mainTable 2 2 mainTable_reachable mainTable_stores⟩

/-- C10: deleting a stored id returns `true`, lowers `getTotalVehicles` by exactly one,
and a following `search` of the id returns `NULL`. -/
theorem HashTable.delete_then_search (mem : VehicleMem) (t : HashTable) (id : String)
    (p : VehiclePtr) (hr : HashTable.Reachable mem t) (hs : t.Stores id p) :
    ∃ t1, t.deleteVehicle id = some (true, t1) ∧
      t1.getTotalVehicles = t.getTotalVehicles - 1 ∧
      t1.search id = some NULL := by
  have hw := HashTable.wellFormed_of_reachable mem t hr
  obtain ⟨chain, hb, hn⟩ := (HashTable.stores_iff_bucket t hw id p).mp hs
  obtain ⟨h0, hi⟩ := HashTable.bucket_some t _ _ hb
  have hany : chain.any (fun node => node.key == id) = true :=
    List.any_eq_true.mpr ⟨_, hn, by simp⟩
  have hdel : t.deleteVehicle id = some (true,
      { table := t.table.set (hashFunction id).toNat (chain.eraseP (fun node => node.key == id)),
        totalVehicles := t.totalVehicles - 1 }) := by
    unfold HashTable.deleteVehicle
    simp only [hb]
    rw [if_pos hany]
  refine ⟨_, hdel, rfl, ?_⟩
  have hlt : (hashFunction id).toNat < t.table.length := by
    by_contra hge
    rw [List.getElem?_eq_none (by omega)] at hi
    cases hi
  apply HashTable.search_of_absent _ id (chain.eraseP (fun node => node.key == id))
  · unfold HashTable.bucket
    rw [if_pos h0]
    simp only
    rw [List.getElem?_set_self hlt]
  · exact eraseP_key_absent id chain (hw.keys_nodup chain (List.mem_iff_getElem?.mpr ⟨_, hi⟩))

theorem HashTable.delete_then_search_witness :
    HashTable.Reachable mainMem mainTable ∧ mainTable.Stores "V002" 2 ∧
    ∃ t1, mainTable.deleteVehicle "V002" = some (true, t1) ∧
      t1.getTotalVehicles = mainTable.getTotalVehicles - 1 ∧
      t1.search "V002" = some NULL :=
  ⟨mainTable_reachable, mainTable_stores,
    HashTable.delete_then_search mainMem mainTable "V002" 2 mainTable_reachable mainTable_stores⟩

/-! ## Sorted index -/

theorem strLt_iff (a b : String) : strLt a b = true ↔ a.toList < b.toList := by
  simp [strLt]

theorem not_decide_lt (a b : List Char) : (!decide (a < b)) = decide (b ≤ a) := by
  by_cases h : a < b
  · simp [h, not_le.mpr h]
  · simp [h, not_lt.mp h]

theorem BTree.index_wellFormed_empty : BTree.empty.WellFormed := by
  simp [BTree.WellFormed, BTree.empty]

theorem BTree.stored_empty : BTree.empty.stored = [] := by
  simp [BTree.stored, BTree.empty]

theorem BTree.stored_length (t : BTree) (hw : t.WellFormed) : t.stored.length = t.count := by
  unfold BTree.stored
  rw [List.length_take]
  have := hw.1; have := hw.2
  omega

theorem BTree.stored_getD (t : BTree) (i : Nat) (h : i < t.count) :
    t.stored.getD i NULL = t.vehicles.getD i NULL :=
  getD_take t.vehicles t.count i NULL h

/-- What the shift loop leaves in each cell. -/
theorem BTree.shiftRight_spec (pos : Nat) :
    ∀ (k : Nat) (arr : List VehiclePtr), pos + k < arr.length →
      (BTree.shiftRight pos k arr).length = arr.length ∧
      ∀ j, (BTree.shiftRight pos k arr).getD j NULL =
        if pos < j ∧ j ≤ pos + k then arr.getD (j - 1) NULL else arr.getD j NULL := by
  intro k
  induction k with
  | zero =>
    intro arr _
    refine ⟨rfl, fun j => ?_⟩
    have : ¬ (pos < j ∧ j ≤ pos + 0) := by omega
    rw [if_neg this]; rfl
  | succ k ih =>
    intro arr hlen
    have hlen2 : pos + k < (arr.set (pos + k + 1) (arr.getD (pos + k) NULL)).length := by
      rw [List.length_set]; omega
    obtain ⟨h1, h2⟩ := ih (arr.set (pos + k + 1) (arr.getD (pos + k) NULL)) hlen2
    refine ⟨by rw [BTree.shiftRight, h1, List.length_set], fun j => ?_⟩
    rw [BTree.shiftRight, h2 j]
    by_cases hj : pos < j ∧ j ≤ pos + k
    · rw [if_pos hj, if_pos (by omega)]
      exact getD_set_other _ _ _ _ _ (by omega)
    · rw [if_neg hj]
      by_cases hj2 : j = pos + k + 1
      · rw [if_pos (by omega), hj2]
        rw [getD_set_self _ _ _ _ (by omega)]
        rfl
      · rw [if_neg (by omega)]
        exact getD_set_other _ _ _ _ _ (by omega)

/-- What the scan of `findInsertPosition` returns. -/
theorem BTree.findInsertPositionFrom_spec (mem : VehicleMem) (t : BTree) (id : String) :
    ∀ (remaining pos : Nat), pos + remaining = t.count →
      pos ≤ BTree.findInsertPositionFrom mem t id remaining pos ∧
      BTree.findInsertPositionFrom mem t id remaining pos ≤ t.count ∧
      (∀ i, pos ≤ i → i < BTree.findInsertPositionFrom mem t id remaining pos →
        (t.idAt mem i).toList < id.toList) ∧
      (BTree.findInsertPositionFrom mem t id remaining pos < t.count →
        ¬ (t.idAt mem (BTree.findInsertPositionFrom mem t id remaining pos)).toList < id.toList) := by
  intro remaining
  induction remaining with
  | zero =>
    intro pos h
    simp only [BTree.findInsertPositionFrom]
    exact ⟨le_refl _, by omega, fun i h1 h2 => by omega, fun h2 => by omega⟩
  | succ r ih =>
    intro pos h
    simp only [BTree.findInsertPositionFrom]
    by_cases hlt : strLt (t.idAt mem pos) id = true
    · rw [if_pos hlt]
      obtain ⟨h1, h2, h3, h4⟩ := ih (pos + 1) (by omega)
      refine ⟨by omega, h2, ?_, h4⟩
      intro i hi1 hi2
      by_cases hip : i = pos
      · subst hip; exact (strLt_iff _ _).mp hlt
      · exact h3 i (by omega) hi2
    · rw [if_neg hlt]
      refine ⟨le_refl _, by omega, fun i h1 h2 => by omega, fun _ => ?_⟩
      intro hc
      exact hlt ((strLt_iff _ _).mpr hc)

theorem BTree.findInsertPosition_spec (mem : VehicleMem) (t : BTree) (id : String) :
    t.findInsertPosition mem id ≤ t.count ∧
    (∀ i, i < t.findInsertPosition mem id → (t.idAt mem i).toList < id.toList) ∧
    (t.findInsertPosition mem id < t.count →
      ¬ (t.idAt mem (t.findInsertPosition mem id)).toList < id.toList) := by
  obtain ⟨-, h2, h3, h4⟩ := BTree.findInsertPositionFrom_spec mem t id t.count 0 (by omega)
  exact ⟨h2, fun i hi => h3 i (Nat.zero_le _) hi, h4⟩

/-- An accepted `insert` puts the vehicle into the stored sequence at the position found. -/
theorem BTree.stored_insert (mem : VehicleMem) (t : BTree) (v : VehiclePtr)
    (hw : t.WellFormed) (hc : t.count < MAX_VEHICLES) :
    (t.insert mem v).WellFormed ∧ (t.insert mem v).count = t.count + 1 ∧
    (t.insert mem v).stored =
      t.stored.take (t.findInsertPosition mem (mem v).vehicleId) ++
        v :: t.stored.drop (t.findInsertPosition mem (mem v).vehicleId) := by
  obtain ⟨hpos, -, -⟩ := BTree.findInsertPosition_spec mem t (mem v).vehicleId
  generalize hp : t.findInsertPosition mem (mem v).vehicleId = pos at hpos
  have hlen := hw.1
  have hins : t.insert mem v =
      { vehicles := (BTree.shiftRight pos (t.count - pos) t.vehicles).set pos v,
        count := t.count + 1 } := by
    unfold BTree.insert
    rw [if_neg (by omega)]
    simp only [hp]
  obtain ⟨hs1, hs2⟩ := BTree.shiftRight_spec pos (t.count - pos) t.vehicles (by omega)
  have hw2 : (t.insert mem v).WellFormed := by
    rw [hins]
    exact ⟨by simp only [List.length_set, hs1]; exact hlen, by simp only; omega⟩
  refine ⟨hw2, by rw [hins], ?_⟩
  have hslen := BTree.stored_length t hw
  apply ext_getD _ _ NULL
  · rw [BTree.stored_length _ hw2, hins]
    simp only [List.length_append, List.length_cons, List.length_take, List.length_drop, hslen]
    omega
  · intro i hi
    rw [BTree.stored_length _ hw2] at hi
    rw [BTree.stored_getD _ i hi]
    rw [hins] at hi ⊢
    simp only at hi ⊢
    have htl : (t.stored.take pos).length = pos := by
      rw [List.length_take, hslen]; omega
    rw [getD_set_if _ _ _ _ _ (by rw [hs1]; omega), hs2 i]
    by_cases h1 : i < pos
    · rw [if_neg (by omega), if_neg (by omega)]
      rw [getD_append_lt _ _ _ _ (by omega), getD_take _ _ _ _ h1]
      exact (BTree.stored_getD t i (by omega)).symm
    · rw [getD_append_ge _ _ _ _ (by omega), htl]
      by_cases h2 : pos = i
      · rw [if_pos h2, h2]; simp
      · rw [if_neg h2, if_pos (by omega)]
        have : i - pos = (i - pos - 1) + 1 := by omega
        rw [this, List.getD_cons_succ, getD_drop]
        have hidx : pos + (i - pos - 1) = i - 1 := by omega
        rw [hidx]
        exact (BTree.stored_getD t (i - 1) (by omega)).symm

/-- A rejected `insert` (index full) changes nothing. -/
theorem BTree.index_insert_full (mem : VehicleMem) (t : BTree) (v : VehiclePtr)
    (hc : ¬ t.count < MAX_VEHICLES) : t.insert mem v = t := by
  unfold BTree.insert
  rw [if_pos (by omega)]

theorem BTree.idAt_stored (mem : VehicleMem) (t : BTree) (i : Nat) (h : i < t.count) :
    (t.idAt mem i).toList = idKey mem (t.stored.getD i NULL) := by
  rw [BTree.stored_getD t i h]; rfl

theorem BTree.sorted_idAt (mem : VehicleMem) (t : BTree) (hw : t.WellFormed)
    (hs : t.IsSorted mem) (i j : Nat) (hij : i ≤ j) (hj : j < t.count) :
    (t.idAt mem i).toList ≤ (t.idAt mem j).toList := by
  rcases Nat.eq_or_lt_of_le hij with h | h
  · subst h; exact le_refl _
  · rw [BTree.idAt_stored mem t i (by omega), BTree.idAt_stored mem t j hj]
    exact pairwise_getD _ _ NULL hs i j h (by rw [BTree.stored_length t hw]; exact hj)

/-- Every `insert` keeps the stored sequence sorted. -/
theorem BTree.sorted_insert (mem : VehicleMem) (t : BTree) (v : VehiclePtr)
    (hw : t.WellFormed) (hs : t.IsSorted mem) :
    (t.insert mem v).WellFormed ∧ (t.insert mem v).IsSorted mem := by
  by_cases hc : t.count < MAX_VEHICLES
  · obtain ⟨hw2, -, hst⟩ := BTree.stored_insert mem t v hw hc
    refine ⟨hw2, ?_⟩
    obtain ⟨hpos, hbelow, habove⟩ := BTree.findInsertPosition_spec mem t (mem v).vehicleId
    unfold BTree.IsSorted
    rw [hst]
    generalize t.findInsertPosition mem (mem v).vehicleId = pos at hpos hbelow habove
    have hslen := BTree.stored_length t hw
    have htake : ∀ a ∈ t.stored.take pos, idKey mem a < idKey mem v := by
      intro a ha
      obtain ⟨i, hi, hia⟩ := (mem_iff_getD _ NULL a).mp ha
      rw [List.length_take] at hi
      rw [getD_take _ _ _ _ (by omega)] at hia
      rw [← hia, ← BTree.idAt_stored mem t i (by omega)]
      exact hbelow i (by omega)
    have hdrop : ∀ b ∈ t.stored.drop pos, idKey mem v ≤ idKey mem b := by
      intro b hb
      obtain ⟨j, hj, hjb⟩ := (mem_iff_getD _ NULL b).mp hb
      rw [List.length_drop] at hj
      rw [getD_drop] at hjb
      have hp : pos < t.count := by omega
      have h1 := BTree.sorted_idAt mem t hw hs pos (pos + j) (by omega) (by omega)
      have h2 := habove hp
      rw [← hjb, ← BTree.idAt_stored mem t (pos + j) (by omega)]
      exact le_trans (not_lt.mp h2) h1
    rw [List.pairwise_append]
    refine ⟨hs.sublist (List.take_sublist _ _), ?_, ?_⟩
    · rw [List.pairwise_cons]
      exact ⟨hdrop, hs.sublist (List.drop_sublist _ _)⟩
    · intro a ha b hb
      rcases List.mem_cons.mp hb with h | h
      · subst h; exact le_of_lt (htake a ha)
      · exact le_trans (le_of_lt (htake a ha)) (hdrop b h)
  · rw [BTree.index_insert_full mem t v hc]; exact ⟨hw, hs⟩

theorem BTree.sorted_insertAll (mem : VehicleMem) (vs : List VehiclePtr) :
    ∀ t : BTree, t.WellFormed → t.IsSorted mem →
      (t.insertAll mem vs).WellFormed ∧ (t.insertAll mem vs).IsSorted mem := by
  induction vs with
  | nil => intro t hw hs; exact ⟨hw, hs⟩
  | cons v vs ih =>
    intro t hw hs
    obtain ⟨hw1, hs1⟩ := BTree.sorted_insert mem t v hw hs
    exact ih (t.insert mem v) hw1 hs1

theorem BTree.sorted_empty (mem : VehicleMem) : BTree.empty.IsSorted mem := by
  unfold BTree.IsSorted
  rw [BTree.stored_empty]
  exact List.Pairwise.nil

/-- While there is room, the stored sequence is a rearrangement of what was inserted. -/
theorem BTree.perm_insertAll (mem : VehicleMem) (vs : List VehiclePtr) :
    ∀ t : BTree, t.WellFormed → t.count + vs.length ≤ MAX_VEHICLES →
      (t.insertAll mem vs).stored.Perm (vs ++ t.stored) := by
  induction vs with
  | nil => intro t _ _; exact List.Perm.refl _
  | cons v vs ih =>
    intro t hw hlen
    simp only [List.length_cons] at hlen
    obtain ⟨hw1, hc1, hst⟩ := BTree.stored_insert mem t v hw (by omega)
    have h1 := ih (t.insert mem v) hw1 (by omega)
    have h2 : (t.insert mem v).stored.Perm (v :: t.stored) := by
      rw [hst]
      have := @List.perm_middle _ v (t.stored.take (t.findInsertPosition mem (mem v).vehicleId))
        (t.stored.drop (t.findInsertPosition mem (mem v).vehicleId))
      rwa [List.take_append_drop] at this
    show ((t.insert mem v).insertAll mem vs).stored.Perm (v :: vs ++ t.stored)
    refine h1.trans ?_
    refine (List.Perm.append_left vs h2).trans ?_
    exact List.perm_middle

/-- The range query is the filter of the stored sequence by the range test. -/
theorem BTree.displayRange_eq (mem : VehicleMem) (t : BTree) (hw : t.WellFormed)
    (start stop : String) :
    t.displayRange mem start stop = t.stored.filter (inRange mem start stop) := by
  unfold BTree.displayRange BTree.stored
  rw [← map_range_getD t.vehicles t.count NULL (by have := hw.1; have := hw.2; omega)]
  rw [List.filter_map]
  congr 1
  apply List.filter_congr
  intro i _
  simp only [inRange, idKey, BTree.idAt, strLt, Function.comp, not_decide_lt]

/-- C6: after any sequence of `insert` calls on an empty index, in any order, the stored
sequence `vehicles[0..count)` is in non-decreasing id order. -/
theorem BTree.insert_preserves_sorted (mem : VehicleMem) (vs : List VehiclePtr) :
    (BTree.empty.insertAll mem vs).IsSorted mem :=
  (BTree.sorted_insertAll mem vs BTree.empty BTree.index_wellFormed_empty (BTree.sorted_empty mem)).2

/-- C5: after inserting at most 100 vehicles into an empty index, `displayRange(lo, hi)`
emits exactly the inserted vehicles whose id lies between `lo` and `hi` in
lexicographic order, each as often as it was inserted, in non-decreasing id order, and
emits nothing when no id qualifies. -/
theorem BTree.displayRange_exact (mem : VehicleMem) (vs : List VehiclePtr) (lo hi : String)
    (hlen : vs.length ≤ 100) :
    ((BTree.empty.insertAll mem vs).displayRange mem lo hi).Perm
        (vs.filter (fun v => decide (lo.toList ≤ idKey mem v ∧ idKey mem v ≤ hi.toList))) ∧
    ((BTree.empty.insertAll mem vs).displayRange mem lo hi).Pairwise
        (fun a b => idKey mem a ≤ idKey mem b) ∧
    ((∀ v ∈ vs, ¬ (lo.toList ≤ idKey mem v ∧ idKey mem v ≤ hi.toList)) →
      (BTree.empty.insertAll mem vs).displayRange mem lo hi = []) := by
  obtain ⟨hw, hs⟩ := BTree.sorted_insertAll mem vs BTree.empty BTree.index_wellFormed_empty
    (BTree.sorted_empty mem)
  have hperm := BTree.perm_insertAll mem vs BTree.empty BTree.index_wellFormed_empty
    (by simpa [BTree.empty, MAX_VEHICLES] using hlen)
  rw [BTree.stored_empty, List.append_nil] at hperm
  have hfun : (fun v => decide (lo.toList ≤ idKey mem v ∧ idKey mem v ≤ hi.toList))
      = inRange mem lo hi := by
    funext v; simp [inRange]
  rw [BTree.displayRange_eq mem _ hw, hfun]
  have hp := hperm.filter (inRange mem lo hi)
  refine ⟨hp, hs.filter _, ?_⟩
  intro hnone
  have : vs.filter (inRange mem lo hi) = [] := by
    rw [List.filter_eq_nil_iff]
    intro v hv
    have := hnone v hv
    simpa [inRange] using this
  rw [this] at hp
  exact hp.eq_nil

theorem BTree.displayRange_exact_witness :
    [205, 203, 208, 201, 207, 202].length ≤ 100 ∧
    ((BTree.empty.insertAll mainMem [205, 203, 208, 201, 207, 202]).displayRange mainMem
        "V203" "V207").Perm
      ([205, 203, 208, 201, 207, 202].filter
        (fun v => decide ("V203".toList ≤ idKey mainMem v ∧ idKey mainMem v ≤ "V207".toList))) ∧
    ((BTree.empty.insertAll mainMem [205, 203, 208, 201, 207, 202]).displayRange mainMem
        "V203" "V207").Pairwise (fun a b => idKey mainMem a ≤ idKey mainMem b) :=
  ⟨by decide,
    (BTree.displayRange_exact mainMem [205, 203, 208, 201, 207, 202] "V203" "V207"
      (by decide)).1,
    (BTree.displayRange_exact mainMem [205, 203, 208, 201, 207, 202] "V203" "V207"
      (by decide)).2.1⟩

/-- The binary-search loop on a sorted index: with enough fuel it returns, and it returns
either `-1` when no stored id equals the target or the index of a stored equal id. -/
theorem BTree.binarySearchLoop_spec (mem : VehicleMem) (t : BTree) (hw : t.WellFormed)
    (hs : t.IsSorted mem) (id : String) :
    ∀ (fuel : Nat) (left right : Int), 0 ≤ left → right < t.count →
      right - left + 1 ≤ fuel →
      (∀ i : Nat, (i : Int) < left → i < t.count → (t.idAt mem i).toList < id.toList) →
      (∀ i : Nat, right < (i : Int) → i < t.count → id.toList < (t.idAt mem i).toList) →
      ∃ r : Int, BTree.binarySearchLoop mem t id fuel left right = some r ∧
        ((r = -1 ∧ ∀ i : Nat, i < t.count → t.idAt mem i ≠ id) ∨
         (0 ≤ r ∧ r < t.count ∧ t.idAt mem r.toNat = id)) := by
  have hdone : ∀ (left right : Int), ¬ left ≤ right →
      (∀ i : Nat, (i : Int) < left → i < t.count → (t.idAt mem i).toList < id.toList) →
      (∀ i : Nat, right < (i : Int) → i < t.count → id.toList < (t.idAt mem i).toList) →
      ∀ i : Nat, i < t.count → t.idAt mem i ≠ id := by
    intro left right hlr hlo hhi i hi he
    by_cases h : (i : Int) < left
    · have := hlo i h hi
      rw [he] at this
      exact lt_irrefl _ this
    · have := hhi i (by omega) hi
      rw [he] at this
      exact lt_irrefl _ this
  intro fuel
  induction fuel with
  | zero =>
    intro left right h0 hr hfuel hlo hhi
    have hlr : ¬ left ≤ right := by
      have : ((0 : Nat) : Int) = 0 := rfl
      omega
    refine ⟨-1, ?_, Or.inl ⟨rfl, hdone left right hlr hlo hhi⟩⟩
    simp only [BTree.binarySearchLoop]
    rw [if_neg hlr]
  | succ fuel ih =>
    intro left right h0 hr hfuel hlo hhi
    simp only [BTree.binarySearchLoop]
    by_cases hlr : left ≤ right
    · rw [if_pos hlr]
      have hdiv : Int.tdiv (right - left) 2 = (right - left) / 2 :=
        Int.tdiv_eq_ediv (by omega) (by decide)
      rw [hdiv]
      generalize hmid : left + (right - left) / 2 = mid
      have hm1 : left ≤ mid := by omega
      have hm2 : mid ≤ right := by omega
      have hmn : ((mid.toNat : Nat) : Int) = mid := Int.toNat_of_nonneg (by omega)
      have hmc : mid.toNat < t.count := by omega
      by_cases heq : (t.idAt mem mid.toNat == id) = true
      · rw [if_pos heq]
        exact ⟨mid, rfl, Or.inr ⟨by omega, by omega, by simpa using heq⟩⟩
      · rw [if_neg heq]
        have hne : (t.idAt mem mid.toNat).toList ≠ id.toList := by
          intro h
          apply heq
          simpa using String.toList_inj.mp h
        by_cases hlt : strLt (t.idAt mem mid.toNat) id = true
        · rw [if_pos hlt]
          apply ih (mid + 1) right (by omega) hr (by push_cast at hfuel ⊢; omega) _ hhi
          intro i hi hic
          have hle := BTree.sorted_idAt mem t hw hs i mid.toNat (by omega) hmc
          exact lt_of_le_of_lt hle ((strLt_iff _ _).mp hlt)
        · rw [if_neg hlt]
          apply ih left (mid - 1) h0 (by omega) (by push_cast at hfuel ⊢; omega) hlo
          intro i hi hic
          have hle := BTree.sorted_idAt mem t hw hs mid.toNat i (by omega) hic
          have hge : ¬ (t.idAt mem mid.toNat).toList < id.toList :=
            fun h => hlt ((strLt_iff _ _).mpr h)
          have hgt : id.toList < (t.idAt mem mid.toNat).toList :=
            lt_of_le_of_ne (not_lt.mp hge) (fun h => hne h.symm)
          exact lt_of_lt_of_le hgt hle
    · rw [if_neg hlr]
      exact ⟨-1, rfl, Or.inl ⟨rfl, hdone left right hlr hlo hhi⟩⟩

theorem BTree.binarySearch_spec (mem : VehicleMem) (t : BTree) (hw : t.WellFormed)
    (hs : t.IsSorted mem) (id : String) :
    ∃ r : Int, t.binarySearch mem id = some r ∧
      ((r = -1 ∧ ∀ i : Nat, i < t.count → t.idAt mem i ≠ id) ∨
       (0 ≤ r ∧ r < t.count ∧ t.idAt mem r.toNat = id)) := by
  unfold BTree.binarySearch
  apply BTree.binarySearchLoop_spec mem t hw hs id t.count 0 ((t.count : Int) - 1)
    (le_refl _) (by omega) (by omega)
  · intro i hi; omega
  · intro i hi hic; omega

theorem BTree.linearMember_iff (mem : VehicleMem) (t : BTree) (hw : t.WellFormed) (id : String) :
    t.linearMember mem id = true ↔ ∃ i : Nat, i < t.count ∧ t.idAt mem i = id := by
  unfold BTree.linearMember
  rw [List.any_eq_true]
  constructor
  · rintro ⟨p, hp, he⟩
    obtain ⟨i, hi, hip⟩ := (mem_iff_getD _ NULL p).mp hp
    rw [BTree.stored_length t hw] at hi
    refine ⟨i, hi, ?_⟩
    rw [BTree.stored_getD t i hi] at hip
    unfold BTree.idAt
    rw [hip]
    simpa using he
  · rintro ⟨i, hi, he⟩
    refine ⟨t.stored.getD i NULL, getD_mem _ _ _ (by rw [BTree.stored_length t hw]; exact hi), ?_⟩
    rw [BTree.stored_getD t i hi]
    simpa [BTree.idAt] using he

/-- C7: on an index built by `insert` calls, the binary `search(id)` agrees with a linear
scan for membership: it returns a stored vehicle whose id equals `id` when there is one,
and `NULL` when there is none. -/
theorem BTree.search_agrees_with_scan (mem : VehicleMem) (vs : List VehiclePtr) (id : String) :
    (BTree.linearMember mem (BTree.empty.insertAll mem vs) id = true →
      ∃ r, (BTree.empty.insertAll mem vs).search mem id = some r ∧
        r ∈ (BTree.empty.insertAll mem vs).stored ∧ (mem r).vehicleId = id) ∧
    (BTree.linearMember mem (BTree.empty.insertAll mem vs) id = false →
      (BTree.empty.insertAll mem vs).search mem id = some NULL) := by
  obtain ⟨hw, hs⟩ := BTree.sorted_insertAll mem vs BTree.empty BTree.index_wellFormed_empty
    (BTree.sorted_empty mem)
  generalize BTree.empty.insertAll mem vs = t at hw hs
  obtain ⟨r, hr, hcase⟩ := BTree.binarySearch_spec mem t hw hs id
  have hmem := BTree.linearMember_iff mem t hw id
  constructor
  · intro hlin
    obtain ⟨i, hi, he⟩ := hmem.mp hlin
    rcases hcase with ⟨-, hnone⟩ | ⟨h0, h1, h2⟩
    · exact absurd he (hnone i hi)
    · have hne : r ≠ -1 := by omega
      refine ⟨t.vehicles.getD r.toNat NULL, ?_, ?_, h2⟩
      · unfold BTree.search
        rw [hr]
        simp only
        rw [if_pos hne]
      · rw [← BTree.stored_getD t r.toNat (by omega)]
        exact getD_mem _ _ _ (by rw [BTree.stored_length t hw]; omega)
  · intro hlin
    rcases hcase with ⟨h1, -⟩ | ⟨h0, h1, h2⟩
    · unfold BTree.search
      rw [hr, h1]
      simp
    · exfalso
      have : t.linearMember mem id = true := hmem.mpr ⟨r.toNat, by omega, h2⟩
      rw [hlin] at this
      cases this

theorem BTree.search_agrees_with_scan_witness :
    BTree.linearMember mainMem (BTree.empty.insertAll mainMem [205, 203, 208, 201, 207, 202])
      "V205" = true ∧
    ∃ r, (BTree.empty.insertAll mainMem [205, 203, 208, 201, 207, 202]).search mainMem "V205"
        = some r ∧
      r ∈ (BTree.empty.insertAll mainMem [205, 203, 208, 201, 207, 202]).stored ∧
      (mainMem r).vehicleId = "V205" :=
  ⟨by decide,
    (BTree.search_agrees_with_scan mainMem [205, 203, 208, 201, 207, 202] "V205").1
      (by decide)⟩

/-! ## Maintenance heap -/

theorem swapIndex_involutive (i j : Nat) : ∀ k, swapIndex i j (swapIndex i j k) = k := by
  intro k
  unfold swapIndex
  by_cases h1 : k = j
  · subst h1
    by_cases h2 : i = k
    · simp [h2]
    · simp [h2]
  · by_cases h2 : k = i
    · subst h2; simp [h1]
    · simp [h1, h2]

theorem swapIndex_lt (i j n : Nat) (hi : i < n) (hj : j < n) (k : Nat) (hk : k < n) :
    swapIndex i j k < n := by
  unfold swapIndex
  split
  · exact hi
  · split
    · exact hj
    · exact hk

theorem perm_map_swapIndex (i j n : Nat) (hi : i < n) (hj : j < n) :
    ((List.range n).map (swapIndex i j)).Perm (List.range n) := by
  have hinj : Function.Injective (swapIndex i j) := by
    intro a b hab
    have := congrArg (swapIndex i j) hab
    rwa [swapIndex_involutive, swapIndex_involutive] at this
  rw [List.perm_ext_iff_of_nodup ((List.nodup_range n).map hinj) (List.nodup_range n)]
  intro a
  simp only [List.mem_map, List.mem_range]
  constructor
  · rintro ⟨k, hk, rfl⟩
    exact swapIndex_lt i j n hi hj k hk
  · intro ha
    exact ⟨swapIndex i j a, swapIndex_lt i j n hi hj a ha, swapIndex_involutive i j a⟩

theorem MinHeap.swap_elem (h : MinHeap) (i j : Nat) (hi : i < h.heap.length)
    (hj : j < h.heap.length) (k : Nat) : (h.swap i j).elem k = h.elem (swapIndex i j k) := by
  unfold MinHeap.swap MinHeap.elem swapIndex
  simp only
  rw [getD_set_if _ _ _ _ _ (by rw [List.length_set]; exact hj)]
  by_cases h1 : k = j
  · subst h1; simp
  · rw [if_neg (fun h => h1 h.symm), if_neg h1]
    rw [getD_set_if _ _ _ _ _ hi]
    by_cases h2 : k = i
    · subst h2; simp
    · rw [if_neg (fun h => h2 h.symm), if_neg h2]

theorem MinHeap.swap_size (h : MinHeap) (i j : Nat) : (h.swap i j).size = h.size := rfl

theorem MinHeap.swap_length (h : MinHeap) (i j : Nat) :
    (h.swap i j).heap.length = h.heap.length := by
  simp [MinHeap.swap]

theorem MinHeap.swap_score (mem : VehicleMem) (h : MinHeap) (i j : Nat)
    (hi : i < h.heap.length) (hj : j < h.heap.length) :
    MinHeap.score mem (h.swap i j) = swapScores (MinHeap.score mem h) i j := by
  funext k
  unfold MinHeap.score swapScores
  rw [MinHeap.swap_elem h i j hi hj k]
  unfold swapIndex
  split
  · rfl
  · split <;> rfl

/-- Exchanging two of the first `n` cells rearranges the first `n` cells. -/
theorem MinHeap.swap_perm (h : MinHeap) (i j n : Nat) (hi : i < n) (hj : j < n)
    (hn : n ≤ h.heap.length) : ((h.swap i j).heap.take n).Perm (h.heap.take n) := by
  rw [← map_range_getD (h.swap i j).heap n NULL (by rw [MinHeap.swap_length]; exact hn)]
  rw [← map_range_getD h.heap n NULL hn]
  have hfun : (fun k => (h.swap i j).heap.getD k NULL)
      = (fun k => h.heap.getD k NULL) ∘ swapIndex i j := by
    funext k
    exact MinHeap.swap_elem h i j (by omega) (by omega) k
  rw [hfun, ← List.map_map]
  exact (perm_map_swapIndex i j n hi hj).map _

/-- One iteration of `heapifyUp` re-establishes its invariant one level up. -/
theorem upInv_step (f : Nat → Int) (n index : Nat) (hinv : UpInv f n index)
    (hpos : 0 < index) (hn : index < n) (hlt : f index < f ((index - 1) / 2)) :
    UpInv (swapScores f index ((index - 1) / 2)) n ((index - 1) / 2) := by
  obtain ⟨h1, h2⟩ := hinv
  have hp : (index - 1) / 2 < index := by omega
  constructor
  · intro i hi0 hin hne
    unfold swapScores
    by_cases hi : i = index
    · subst hi
      rw [if_pos rfl, if_neg (by omega), if_pos rfl]
      omega
    · rw [if_neg hne, if_neg hi]
      have hold := h1 i hi0 hin hi
      by_cases hq : (i - 1) / 2 = (index - 1) / 2
      · rw [if_pos hq]
        rw [hq] at hold
        omega
      · rw [if_neg hq]
        by_cases hq2 : (i - 1) / 2 = index
        · rw [if_pos hq2]
          exact h2 i hi0 hin hq2 hpos
        · rw [if_neg hq2]
          exact hold
  · intro i hi0 hin hq hpp
    unfold swapScores
    have hg : ((index - 1) / 2 - 1) / 2 < (index - 1) / 2 := by omega
    rw [if_neg (by omega), if_neg (by omega)]
    have hgp := h1 ((index - 1) / 2) hpp (by omega) (by omega)
    by_cases hi : i = index
    · subst hi
      rw [if_neg (by omega), if_pos rfl]
      exact hgp
    · rw [if_neg (by omega), if_neg hi]
      have hold := h1 i hi0 hin hi
      rw [hq] at hold
      omega

/-- With `index ≤ fuel`, `heapifyUp` returns, restores the heap order on the first `n`
cells and rearranges them. -/
theorem MinHeap.heapifyUp_spec (mem : VehicleMem) (n : Nat) :
    ∀ (fuel : Nat) (h : MinHeap) (index : Nat), index ≤ fuel → index < n →
      n ≤ h.heap.length → UpInv (MinHeap.score mem h) n index →
      ∃ h1, MinHeap.heapifyUp mem fuel h index = some h1 ∧ h1.size = h.size ∧
        h1.heap.length = h.heap.length ∧
        (∀ i, 0 < i → i < n → MinHeap.score mem h1 ((i - 1) / 2) ≤ MinHeap.score mem h1 i) ∧
        (h1.heap.take n).Perm (h.heap.take n) := by
  have hexit : ∀ (h : MinHeap) (index : Nat), UpInv (MinHeap.score mem h) n index →
      ¬ (index > 0 ∧ prio mem (h.elem (MinHeap.parent index)) > prio mem (h.elem index)) →
      ∀ i, 0 < i → i < n → MinHeap.score mem h ((i - 1) / 2) ≤ MinHeap.score mem h i := by
    intro h index hinv hc i hi0 hin
    by_cases hi : i = index
    · subst hi
      have : ¬ prio mem (h.elem (MinHeap.parent i)) > prio mem (h.elem i) :=
        fun hgt => hc ⟨hi0, hgt⟩
      unfold MinHeap.parent at this
      unfold MinHeap.score
      omega
    · exact hinv.1 i hi0 hin hi
  intro fuel
  induction fuel with
  | zero =>
    intro h index hf hn hlen hinv
    have hc : ¬ (index > 0 ∧ prio mem (h.elem (MinHeap.parent index)) > prio mem (h.elem index)) := by
      intro hc; omega
    refine ⟨h, ?_, rfl, rfl, hexit h index hinv hc, List.Perm.refl _⟩
    simp only [MinHeap.heapifyUp]
    rw [if_neg hc]
  | succ fuel ih =>
    intro h index hf hn hlen hinv
    simp only [MinHeap.heapifyUp]
    by_cases hc : index > 0 ∧ prio mem (h.elem (MinHeap.parent index)) > prio mem (h.elem index)
    · rw [if_pos hc]
      obtain ⟨hpos, hgt⟩ := hc
      have hp : MinHeap.parent index < index := by unfold MinHeap.parent; omega
      have hinv2 : UpInv (MinHeap.score mem (h.swap index (MinHeap.parent index))) n
          (MinHeap.parent index) := by
        rw [MinHeap.swap_score mem h _ _ (by omega) (by omega)]
        exact upInv_step _ n index hinv hpos hn hgt
      obtain ⟨h1, e1, e2, e3, e4, e5⟩ := ih (h.swap index (MinHeap.parent index))
        (MinHeap.parent index) (by omega) (by omega)
        (by rw [MinHeap.swap_length]; exact hlen) hinv2
      refine ⟨h1, e1, e2, by rw [e3, MinHeap.swap_length], e4, ?_⟩
      exact e5.trans (MinHeap.swap_perm h _ _ n hn (by omega) hlen)
    · rw [if_neg hc]
      exact ⟨h, rfl, rfl, rfl, hexit h index hinv hc, List.Perm.refl _⟩

/-- What `heapifyDown` picks as `minIndex`. -/
theorem MinHeap.minChild_spec (mem : VehicleMem) (h : MinHeap) (index : Nat) :
    (MinHeap.minChild mem h index = index ∧
      (2 * index + 1 < h.size → MinHeap.score mem h index ≤ MinHeap.score mem h (2 * index + 1)) ∧
      (2 * index + 2 < h.size → MinHeap.score mem h index ≤ MinHeap.score mem h (2 * index + 2))) ∨
    ((MinHeap.minChild mem h index = 2 * index + 1 ∨ MinHeap.minChild mem h index = 2 * index + 2) ∧
      MinHeap.minChild mem h index < h.size ∧
      MinHeap.score mem h (MinHeap.minChild mem h index) < MinHeap.score mem h index ∧
      (2 * index + 1 < h.size →
        MinHeap.score mem h (MinHeap.minChild mem h index) ≤ MinHeap.score mem h (2 * index + 1)) ∧
      (2 * index + 2 < h.size →
        MinHeap.score mem h (MinHeap.minChild mem h index) ≤ MinHeap.score mem h (2 * index + 2))) := by
  unfold MinHeap.minChild MinHeap.leftChild MinHeap.rightChild MinHeap.score
  simp only
  by_cases hl : 2 * index + 1 < h.size ∧ prio mem (h.elem (2 * index + 1)) < prio mem (h.elem index)
  · rw [if_pos hl]
    by_cases hr : 2 * index + 2 < h.size ∧
        prio mem (h.elem (2 * index + 2)) < prio mem (h.elem (2 * index + 1))
    · rw [if_pos hr]
      right
      exact ⟨Or.inr rfl, hr.1, by omega, fun _ => by omega, fun _ => le_refl _⟩
    · rw [if_neg hr]
      right
      refine ⟨Or.inl rfl, hl.1, hl.2, fun _ => le_refl _, fun h2 => ?_⟩
      by_contra hc
      exact hr ⟨h2, by omega⟩
  · rw [if_neg hl]
    by_cases hr : 2 * index + 2 < h.size ∧
        prio mem (h.elem (2 * index + 2)) < prio mem (h.elem index)
    · rw [if_pos hr]
      right
      refine ⟨Or.inr rfl, hr.1, hr.2, fun h1 => ?_, fun _ => le_refl _⟩
      by_contra hc
      exact hl ⟨h1, by omega⟩
    · rw [if_neg hr]
      left
      refine ⟨rfl, fun h1 => ?_, fun h2 => ?_⟩
      · by_contra hc; exact hl ⟨h1, by omega⟩
      · by_contra hc; exact hr ⟨h2, by omega⟩

/-- One call of `heapifyDown` that exchanges re-establishes its invariant one level down. -/
theorem downInv_step (f : Nat → Int) (n index m : Nat) (hinv : DownInv f n index)
    (hm : m = 2 * index + 1 ∨ m = 2 * index + 2) (hmn : m < n) (hlt : f m < f index)
    (hl : 2 * index + 1 < n → f m ≤ f (2 * index + 1))
    (hr : 2 * index + 2 < n → f m ≤ f (2 * index + 2)) :
    DownInv (swapScores f index m) n m := by
  obtain ⟨h1, h2⟩ := hinv
  constructor
  · intro i hi0 hin hq
    unfold swapScores
    by_cases hqi : (i - 1) / 2 = index
    · have hi : i = 2 * index + 1 ∨ i = 2 * index + 2 := by omega
      rw [if_neg hq, if_pos hqi]
      by_cases him : i = m
      · rw [if_pos him]; omega
      · rw [if_neg him, if_neg (by omega)]
        rcases hi with hi | hi
        · rw [hi]; exact hl (by omega)
        · rw [hi]; exact hr (by omega)
    · rw [if_neg hq, if_neg hqi]
      have him : i ≠ m := by omega
      rw [if_neg him]
      by_cases hii : i = index
      · rw [if_pos hii]
        have := h2 m (by omega) hmn (by omega) (by omega)
        rw [hii]; exact this
      · rw [if_neg hii]
        exact h1 i hi0 hin hqi
  · intro i hi0 hin hq hm0
    unfold swapScores
    have hpm : (m - 1) / 2 = index := by omega
    rw [hpm, if_neg (by omega), if_pos rfl, if_neg (by omega), if_neg (by omega)]
    have := h1 i hi0 hin (by omega)
    rw [hq] at this
    exact this

/-- With `size ≤ fuel + index`, `heapifyDown` returns, restores the heap order and
rearranges the entries. -/
theorem MinHeap.heapifyDown_spec (mem : VehicleMem) :
    ∀ (fuel : Nat) (h : MinHeap) (index : Nat), h.size ≤ fuel + index → index < h.size →
      h.size ≤ h.heap.length → DownInv (MinHeap.score mem h) h.size index →
      ∃ h1, MinHeap.heapifyDown mem fuel h index = some h1 ∧ h1.size = h.size ∧
        h1.heap.length = h.heap.length ∧
        (∀ i, 0 < i → i < h.size →
          MinHeap.score mem h1 ((i - 1) / 2) ≤ MinHeap.score mem h1 i) ∧
        (h1.heap.take h.size).Perm (h.heap.take h.size) := by
  have hexit : ∀ (h : MinHeap) (index : Nat), DownInv (MinHeap.score mem h) h.size index →
      MinHeap.minChild mem h index = index →
      ∀ i, 0 < i → i < h.size → MinHeap.score mem h ((i - 1) / 2) ≤ MinHeap.score mem h i := by
    intro h index hinv hmin i hi0 hin
    by_cases hq : (i - 1) / 2 = index
    · have hi : i = 2 * index + 1 ∨ i = 2 * index + 2 := by omega
      rcases MinHeap.minChild_spec mem h index with ⟨-, hl, hr⟩ | ⟨hm, -, -, -, -⟩
      · rw [hq]
        rcases hi with hi | hi
        · rw [hi]; exact hl (by omega)
        · rw [hi]; exact hr (by omega)
      · omega
    · exact hinv.1 i hi0 hin hq
  intro fuel
  induction fuel with
  | zero => intro h index hf hn _ _; omega
  | succ fuel ih =>
    intro h index hf hn hlen hinv
    simp only [MinHeap.heapifyDown]
    by_cases hc : index ≠ MinHeap.minChild mem h index
    · rw [if_pos hc]
      rcases MinHeap.minChild_spec mem h index with ⟨hm, -, -⟩ | ⟨hm, hmn, hlt, hl, hr⟩
      · exact absurd hm.symm hc
      · generalize MinHeap.minChild mem h index = m at hc hm hmn hlt hl hr
        have hinv2 : DownInv (MinHeap.score mem (h.swap index m)) (h.swap index m).size m := by
          rw [MinHeap.swap_score mem h _ _ (by omega) (by omega), MinHeap.swap_size]
          exact downInv_step _ h.size index m hinv hm hmn hlt hl hr
        obtain ⟨h1, e1, e2, e3, e4, e5⟩ := ih (h.swap index m) m
          (by rw [MinHeap.swap_size]; omega) (by rw [MinHeap.swap_size]; exact hmn)
          (by rw [MinHeap.swap_size, MinHeap.swap_length]; exact hlen) hinv2
        rw [MinHeap.swap_size] at e2 e4 e5
        refine ⟨h1, e1, e2, by rw [e3, MinHeap.swap_length], e4, ?_⟩
        exact e5.trans (MinHeap.swap_perm h _ _ h.size hn hmn hlen)
    · rw [if_neg hc]
      have hmin : MinHeap.minChild mem h index = index := by
        by_contra hne; exact hc (fun h => hne h.symm)
      exact ⟨h, rfl, rfl, rfl, hexit h index hinv hmin, List.Perm.refl _⟩

theorem MinHeap.heap_wellFormed_empty : MinHeap.empty.WellFormed := by
  simp [MinHeap.WellFormed, MinHeap.empty]

theorem MinHeap.heapProperty_empty (mem : VehicleMem) : MinHeap.HeapProperty mem MinHeap.empty := by
  intro i _ hi
  simp [MinHeap.empty] at hi

theorem MinHeap.live_empty : MinHeap.empty.live = [] := by
  simp [MinHeap.live, MinHeap.empty]

/-- An `insert` below capacity returns `true`, keeps the heap property and adds exactly
the new vehicle to the entries. -/
theorem MinHeap.insert_spec (mem : VehicleMem) (h : MinHeap) (v : VehiclePtr)
    (hw : h.WellFormed) (hp : MinHeap.HeapProperty mem h) (hs : h.size < MAX_HEAP_SIZE) :
    ∃ h1, MinHeap.insert mem h v = some (true, h1) ∧ h1.WellFormed ∧
      h1.size = h.size + 1 ∧ MinHeap.HeapProperty mem h1 ∧ h1.live.Perm (v :: h.live) := by
  have hlen := hw.1
  have hinv : UpInv (MinHeap.score mem { h with heap := h.heap.set h.size v }) (h.size + 1) h.size := by
    constructor
    · intro i hi0 hin hne
      have hi : i < h.size := by omega
      unfold MinHeap.score MinHeap.elem
      simp only
      rw [getD_set_other _ _ _ _ _ (by omega), getD_set_other _ _ _ _ _ (by omega)]
      exact hp i hi0 hi
    · intro i hi0 hin hq _
      omega
  obtain ⟨h2, e1, e2, e3, e4, e5⟩ := MinHeap.heapifyUp_spec mem (h.size + 1) h.size
    { h with heap := h.heap.set h.size v } h.size (le_refl _) (by omega)
    (by simp only [List.length_set]; omega) hinv
  simp only [List.length_set] at e3
  simp only at e2
  refine ⟨{ h2 with size := h2.size + 1 }, ?_, ?_, ?_, ?_, ?_⟩
  · unfold MinHeap.insert
    rw [if_neg (by omega)]
    simp only [e1]
  · exact ⟨by simp only [e3]; exact hlen, by simp only [e2]; omega⟩
  · simp only [e2]
  · intro i hi0 hin
    simp only [e2] at hin
    exact e4 i hi0 hin
  · unfold MinHeap.live
    simp only [e2]
    refine e5.trans ?_
    show ((h.heap.set h.size v).take (h.size + 1)).Perm (v :: h.heap.take h.size)
    rw [List.take_succ, take_set_ge _ _ _ _ (le_refl _),
      List.getElem?_set_self (by omega)]
    exact List.perm_append_comm

theorem MinHeap.heap_insert_full (mem : VehicleMem) (h : MinHeap) (v : VehiclePtr)
    (hs : ¬ h.size < MAX_HEAP_SIZE) : MinHeap.insert mem h v = some (false, h) := by
  unfold MinHeap.insert
  rw [if_pos (by omega)]

/-- On a non-empty heap `extractMin` returns the root, keeps the heap property and removes
exactly the returned vehicle from the entries. -/
theorem MinHeap.extractMin_spec (mem : VehicleMem) (h : MinHeap)
    (hw : h.WellFormed) (hp : MinHeap.HeapProperty mem h) (hs : 0 < h.size) :
    ∃ h1, MinHeap.extractMin mem h = some (h.elem 0, h1) ∧ h1.WellFormed ∧
      h1.size + 1 = h.size ∧ MinHeap.HeapProperty mem h1 ∧ (h.elem 0 :: h1.live).Perm h.live := by
  have hlen := hw.1
  have hsz := hw.2
  have hne : h.isEmpty = false := by
    simp [MinHeap.isEmpty]; omega
  have hperm : (h.elem 0 :: (h.heap.set 0 (h.elem (h.size - 1))).take (h.size - 1)).Perm
      (h.heap.take h.size) := by
    have hsw := MinHeap.swap_perm h 0 (h.size - 1) h.size hs (by omega) (by omega)
    have hsplit : (h.swap 0 (h.size - 1)).heap.take h.size =
        (h.heap.set 0 (h.elem (h.size - 1))).take (h.size - 1) ++ [h.elem 0] := by
      obtain ⟨n, hn⟩ : ∃ n, h.size = n + 1 := ⟨h.size - 1, by omega⟩
      simp only [hn, Nat.add_sub_cancel]
      show (((h.heap.set 0 (h.elem n)).set n (h.elem 0)).take (n + 1)) = _
      rw [List.take_succ, take_set_ge _ _ _ _ (le_refl _),
        List.getElem?_set_self (by rw [List.length_set]; omega)]
      rfl
    rw [hsplit] at hsw
    exact (List.perm_append_comm.trans hsw)
  unfold MinHeap.extractMin
  simp only [hne, Bool.false_eq_true, if_false]
  by_cases h1 : h.size - 1 > 0
  · rw [if_pos h1]
    have hinv : DownInv
        (MinHeap.score mem { heap := h.heap.set 0 (h.elem (h.size - 1)), size := h.size - 1 })
        (h.size - 1) 0 := by
      constructor
      · intro i hi0 hin hq
        unfold MinHeap.score MinHeap.elem
        simp only
        rw [getD_set_other _ _ _ _ _ (by omega), getD_set_other _ _ _ _ _ (by omega)]
        exact hp i hi0 (by omega)
      · intro i _ _ _ h0; omega
    obtain ⟨h2, e1, e2, e3, e4, e5⟩ := MinHeap.heapifyDown_spec mem (h.size - 1)
      { heap := h.heap.set 0 (h.elem (h.size - 1)), size := h.size - 1 } 0
      (by simp only; omega) h1 (by simp only [List.length_set]; omega) hinv
    simp only [List.length_set] at e3
    simp only at e2 e4 e5
    rw [e1]
    refine ⟨h2, rfl, ⟨by rw [e3]; exact hlen, by rw [e2]; omega⟩, by rw [e2]; omega, ?_, ?_⟩
    · intro i hi0 hin
      rw [e2] at hin
      exact e4 i hi0 hin
    · unfold MinHeap.live
      rw [e2]
      exact (List.Perm.cons _ e5).trans hperm
  · rw [if_neg h1]
    refine ⟨_, rfl, ⟨by simp only [List.length_set]; exact hlen, by simp only; omega⟩,
      by simp only; omega, ?_, ?_⟩
    · intro i hi0 hin
      simp only at hin
      omega
    · exact hperm

theorem MinHeap.extractMin_empty (mem : VehicleMem) (h : MinHeap) (hs : h.size = 0) :
    MinHeap.extractMin mem h = some (NULL, h) := by
  unfold MinHeap.extractMin
  simp [MinHeap.isEmpty, hs]

/-- Every call keeps the shape and the heap property. -/
theorem MinHeap.insert_keeps (mem : VehicleMem) (h h1 : MinHeap) (v : VehiclePtr) (ok : Bool)
    (hw : h.WellFormed) (hp : MinHeap.HeapProperty mem h)
    (hins : MinHeap.insert mem h v = some (ok, h1)) :
    h1.WellFormed ∧ MinHeap.HeapProperty mem h1 := by
  by_cases hs : h.size < MAX_HEAP_SIZE
  · obtain ⟨h2, e1, e2, -, e4, -⟩ := MinHeap.insert_spec mem h v hw hp hs
    rw [e1] at hins
    simp only [Option.some.injEq, Prod.mk.injEq] at hins
    rw [← hins.2]
    exact ⟨e2, e4⟩
  · rw [MinHeap.heap_insert_full mem h v hs] at hins
    simp only [Option.some.injEq, Prod.mk.injEq] at hins
    rw [← hins.2]
    exact ⟨hw, hp⟩

theorem MinHeap.extractMin_keeps (mem : VehicleMem) (h h1 : MinHeap) (v : VehiclePtr)
    (hw : h.WellFormed) (hp : MinHeap.HeapProperty mem h)
    (hext : MinHeap.extractMin mem h = some (v, h1)) :
    h1.WellFormed ∧ MinHeap.HeapProperty mem h1 := by
  by_cases hs : 0 < h.size
  · obtain ⟨h2, e1, e2, -, e4, -⟩ := MinHeap.extractMin_spec mem h hw hp hs
    rw [e1] at hext
    simp only [Option.some.injEq, Prod.mk.injEq] at hext
    rw [← hext.2]
    exact ⟨e2, e4⟩
  · rw [MinHeap.extractMin_empty mem h (by omega)] at hext
    simp only [Option.some.injEq, Prod.mk.injEq] at hext
    rw [← hext.2]
    exact ⟨hw, hp⟩

theorem MinHeap.reachable_keeps (mem : VehicleMem) (h : MinHeap)
    (hr : MinHeap.Reachable mem h) : h.WellFormed ∧ MinHeap.HeapProperty mem h := by
  induction hr with
  | empty => exact ⟨MinHeap.heap_wellFormed_empty, MinHeap.heapProperty_empty mem⟩
  | insert h h1 v ok _ hins ih => exact MinHeap.insert_keeps mem h h1 v ok ih.1 ih.2 hins
  | extractMin h h1 v _ hext ih => exact MinHeap.extractMin_keeps mem h h1 v ih.1 ih.2 hext

/-- Under the heap property the root has the least score of all entries. -/
theorem MinHeap.root_le (mem : VehicleMem) (h : MinHeap) (hp : MinHeap.HeapProperty mem h) :
    ∀ i, i < h.size → prio mem (h.elem 0) ≤ prio mem (h.elem i) := by
  intro i
  induction i using Nat.strong_induction_on with
  | _ i ih =>
    intro hi
    by_cases h0 : i = 0
    · subst h0; exact le_refl _
    · have h1 := hp i (by omega) hi
      have h2 := ih ((i - 1) / 2) (by omega) (by omega)
      exact le_trans h2 h1

theorem MinHeap.root_le_live (mem : VehicleMem) (h : MinHeap)
    (hp : MinHeap.HeapProperty mem h) :
    ∀ x ∈ h.live, prio mem (h.elem 0) ≤ prio mem x := by
  intro x hx
  obtain ⟨i, hi, hix⟩ := (mem_iff_getD _ NULL x).mp hx
  unfold MinHeap.live at hi hix
  rw [List.length_take] at hi
  rw [getD_take _ _ _ _ (by omega)] at hix
  rw [← hix]
  exact MinHeap.root_le mem h hp i (by omega)

/-- Inserting while there is room: every call returns `true`, and the entries become the
inserted vehicles together with the earlier entries. -/
theorem MinHeap.insertAll_spec (mem : VehicleMem) (vs : List VehiclePtr) :
    ∀ h : MinHeap, h.WellFormed → MinHeap.HeapProperty mem h →
      h.size + vs.length ≤ MAX_HEAP_SIZE →
      ∃ h1, MinHeap.insertAll mem h vs = some (List.replicate vs.length true, h1) ∧
        h1.WellFormed ∧ MinHeap.HeapProperty mem h1 ∧ h1.size = h.size + vs.length ∧
        h1.live.Perm (vs ++ h.live) := by
  induction vs with
  | nil =>
    intro h hw hp _
    exact ⟨h, rfl, hw, hp, rfl, List.Perm.refl _⟩
  | cons v vs ih =>
    intro h hw hp hlen
    simp only [List.length_cons] at hlen
    obtain ⟨h1, e1, e2, e3, e4, e5⟩ := MinHeap.insert_spec mem h v hw hp (by omega)
    obtain ⟨h2, f1, f2, f3, f4, f5⟩ := ih h1 e2 e4 (by omega)
    refine ⟨h2, ?_, f2, f3, by rw [f4, e3, List.length_cons]; omega, ?_⟩
    · simp only [MinHeap.insertAll, e1, f1, List.length_cons, List.replicate_succ]
    · refine f5.trans ?_
      refine (List.Perm.append_left vs e5).trans ?_
      exact List.perm_middle

/-- With `size ≤ fuel`, extracting until the heap is empty returns every entry, in
non-decreasing score order. -/
theorem MinHeap.extractAll_spec (mem : VehicleMem) :
    ∀ (fuel : Nat) (h : MinHeap), h.WellFormed → MinHeap.HeapProperty mem h → h.size ≤ fuel →
      ∃ out, MinHeap.extractAll mem fuel h = some out ∧ out.Perm h.live ∧
        out.Pairwise (fun a b => prio mem a ≤ prio mem b) := by
  intro fuel
  induction fuel with
  | zero =>
    intro h hw hp hs
    have h0 : h.size = 0 := by omega
    refine ⟨[], ?_, ?_, List.Pairwise.nil⟩
    · simp [MinHeap.extractAll, MinHeap.isEmpty, h0]
    · simp [MinHeap.live, h0]
  | succ fuel ih =>
    intro h hw hp hs
    by_cases h0 : h.size = 0
    · refine ⟨[], ?_, ?_, List.Pairwise.nil⟩
      · simp [MinHeap.extractAll, MinHeap.isEmpty, h0]
      · simp [MinHeap.live, h0]
    · obtain ⟨h1, e1, e2, e3, e4, e5⟩ := MinHeap.extractMin_spec mem h hw hp (by omega)
      obtain ⟨out, f1, f2, f3⟩ := ih h1 e2 e4 (by omega)
      have hne : h.isEmpty = false := by simp [MinHeap.isEmpty, h0]
      refine ⟨h.elem 0 :: out, ?_, ?_, ?_⟩
      · simp only [MinHeap.extractAll, hne, Bool.false_eq_true, if_false, e1, f1]
      · exact (List.Perm.cons _ f2).trans e5
      · rw [List.pairwise_cons]
        refine ⟨?_, f3⟩
        intro x hx
        apply MinHeap.root_le_live mem h hp
        exact e5.subset (List.mem_cons_of_mem _ (f2.subset hx))

theorem MinHeap.heap_reachable_insertAll (mem : VehicleMem) (vs : List VehiclePtr) :
    ∀ (h h1 : MinHeap) (oks : List Bool), MinHeap.Reachable mem h →
      MinHeap.insertAll mem h vs = some (oks, h1) → MinHeap.Reachable mem h1 := by
  induction vs with
  | nil =>
    intro h h1 oks hr hall
    simp only [MinHeap.insertAll, Option.some.injEq, Prod.mk.injEq] at hall
    rw [← hall.2]; exact hr
  | cons v vs ih =>
    intro h h1 oks hr hall
    simp only [MinHeap.insertAll] at hall
    cases hins : MinHeap.insert mem h v with
    | none => rw [hins] at hall; cases hall
    | some r =>
      obtain ⟨ok, h2⟩ := r
      rw [hins] at hall
      simp only at hall
      cases hrest : MinHeap.insertAll mem h2 vs with
      | none => rw [hrest] at hall; cases hall
      | some r2 =>
        obtain ⟨oks2, h3⟩ := r2
        rw [hrest] at hall
        simp only [Option.some.injEq, Prod.mk.injEq] at hall
        rw [← hall.2]
        exact ih h2 h3 oks2 (MinHeap.Reachable.insert h h2 v ok hr hins) hrest

theorem mainHeap_eq :
    MinHeap.insertAll mainMem MinHeap.empty [101, 102, 103, 104, 105, 106]
      = some (List.replicate 6 true, mainHeap) := by
  with_unfolding_all rfl

/-- C8: every heap reached from the empty heap by `insert` and `extractMin` calls
satisfies the min-heap property: `priority(heap[(i-1)/2]) <= priority(heap[i])` for every
`0 < i < size`. -/
theorem MinHeap.heap_property_invariant (mem : VehicleMem) (h : MinHeap)
    (hr : MinHeap.Reachable mem h) :
    ∀ i, 0 < i → i < h.size →
      (mem (h.heap.getD ((i - 1) / 2) NULL)).getMaintenancePriority
        ≤ (mem (h.heap.getD i NULL)).getMaintenancePriority :=
  (MinHeap.reachable_keeps mem h hr).2

/-- C2: at most 100 vehicles inserted into an empty heap are all accepted, and calling
`extractMin` until the heap is empty returns them in non-decreasing
`getMaintenancePriority` order. -/
theorem MinHeap.extract_order (mem : VehicleMem) (vs : List VehiclePtr)
    (hlen : vs.length ≤ 100) :
    ∃ h out, MinHeap.insertAll mem MinHeap.empty vs = some (List.replicate vs.length true, h) ∧
      MinHeap.extractAll mem vs.length h = some out ∧ out.length = vs.length ∧
      out.Pairwise (fun a b =>
        (mem a).getMaintenancePriority ≤ (mem b).getMaintenancePriority) := by
  obtain ⟨h, e1, e2, e3, e4, e5⟩ := MinHeap.insertAll_spec mem vs MinHeap.empty
    MinHeap.heap_wellFormed_empty (MinHeap.heapProperty_empty mem)
    (by simpa [MinHeap.empty, MAX_HEAP_SIZE] using hlen)
  obtain ⟨out, f1, f2, f3⟩ := MinHeap.extractAll_spec mem vs.length h e2 e3
    (by rw [e4]; simp [MinHeap.empty])
  refine ⟨h, out, e1, f1, ?_, f3⟩
  rw [MinHeap.live_empty, List.append_nil] at e5
  exact (f2.trans e5).length_eq

theorem MinHeap.heap_property_invariant_witness :
    MinHeap.Reachable mainMem mainHeap ∧ 0 < 5 ∧ 5 < mainHeap.size ∧
    (mainMem (mainHeap.heap.getD ((5 - 1) / 2) NULL)).getMaintenancePriority
      ≤ (mainMem (mainHeap.heap.getD 5 NULL)).getMaintenancePriority :=
  ⟨MinHeap.heap_reachable_insertAll mainMem _ _ _ _ MinHeap.Reachable.empty mainHeap_eq,
    by decide, by with_unfolding_all decide,
    MinHeap.heap_property_invariant mainMem mainHeap
      (MinHeap.heap_reachable_insertAll mainMem _ _ _ _ MinHeap.Reachable.empty mainHeap_eq)
      5 (by decide) (by with_unfolding_all decide)⟩

/-- The six vehicles V101..V106 of `main`, with scores 11, 3, 13, 2, 8, 9, leave the heap
in the order V104, V102, V105, V106, V101, V103. -/
theorem MinHeap.extract_order_witness :
    [101, 102, 103, 104, 105, 106].length ≤ 100 ∧
    [101, 102, 103, 104, 105, 106].map (prio mainMem) = [11, 3, 13, 2, 8, 9] ∧
    MinHeap.extractAll mainMem 6 mainHeap = some [104, 102, 105, 106, 101, 103] ∧
    ∃ h out, MinHeap.insertAll mainMem MinHeap.empty [101, 102, 103, 104, 105, 106]
        = some (List.replicate 6 true, h) ∧
      MinHeap.extractAll mainMem 6 h = some out ∧ out.length = 6 ∧
      out.Pairwise (fun a b =>
        (mainMem a).getMaintenancePriority ≤ (mainMem b).getMaintenancePriority) :=
  ⟨by decide, by with_unfolding_all rfl, by with_unfolding_all rfl,
    MinHeap.extract_order mainMem [101, 102, 103, 104, 105, 106] (by decide)⟩

/-! ## Road network and shortest routes -/

theorem Graph.adj_addLocation (g : Graph) (name : String) (u : Nat) :
    (g.addLocation name).adj u = g.adj u := by
  unfold Graph.addLocation Graph.adj
  split <;> rfl

theorem Graph.numVertices_addLocation (g : Graph) (name : String) :
    g.numVertices ≤ (g.addLocation name).numVertices ∧
    ((g.addLocation name).numVertices ≤ MAX_VERTICES ∨
      (g.addLocation name).numVertices = g.numVertices) := by
  unfold Graph.addLocation
  split
  · exact ⟨le_refl _, Or.inr rfl⟩
  · simp only; constructor <;> omega

/-- The adjacency chains after an accepted `addRoad`. -/
theorem Graph.addRoad_spec (g g1 : Graph) (s d : Nat) (w : Int)
    (hlen : g.adjacencyList.length = MAX_VERTICES) (hn : g.numVertices ≤ MAX_VERTICES)
    (hs : s < g.numVertices) (hd : d < g.numVertices)
    (h : g.addRoad s d w = some g1) :
    g1.numVertices = g.numVertices ∧ g1.adjacencyList.length = MAX_VERTICES ∧
    ∀ (u : Nat) (e : Edge), e ∈ g1.adj u ↔
      (e ∈ g.adj u ∨ (u = s ∧ e = { destination := d, weight := w }) ∨
        (u = d ∧ e = { destination := s, weight := w })) := by
  unfold Graph.addRoad at h
  rw [if_neg (by omega), if_neg (by omega)] at h
  simp only [Int.toNat_ofNat, Option.some.injEq] at h
  subst h
  refine ⟨rfl, by simp only [List.length_set]; exact hlen, ?_⟩
  intro u e
  unfold Graph.adj
  simp only
  rw [getD_set_if _ _ _ _ _ (by rw [List.length_set]; omega)]
  rw [getD_set_if _ _ _ _ _ (by omega)]
  by_cases hud : d = u
  · subst hud
    rw [if_pos rfl]
    by_cases hsd : s = d
    · subst hsd
      rw [if_pos rfl]
      simp only [List.mem_cons]
      constructor
      · rintro (h | h | h)
        · exact Or.inr (Or.inl ⟨trivial, h⟩)
        · exact Or.inr (Or.inl ⟨trivial, h⟩)
        · exact Or.inl h
      · rintro (h | ⟨-, h⟩ | ⟨-, h⟩)
        · exact Or.inr (Or.inr h)
        · exact Or.inl h
        · exact Or.inl h
    · rw [if_neg hsd]
      simp only [List.mem_cons]
      constructor
      · rintro (h | h)
        · exact Or.inr (Or.inr ⟨trivial, h⟩)
        · exact Or.inl h
      · rintro (h | ⟨h1, -⟩ | ⟨-, h⟩)
        · exact Or.inr h
        · exact absurd h1.symm hsd
        · exact Or.inl h
  · rw [if_neg hud]
    rw [getD_set_if _ _ _ _ _ (by omega)]
    by_cases hus : s = u
    · subst hus
      rw [if_pos rfl]
      simp only [List.mem_cons]
      constructor
      · rintro (h | h)
        · exact Or.inr (Or.inl ⟨trivial, h⟩)
        · exact Or.inl h
      · rintro (h | ⟨-, h⟩ | ⟨h1, -⟩)
        · exact Or.inr h
        · exact Or.inl h
        · exact absurd h1.symm hud
    · rw [if_neg hus]
      constructor
      · intro h; exact Or.inl h
      · rintro (h | ⟨h1, -⟩ | ⟨h1, -⟩)
        · exact h
        · exact absurd h1.symm hus
        · exact absurd h1.symm hud

/-- A graph built by valid calls has the shape `GraphOk`. -/
theorem Graph.ok_of_built (roads : List Road) (g : Graph) (h : Graph.Built roads g) :
    GraphOk g roads := by
  induction h with
  | empty =>
    refine ⟨by simp [Graph.empty], by simp [Graph.empty], ?_, ?_⟩
    · intro u e he
      have : Graph.empty.adj u = [] := by
        unfold Graph.adj Graph.empty
        simp only [List.getD_eq_getElem?_getD, List.getElem?_replicate]
        split <;> rfl
      rw [this] at he; cases he
    · intro r hr; cases hr
  | addLocation roads g name _ ih =>
    obtain ⟨hmono, hcap⟩ := Graph.numVertices_addLocation g name
    refine ⟨?_, ?_, ?_, ?_⟩
    · unfold Graph.addLocation; split
      · exact ih.adj_len
      · exact ih.adj_len
    · rcases hcap with h | h
      · exact h
      · rw [h]; exact ih.n_le
    · intro u e he
      rw [Graph.adj_addLocation] at he
      obtain ⟨h1, h2, h3, h4⟩ := ih.edge_road u e he
      exact ⟨by omega, by omega, h3, h4⟩
    · intro r hr
      obtain ⟨h1, h2, h3, h4, h5⟩ := ih.road_edge r hr
      refine ⟨by omega, by omega, h3, ?_, ?_⟩
      · rw [Graph.adj_addLocation]; exact h4
      · rw [Graph.adj_addLocation]; exact h5
  | addRoad roads g g1 s d w _ hs hd hw hadd ih =>
    obtain ⟨hn, hlen, hadj⟩ := Graph.addRoad_spec g g1 s d w ih.adj_len ih.n_le hs hd hadd
    refine ⟨hlen, by rw [hn]; exact ih.n_le, ?_, ?_⟩
    · intro u e he
      rw [hn]
      rcases (hadj u e).mp he with h | ⟨h1, h2⟩ | ⟨h1, h2⟩
      · obtain ⟨h1, h2, h3, r, hr, h4⟩ := ih.edge_road u e h
        exact ⟨h1, h2, h3, r, List.mem_cons_of_mem _ hr, h4⟩
      · subst h1; subst h2
        exact ⟨hs, hd, hw, _, List.mem_cons_self _ _, rfl, Or.inl ⟨rfl, rfl⟩⟩
      · subst h1; subst h2
        exact ⟨hd, hs, hw, _, List.mem_cons_self _ _, rfl, Or.inr ⟨rfl, rfl⟩⟩
    · intro r hr
      rw [hn]
      rcases List.mem_cons.mp hr with h | h
      · subst h
        exact ⟨hs, hd, hw, (hadj _ _).mpr (Or.inr (Or.inl ⟨rfl, rfl⟩)),
          (hadj _ _).mpr (Or.inr (Or.inr ⟨rfl, rfl⟩))⟩
      · obtain ⟨h1, h2, h3, h4, h5⟩ := ih.road_edge r h
        exact ⟨h1, h2, h3, (hadj _ _).mpr (Or.inl h4), (hadj _ _).mpr (Or.inl h5)⟩


theorem insideWeight_mono (roads : List Road) (S T : Nat → Bool)
    (hnn : ∀ r ∈ roads, 0 ≤ r.distance) (hST : ∀ x, S x = true → T x = true) :
    insideWeight roads S ≤ insideWeight roads T := by
  unfold insideWeight
  induction roads with
  | nil => simp
  | cons r rs ih =>
    simp only [List.map_cons, List.sum_cons]
    have h1 := ih (fun x hx => hnn x (List.mem_cons_of_mem _ hx))
    have h0 := hnn r (List.mem_cons_self _ _)
    have h2 : (if S r.source && S r.destination then r.distance else 0)
        ≤ (if T r.source && T r.destination then r.distance else 0) := by
      by_cases hs : (S r.source && S r.destination) = true
      · have ht : (T r.source && T r.destination) = true := by
          simp only [Bool.and_eq_true] at hs ⊢
          exact ⟨hST _ hs.1, hST _ hs.2⟩
        rw [if_pos hs, if_pos ht]
      · rw [if_neg hs]
        split
        · exact h0
        · exact le_refl _
    omega

theorem insideWeight_nonneg (roads : List Road) (S : Nat → Bool)
    (hnn : ∀ r ∈ roads, 0 ≤ r.distance) : 0 ≤ insideWeight roads S := by
  have h0 : insideWeight roads (fun _ => false) = 0 := by
    unfold insideWeight
    clear hnn
    induction roads with
    | nil => simp
    | cons r rs ih =>
      simp only [List.map_cons, List.sum_cons]
      rw [ih]
      simp
  have h := insideWeight_mono roads (fun _ => false) S hnn (fun x hx => by cases hx)
  omega

theorem insideWeight_le_total (roads : List Road) (S : Nat → Bool)
    (hnn : ∀ r ∈ roads, 0 ≤ r.distance) : insideWeight roads S ≤ totalDistance roads := by
  unfold insideWeight totalDistance
  induction roads with
  | nil => simp
  | cons r rs ih =>
    simp only [List.map_cons, List.sum_cons]
    have h1 := ih (fun x hx => hnn x (List.mem_cons_of_mem _ hx))
    have h0 := hnn r (List.mem_cons_self _ _)
    have h2 : (if S r.source && S r.destination then r.distance else 0) ≤ r.distance := by
      split
      · exact le_refl _
      · exact h0
    omega

/-- A road that leaves the set `S` and lies inside the larger set `T` is counted in
`T` on top of everything counted in `S`. -/
theorem insideWeight_add (roads : List Road) (S T : Nat → Bool) (r0 : Road)
    (hnn : ∀ r ∈ roads, 0 ≤ r.distance) (hST : ∀ x, S x = true → T x = true)
    (hr0 : r0 ∈ roads) (hin : T r0.source = true ∧ T r0.destination = true)
    (hout : S r0.source = false ∨ S r0.destination = false) :
    insideWeight roads S + r0.distance ≤ insideWeight roads T := by
  induction roads with
  | nil => cases hr0
  | cons r rs ih =>
    have h0 := hnn r (List.mem_cons_self _ _)
    have hnn2 : ∀ x ∈ rs, 0 ≤ x.distance := fun x hx => hnn x (List.mem_cons_of_mem _ hx)
    have hcons : ∀ U : Nat → Bool, insideWeight (r :: rs) U
        = (if U r.source && U r.destination then r.distance else 0) + insideWeight rs U := by
      intro U; simp [insideWeight]
    rw [hcons S, hcons T]
    rcases List.mem_cons.mp hr0 with h | h
    · subst h
      have hs : (S r0.source && S r0.destination) = false := by
        rcases hout with h | h <;> simp [h]
      have ht : (T r0.source && T r0.destination) = true := by
        simp [hin.1, hin.2]
      rw [hs, ht]
      have := insideWeight_mono rs S T hnn2 hST
      simp only [Bool.false_eq_true, if_false, if_true]
      omega
    · have h1 := ih hnn2 h
      have h2 : (if S r.source && S r.destination then r.distance else 0)
          ≤ (if T r.source && T r.destination then r.distance else 0) := by
        by_cases hs : (S r.source && S r.destination) = true
        · have ht : (T r.source && T r.destination) = true := by
            simp only [Bool.and_eq_true] at hs ⊢
            exact ⟨hST _ hs.1, hST _ hs.2⟩
          rw [if_pos hs, if_pos ht]
        · rw [if_neg hs]
          split
          · exact h0
          · exact le_refl _
      omega

theorem RoadPath.nonneg (roads : List Road) (hnn : ∀ r ∈ roads, 0 ≤ r.distance)
    (u v : Nat) (len : Int) (h : RoadPath roads u v len) : 0 ≤ len := by
  induction h with
  | nil u => exact le_refl _
  | forward r v len hr _ ih => have := hnn r hr; omega
  | backward r v len hr _ ih => have := hnn r hr; omega

theorem RoadPath.append (roads : List Road) (u v w : Nat) (l1 l2 : Int)
    (h1 : RoadPath roads u v l1) (h2 : RoadPath roads v w l2) :
    RoadPath roads u w (l1 + l2) := by
  induction h1 with
  | nil u => simpa using h2
  | forward r v len hr _ ih =>
    have := RoadPath.forward r w (len + l2) hr (ih h2)
    rwa [← add_assoc] at this
  | backward r v len hr _ ih =>
    have := RoadPath.backward r w (len + l2) hr (ih h2)
    rwa [← add_assoc] at this

/-- An edge of an adjacency chain is one road travelled in one direction. -/
theorem RoadPath.of_edge (g : Graph) (roads : List Road) (hg : GraphOk g roads) (u : Nat)
    (e : Edge) (he : e ∈ g.adj u) : RoadPath roads u e.destination e.weight := by
  obtain ⟨-, -, -, r, hr, hw, hdir⟩ := hg.edge_road u e he
  rcases hdir with ⟨h1, h2⟩ | ⟨h1, h2⟩
  · have := RoadPath.forward r r.destination 0 hr (RoadPath.nil _)
    rw [h1, h2, hw, add_zero] at this
    exact this
  · have := RoadPath.backward r r.source 0 hr (RoadPath.nil _)
    rw [h1, h2, hw, add_zero] at this
    exact this

/-- The scan of `findMinDistance` over the first `n` locations. -/
theorem findMin_scan (dist : List Int) (visited : List Bool) (n : Nat) :
    ∀ acc : Int × Int,
      acc = (List.range n).foldl
        (fun (acc : Int × Int) (i : Nat) =>
          if !visited.getD i false && decide (dist.getD i 0 < acc.1) then (dist.getD i 0, (i : Int))
          else acc)
        (INF, -1) →
      (acc.2 = -1 ∧ acc.1 = INF ∧
        ∀ i, i < n → visited.getD i false = false → ¬ dist.getD i 0 < INF) ∨
      (∃ u : Nat, acc.2 = (u : Int) ∧ u < n ∧ visited.getD u false = false ∧
        acc.1 = dist.getD u 0 ∧ dist.getD u 0 < INF ∧
        ∀ i, i < n → visited.getD i false = false → dist.getD u 0 ≤ dist.getD i 0) := by
  induction n with
  | zero =>
    intro acc hacc
    left
    subst hacc
    exact ⟨rfl, rfl, fun i hi => by omega⟩
  | succ k ih =>
    intro acc hacc
    rw [List.range_succ, List.foldl_append] at hacc
    simp only [List.foldl_cons, List.foldl_nil] at hacc
    generalize hprev : (List.range k).foldl
      (fun (acc : Int × Int) (i : Nat) =>
        if (!visited.getD i false && decide (dist.getD i 0 < acc.1)) = true
          then (dist.getD i 0, (i : Int)) else acc) (INF, -1) = prev at hacc
    have ihp := ih prev hprev.symm
    by_cases hv : visited.getD k false = false
    · by_cases hd : dist.getD k 0 < prev.1
      · have hc : (!visited.getD k false && decide (dist.getD k 0 < prev.1)) = true := by
          rw [hv, decide_eq_true hd]; rfl
        rw [if_pos hc] at hacc
        subst hacc
        right
        refine ⟨k, rfl, by omega, hv, rfl, ?_, ?_⟩
        · rcases ihp with ⟨-, h2, -⟩ | ⟨u, -, -, -, h4, h5, -⟩
          · omega
          · omega
        · intro i hi hvi
          by_cases hik : i = k
          · subst hik; exact le_refl _
          · rcases ihp with ⟨-, h2, h3⟩ | ⟨u, -, -, -, h4, -, h6⟩
            · have := h3 i (by omega) hvi
              omega
            · have := h6 i (by omega) hvi
              omega
      · have hc : ¬ (!visited.getD k false && decide (dist.getD k 0 < prev.1)) = true := by
          rw [hv, decide_eq_false hd]; decide
        rw [if_neg hc] at hacc
        subst hacc
        rcases ihp with ⟨h1, h2, h3⟩ | ⟨u, h1, h2, h3, h4, h5, h6⟩
        · left
          refine ⟨h1, h2, ?_⟩
          intro i hi hvi
          by_cases hik : i = k
          · subst hik; omega
          · exact h3 i (by omega) hvi
        · right
          refine ⟨u, h1, by omega, h3, h4, h5, ?_⟩
          intro i hi hvi
          by_cases hik : i = k
          · subst hik; omega
          · exact h6 i (by omega) hvi
    · have hc : ¬ (!visited.getD k false && decide (dist.getD k 0 < prev.1)) = true := by
        rw [(Bool.not_eq_false _).mp hv]; simp
      rw [if_neg hc] at hacc
      subst hacc
      rcases ihp with ⟨h1, h2, h3⟩ | ⟨u, h1, h2, h3, h4, h5, h6⟩
      · left
        refine ⟨h1, h2, ?_⟩
        intro i hi hvi
        by_cases hik : i = k
        · subst hik; exact absurd hvi hv
        · exact h3 i (by omega) hvi
      · right
        refine ⟨u, h1, by omega, h3, h4, h5, ?_⟩
        intro i hi hvi
        by_cases hik : i = k
        · subst hik; exact absurd hvi hv
        · exact h6 i (by omega) hvi

/-- What `findMinDistance` returns: `-1` when no unvisited location has a distance below
`INF`, else an unvisited location of least distance. -/
theorem Graph.findMinDistance_spec (g : Graph) (dist : List Int) (visited : List Bool) :
    (g.findMinDistance dist visited = -1 ∧
      ∀ i, i < g.numVertices → visited.getD i false = false → ¬ dist.getD i 0 < INF) ∨
    (∃ u : Nat, g.findMinDistance dist visited = (u : Int) ∧ u < g.numVertices ∧
      visited.getD u false = false ∧ dist.getD u 0 < INF ∧
      ∀ i, i < g.numVertices → visited.getD i false = false → dist.getD u 0 ≤ dist.getD i 0) := by
  unfold Graph.findMinDistance
  simp only
  rcases findMin_scan dist visited g.numVertices _ rfl with ⟨h1, -, h3⟩ | ⟨u, h1, h2, h3, -, h5, h6⟩
  · exact Or.inl ⟨h1, h3⟩
  · exact Or.inr ⟨u, h1, h2, h3, h5, h6⟩

/-- The two outcomes of relaxing one edge. -/
theorem Graph.relaxEdge_cases (u : Nat) (st : DijkstraState) (e : Edge) :
    (¬ (st.visited.getD e.destination false = false ∧ st.dist.getD u 0 ≠ INF ∧
          wrapInt32 (st.dist.getD u 0 + e.weight) < st.dist.getD e.destination 0) ∧
      Graph.relaxEdge u st e = st) ∨
    ((st.visited.getD e.destination false = false ∧ st.dist.getD u 0 ≠ INF ∧
          wrapInt32 (st.dist.getD u 0 + e.weight) < st.dist.getD e.destination 0) ∧
      Graph.relaxEdge u st e =
        { dist := st.dist.set e.destination (wrapInt32 (st.dist.getD u 0 + e.weight)),
          visited := st.visited,
          parent := st.parent.set e.destination (u : Int) }) := by
  unfold Graph.relaxEdge
  simp only
  by_cases hc : (!st.visited.getD e.destination false && st.dist.getD u 0 != INF
      && decide (wrapInt32 (st.dist.getD u 0 + e.weight) < st.dist.getD e.destination 0)) = true
  · rw [if_pos hc]
    right
    simp only [Bool.and_eq_true, Bool.not_eq_true', bne_iff_ne, ne_eq, decide_eq_true_eq] at hc
    exact ⟨⟨hc.1.1, hc.1.2, hc.2⟩, rfl⟩
  · rw [if_neg hc]
    left
    simp only [Bool.and_eq_true, Bool.not_eq_true', bne_iff_ne, ne_eq, decide_eq_true_eq] at hc
    exact ⟨fun h => hc ⟨⟨h.1, h.2.1⟩, h.2.2⟩, rfl⟩

/-- From a visited location, one more edge to an unvisited location stays within the
total road length, so the `int` addition of `dijkstra` does not overflow. -/
theorem DijkstraInv.edge_bound (g : Graph) (roads : List Road) (source : Nat)
    (done : Nat → Edge → Prop) (st : DijkstraState) (hg : GraphOk g roads)
    (hinv : DijkstraInv g roads source done st) (u : Nat) (hu : u < g.numVertices)
    (hvis : st.visited.getD u false = true) (e : Edge) (he : e ∈ g.adj u)
    (hv : st.visited.getD e.destination false = false) :
    0 ≤ st.dist.getD u 0 ∧
    st.dist.getD u 0 + e.weight ≤
      insideWeight roads (fun x => st.visited.getD x false || x == e.destination) ∧
    st.dist.getD u 0 + e.weight ≤ totalDistance roads := by
  have hnn : ∀ r ∈ roads, 0 ≤ r.distance := fun r hr => (hg.road_edge r hr).2.2.1
  obtain ⟨-, hvn, hw, r, hr, hrw, hdir⟩ := hg.edge_road u e he
  have hfin := hinv.finite u hu hvis
  rcases hinv.bound u hu with h | ⟨h0, hb⟩
  · exact absurd h hfin
  · have h1 : insideWeight roads (fun x => st.visited.getD x false || x == u)
        ≤ insideWeight roads (fun x => st.visited.getD x false) := by
      apply insideWeight_mono roads _ _ hnn
      intro x hx
      simp only [Bool.or_eq_true, beq_iff_eq] at hx
      rcases hx with hx | hx
      · exact hx
      · rw [hx]; exact hvis
    have h2 : insideWeight roads (fun x => st.visited.getD x false) + r.distance
        ≤ insideWeight roads (fun x => st.visited.getD x false || x == e.destination) := by
      apply insideWeight_add roads _ _ r hnn _ hr
      · rcases hdir with ⟨ha, hb⟩ | ⟨ha, hb⟩
        · simp only [ha, hb, hvis, Bool.true_or, beq_self_eq_true, Bool.or_true, and_self]
        · simp only [ha, hb, hvis, Bool.true_or, beq_self_eq_true, Bool.or_true, and_self]
      · rcases hdir with ⟨ha, hb⟩ | ⟨ha, hb⟩
        · right; rw [hb]; exact hv
        · left; rw [hb]; exact hv
      · intro x hx
        simp only [hx, Bool.true_or]
    have h3 := insideWeight_le_total roads
      (fun x => st.visited.getD x false || x == e.destination) hnn
    refine ⟨h0, by omega, by omega⟩

/-- Relaxing one edge of a visited location keeps the loop invariant and adds the edge
to the relaxed ones. -/
theorem DijkstraInv.relaxEdge_keeps (g : Graph) (roads : List Road) (source : Nat)
    (done : Nat → Edge → Prop) (st : DijkstraState) (hg : GraphOk g roads)
    (htot : totalDistance roads < INT_MAX)
    (hinv : DijkstraInv g roads source done st) (u : Nat) (hu : u < g.numVertices)
    (hvis : st.visited.getD u false = true)
    (hmax : ∀ x, x < g.numVertices → st.visited.getD x false = true →
      st.dist.getD x 0 ≤ st.dist.getD u 0)
    (e : Edge) (he : e ∈ g.adj u) :
    DijkstraInv g roads source (fun x e1 => done x e1 ∨ (x = u ∧ e1 = e))
      (Graph.relaxEdge u st e) ∧
    (Graph.relaxEdge u st e).visited = st.visited ∧
    (∀ x, st.visited.getD x false = true →
      (Graph.relaxEdge u st e).dist.getD x 0 = st.dist.getD x 0) := by
  obtain ⟨-, hvn, hw, -⟩ := hg.edge_road u e he
  have hfin := hinv.finite u hu hvis
  have hwrap : st.visited.getD e.destination false = false →
      wrapInt32 (st.dist.getD u 0 + e.weight) = st.dist.getD u 0 + e.weight := by
    intro hv
    obtain ⟨h0, -, h2⟩ := DijkstraInv.edge_bound g roads source done st hg hinv u hu hvis e he hv
    exact wrapInt32_of_range _ (by omega) (by omega)
  rcases Graph.relaxEdge_cases u st e with ⟨hc, heq⟩ | ⟨⟨hv, -, hlt⟩, heq⟩
  · rw [heq]
    refine ⟨?_, rfl, fun _ _ => rfl⟩
    refine ⟨hinv.len_dist, hinv.len_visited, hinv.len_parent, hinv.src_zero, hinv.bound,
      hinv.path, ?_, hinv.mono, hinv.finite, hinv.ranked⟩
    intro x hx hxv e1 he1 hd
    rcases hd with hd | ⟨hxu, hee⟩
    · exact hinv.relaxed x hx hxv e1 he1 hd
    · subst hxu; subst hee
      by_cases hv : st.visited.getD e1.destination false = false
      · have := hwrap hv
        by_contra hcon
        exact hc ⟨hv, hfin, by omega⟩
      · have := hmax e1.destination hvn ((Bool.not_eq_false _).mp hv)
        omega
  · rw [hwrap hv] at heq hlt
    obtain ⟨h0, hb1, hb2⟩ :=
      DijkstraInv.edge_bound g roads source done st hg hinv u hu hvis e he hv
    have hdist : ∀ x, (Graph.relaxEdge u st e).dist.getD x 0 =
        if e.destination = x then st.dist.getD u 0 + e.weight else st.dist.getD x 0 := by
      intro x
      rw [heq]
      exact getD_set_if _ _ _ _ _ (by rw [hinv.len_dist]; exact hvn)
    have hpar : ∀ x, (Graph.relaxEdge u st e).parent.getD x (-1) =
        if e.destination = x then (u : Int) else st.parent.getD x (-1) := by
      intro x
      rw [heq]
      exact getD_set_if _ _ _ _ _ (by rw [hinv.len_parent]; exact hvn)
    have hvisEq : (Graph.relaxEdge u st e).visited = st.visited := by rw [heq]
    have hkeep : ∀ x, st.visited.getD x false = true →
        (Graph.relaxEdge u st e).dist.getD x 0 = st.dist.getD x 0 := by
      intro x hxv
      rw [hdist x, if_neg]
      intro hex
      rw [hex, hxv] at hv
      cases hv
    have hle : ∀ x, (Graph.relaxEdge u st e).dist.getD x 0 ≤ st.dist.getD x 0 := by
      intro x
      rw [hdist x]
      split
      · rename_i hex; rw [← hex]; omega
      · exact le_refl _
    have hunv : unvisited (Graph.relaxEdge u st e) g.numVertices = unvisited st g.numVertices := by
      unfold unvisited; rw [hvisEq]
    refine ⟨?_, hvisEq, hkeep⟩
    refine ⟨?_, ?_, ?_, ?_, ?_, ?_, ?_, ?_, ?_, ?_⟩
    · rw [heq]; simp only [List.length_set]; exact hinv.len_dist
    · rw [hvisEq]; exact hinv.len_visited
    · rw [heq]; simp only [List.length_set]; exact hinv.len_parent
    · rw [hdist source, if_neg]
      · exact hinv.src_zero
      · intro hes
        rw [hes, hinv.src_zero] at hlt
        omega
    · intro x hx
      rw [hdist x, hvisEq]
      by_cases hex : e.destination = x
      · rw [if_pos hex]
        right
        rw [← hex]
        exact ⟨by omega, hb1⟩
      · rw [if_neg hex]
        exact hinv.bound x hx
    · intro x hx hne
      rw [hdist x] at hne ⊢
      by_cases hex : e.destination = x
      · rw [if_pos hex]
        rw [← hex]
        exact RoadPath.append roads source u e.destination _ _ (hinv.path u hu hfin)
          (RoadPath.of_edge g roads hg u e he)
      · rw [if_neg hex] at hne ⊢
        exact hinv.path x hx hne
    · intro x hx hxv e1 he1 hd
      rw [hvisEq] at hxv
      rw [hkeep x hxv]
      rcases hd with hd | ⟨hxu, hee⟩
      · exact le_trans (hle _) (hinv.relaxed x hx hxv e1 he1 hd)
      · subst hxu; subst hee
        rw [hdist e1.destination, if_pos rfl]
    · intro x y hx hy hxv hyv
      rw [hvisEq] at hxv hyv
      rw [hkeep x hxv, hdist y]
      by_cases hey : e.destination = y
      · rw [if_pos hey]
        have := hmax x hx hxv
        omega
      · rw [if_neg hey]
        exact hinv.mono x y hx hy hxv hyv
    · intro x hx hxv
      rw [hvisEq] at hxv
      rw [hkeep x hxv]
      exact hinv.finite x hx hxv
    · obtain ⟨rank, hrank⟩ := hinv.ranked
      refine ⟨rank, ?_⟩
      intro x hx
      rw [hunv, hvisEq]
      obtain ⟨r1, r2, r3⟩ := hrank x hx
      refine ⟨r1, r2, ?_⟩
      rw [hpar x]
      by_cases hex : e.destination = x
      · rw [if_pos hex]
        right
        refine ⟨u, hu, rfl, hvis, ?_⟩
        have hu1 := (hrank u hu).1 hvis
        have hx2 := r2 (by rw [← hex]; exact hv)
        omega
      · rw [if_neg hex]
        exact r3

theorem DijkstraInv.weaken (g : Graph) (roads : List Road) (source : Nat)
    (done done1 : Nat → Edge → Prop) (st : DijkstraState)
    (hinv : DijkstraInv g roads source done st)
    (h : ∀ x e, e ∈ g.adj x → done1 x e → done x e) :
    DijkstraInv g roads source done1 st :=
  ⟨hinv.len_dist, hinv.len_visited, hinv.len_parent, hinv.src_zero, hinv.bound, hinv.path,
    fun x hx hxv e he hd => hinv.relaxed x hx hxv e he (h x e he hd),
    hinv.mono, hinv.finite, hinv.ranked⟩

/-- Relaxing a run of edges of a visited location keeps the loop invariant and adds the
edges to the relaxed ones. -/
theorem DijkstraInv.relaxEdges_keep (g : Graph) (roads : List Road) (source : Nat)
    (hg : GraphOk g roads) (htot : totalDistance roads < INT_MAX) (u : Nat)
    (hu : u < g.numVertices) :
    ∀ (es : List Edge) (done : Nat → Edge → Prop) (st : DijkstraState),
      (∀ e ∈ es, e ∈ g.adj u) → DijkstraInv g roads source done st →
      st.visited.getD u false = true →
      (∀ x, x < g.numVertices → st.visited.getD x false = true →
        st.dist.getD x 0 ≤ st.dist.getD u 0) →
      DijkstraInv g roads source (fun x e1 => done x e1 ∨ (x = u ∧ e1 ∈ es))
        (es.foldl (Graph.relaxEdge u) st) ∧
      (es.foldl (Graph.relaxEdge u) st).visited = st.visited := by
  intro es
  induction es with
  | nil =>
    intro done st _ hinv _ _
    refine ⟨DijkstraInv.weaken g roads source done _ st hinv ?_, rfl⟩
    intro x e _ hd
    rcases hd with hd | ⟨-, hd⟩
    · exact hd
    · cases hd
  | cons e es ih =>
    intro done st hes hinv hvis hmax
    obtain ⟨h1, h2, h3⟩ := DijkstraInv.relaxEdge_keeps g roads source done st hg htot hinv u hu hvis
      hmax e (hes e (List.mem_cons_self _ _))
    have hvis1 : (Graph.relaxEdge u st e).visited.getD u false = true := by rw [h2]; exact hvis
    have hmax1 : ∀ x, x < g.numVertices → (Graph.relaxEdge u st e).visited.getD x false = true →
        (Graph.relaxEdge u st e).dist.getD x 0 ≤ (Graph.relaxEdge u st e).dist.getD u 0 := by
      intro x hx hxv
      rw [h2] at hxv
      rw [h3 x hxv, h3 u hvis]
      exact hmax x hx hxv
    obtain ⟨i1, i2⟩ := ih _ (Graph.relaxEdge u st e)
      (fun e1 he1 => hes e1 (List.mem_cons_of_mem _ he1)) h1 hvis1 hmax1
    refine ⟨DijkstraInv.weaken g roads source _ _ _ i1 ?_, by rw [List.foldl_cons, i2, h2]⟩
    intro x e1 _ hd
    rcases hd with hd | ⟨hxu, hd⟩
    · exact Or.inl (Or.inl hd)
    · rcases List.mem_cons.mp hd with h | h
      · exact Or.inl (Or.inr ⟨hxu, h⟩)
      · exact Or.inr ⟨hxu, h⟩

theorem unvisited_mem (st : DijkstraState) (n i : Nat) :
    i ∈ unvisited st n ↔ i < n ∧ st.visited.getD i false = false := by
  unfold unvisited
  rw [List.mem_filter, List.mem_range]
  simp only [Bool.not_eq_true']

/-- Marking an unvisited location removes exactly one entry from the unvisited ones. -/
theorem unvisited_mark (st : DijkstraState) (n u : Nat) (hu : u < n)
    (hlen : st.visited.length = n) (hv : st.visited.getD u false = false) :
    (unvisited { st with visited := st.visited.set u true } n).length + 1
      = (unvisited st n).length := by
  have hfilter : unvisited { st with visited := st.visited.set u true } n
      = (unvisited st n).erase u := by
    have hnd : (unvisited st n).Nodup := (List.nodup_range n).filter _
    rw [hnd.erase_eq_filter]
    unfold unvisited
    rw [List.filter_filter]
    apply List.filter_congr
    intro i _
    simp only
    rw [getD_set_if _ _ _ _ _ (by rw [hlen]; exact hu)]
    by_cases hui : u = i
    · subst hui; simp
    · rw [if_neg hui]
      have : (i != u) = true := by simpa using (fun h => hui h.symm)
      rw [this]; simp
  have hmem : u ∈ unvisited st n := (unvisited_mem st n u).mpr ⟨hu, hv⟩
  rw [hfilter, List.length_erase_of_mem hmem]
  have := List.length_pos_of_mem hmem
  omega

/-- Marking the location picked by `findMinDistance` as visited keeps the invariant for
the edges of the other visited locations; the picked location has the largest distance
among the visited ones. -/
theorem DijkstraInv.mark_keeps (g : Graph) (roads : List Road) (source : Nat)
    (hg : GraphOk g roads) (st : DijkstraState)
    (hinv : DijkstraInv g roads source (fun _ _ => True) st) (u : Nat)
    (hu : u < g.numVertices) (hv : st.visited.getD u false = false)
    (hfin : st.dist.getD u 0 < INF)
    (hmin : ∀ i, i < g.numVertices → st.visited.getD i false = false →
      st.dist.getD u 0 ≤ st.dist.getD i 0) :
    DijkstraInv g roads source (fun x _ => x ≠ u)
      { st with visited := st.visited.set u true } ∧
    (st.visited.set u true).getD u false = true ∧
    (∀ x, x < g.numVertices → (st.visited.set u true).getD x false = true →
      st.dist.getD x 0 ≤ st.dist.getD u 0) ∧
    (∀ x, st.visited.getD x false = true → (st.visited.set u true).getD x false = true) := by
  have hnn : ∀ r ∈ roads, 0 ≤ r.distance := fun r hr => (hg.road_edge r hr).2.2.1
  have hcount := unvisited_mark st g.numVertices u hu hinv.len_visited hv
  have hvget : ∀ x, (st.visited.set u true).getD x false =
      if u = x then true else st.visited.getD x false := by
    intro x
    exact getD_set_if _ _ _ _ _ (by rw [hinv.len_visited]; exact hu)
  have hsub : ∀ x, st.visited.getD x false = true →
      (st.visited.set u true).getD x false = true := by
    intro x hx
    rw [hvget x]; split
    · rfl
    · exact hx
  have hmid : DijkstraInv g roads source (fun x _ => x ≠ u)
      { st with visited := st.visited.set u true } := by
    refine ⟨hinv.len_dist, ?_, hinv.len_parent, hinv.src_zero, ?_, hinv.path, ?_, ?_, ?_, ?_⟩
    · simp only [List.length_set]; exact hinv.len_visited
    · intro x hx
      rcases hinv.bound x hx with h | ⟨h0, hb⟩
      · exact Or.inl h
      · right
        refine ⟨h0, le_trans hb ?_⟩
        apply insideWeight_mono roads _ _ hnn
        intro y hy
        simp only [Bool.or_eq_true, beq_iff_eq] at hy ⊢
        rcases hy with hy | hy
        · exact Or.inl (hsub y hy)
        · exact Or.inr hy
    · intro x hx hxv e he hd
      simp only at hxv
      rw [hvget x, if_neg (fun h => hd h.symm)] at hxv
      exact hinv.relaxed x hx hxv e he trivial
    · intro x y hx hy hxv hyv
      simp only at hxv hyv ⊢
      rw [hvget y] at hyv
      have hyu : ¬ u = y := by
        intro h; rw [if_pos h] at hyv; cases hyv
      rw [if_neg hyu] at hyv
      rw [hvget x] at hxv
      by_cases hxu : u = x
      · rw [← hxu]; exact hmin y hy hyv
      · rw [if_neg hxu] at hxv
        exact hinv.mono x y hx hy hxv hyv
    · intro x hx hxv
      simp only at hxv ⊢
      rw [hvget x] at hxv
      by_cases hxu : u = x
      · rw [← hxu]; omega
      · rw [if_neg hxu] at hxv
        exact hinv.finite x hx hxv
    · obtain ⟨rank, hrank⟩ := hinv.ranked
      refine ⟨fun v => if (st.visited.set u true).getD v false = true then rank v
        else rank v + 1, ?_⟩
      intro x hx
      obtain ⟨r1, r2, r3⟩ := hrank x hx
      simp only
      refine ⟨?_, ?_, ?_⟩
      · intro hxv
        rw [if_pos hxv]
        rw [hvget x] at hxv
        by_cases hxu : u = x
        · have := r2 (by rw [← hxu]; exact hv)
          omega
        · rw [if_neg hxu] at hxv
          have := r1 hxv
          omega
      · intro hxv
        rw [if_neg (by rw [hxv]; decide)]
        rw [hvget x] at hxv
        have hxu : ¬ u = x := by
          intro h; rw [if_pos h] at hxv; cases hxv
        rw [if_neg hxu] at hxv
        have := r2 hxv
        omega
      · rcases r3 with h | ⟨p, hp, hpar, hpv, hlt⟩
        · exact Or.inl h
        · right
          refine ⟨p, hp, hpar, hsub p hpv, ?_⟩
          rw [if_pos (hsub p hpv)]
          split
          · exact hlt
          · omega
  have hvis1 : (st.visited.set u true).getD u false = true := by
    rw [hvget u, if_pos rfl]
  have hmax1 : ∀ x, x < g.numVertices → (st.visited.set u true).getD x false = true →
      st.dist.getD x 0 ≤ st.dist.getD u 0 := by
    intro x hx hxv
    rw [hvget x] at hxv
    by_cases hxu : u = x
    · rw [← hxu]
    · rw [if_neg hxu] at hxv
      exact hinv.mono x u hx hu hxv hv
  exact ⟨hmid, hvis1, hmax1, hsub⟩

/-- One iteration of the main loop: either it breaks, and then every unvisited location
is at distance `INF`, or it visits one more location and keeps the invariant. -/
theorem DijkstraInv.step (g : Graph) (roads : List Road) (source : Nat)
    (hg : GraphOk g roads) (htot : totalDistance roads < INT_MAX) (st : DijkstraState)
    (hinv : DijkstraInv g roads source (fun _ _ => True) st) :
    (g.dijkstraStep st = none ∧
      ∀ i, i < g.numVertices → st.visited.getD i false = false → st.dist.getD i 0 = INF) ∨
    (∃ st1, g.dijkstraStep st = some st1 ∧
      DijkstraInv g roads source (fun _ _ => True) st1 ∧
      (unvisited st1 g.numVertices).length + 1 = (unvisited st g.numVertices).length) := by
  have hnn : ∀ r ∈ roads, 0 ≤ r.distance := fun r hr => (hg.road_edge r hr).2.2.1
  unfold Graph.dijkstraStep
  simp only
  rcases g.findMinDistance_spec st.dist st.visited with ⟨h1, h2⟩ | ⟨u, h1, hu, hv, hfin, hmin⟩
  · left
    rw [h1]
    refine ⟨by simp, ?_⟩
    intro i hi hvi
    rcases hinv.bound i hi with h | ⟨-, hb⟩
    · exact h
    · exfalso
      apply h2 i hi hvi
      have := insideWeight_le_total roads
        (fun x => st.visited.getD x false || x == i) hnn
      unfold INF; omega
  · right
    rw [h1]
    have hne : ¬ ((u : Int) = -1) := by omega
    rw [if_neg hne]
    simp only [Int.toNat_ofNat]
    have hcount := unvisited_mark st g.numVertices u hu hinv.len_visited hv
    obtain ⟨hmid, hvis1, hmax1, -⟩ :=
      DijkstraInv.mark_keeps g roads source hg st hinv u hu hv hfin hmin
    obtain ⟨f1, f2⟩ := DijkstraInv.relaxEdges_keep g roads source hg htot u hu (g.adj u) _
      { st with visited := st.visited.set u true } (fun e he => he) hmid hvis1 hmax1
    refine ⟨_, rfl, DijkstraInv.weaken g roads source _ _ _ f1 ?_, ?_⟩
    · intro x e he _
      by_cases hxu : x = u
      · exact Or.inr ⟨hxu, by rw [← hxu]; exact he⟩
      · exact Or.inl hxu
    · have : unvisited (List.foldl (Graph.relaxEdge u)
          { st with visited := st.visited.set u true } (g.adj u)) g.numVertices
          = unvisited { st with visited := st.visited.set u true } g.numVertices := by
        unfold unvisited; rw [f2]
      rw [this]
      exact hcount

/-- The main loop keeps the invariant, and it ends either with all unvisited locations
at equal distance or after visiting one location per iteration. -/
theorem DijkstraInv.loop (g : Graph) (roads : List Road) (source : Nat)
    (hg : GraphOk g roads) (htot : totalDistance roads < INT_MAX) :
    ∀ (k : Nat) (st : DijkstraState), DijkstraInv g roads source (fun _ _ => True) st →
      DijkstraInv g roads source (fun _ _ => True) (g.dijkstraLoop k st) ∧
      ((∀ a b, a < g.numVertices → b < g.numVertices →
          (g.dijkstraLoop k st).visited.getD a false = false →
          (g.dijkstraLoop k st).visited.getD b false = false →
          (g.dijkstraLoop k st).dist.getD a 0 ≤ (g.dijkstraLoop k st).dist.getD b 0) ∨
        (unvisited (g.dijkstraLoop k st) g.numVertices).length + k
          = (unvisited st g.numVertices).length) := by
  intro k
  induction k with
  | zero =>
    intro st hinv
    exact ⟨hinv, Or.inr rfl⟩
  | succ k ih =>
    intro st hinv
    simp only [Graph.dijkstraLoop]
    rcases DijkstraInv.step g roads source hg htot st hinv with ⟨h1, h2⟩ | ⟨st1, h1, h2, h3⟩
    · rw [h1]
      refine ⟨hinv, Or.inl ?_⟩
      intro a b ha hb hva hvb
      rw [h2 a ha hva, h2 b hb hvb]
    · rw [h1]
      obtain ⟨i1, i2⟩ := ih st1 h2
      refine ⟨i1, ?_⟩
      rcases i2 with h | h
      · exact Or.inl h
      · right
        show (unvisited (g.dijkstraLoop k st1) g.numVertices).length + (k + 1) = _
        omega

theorem Graph.dijkstraInit_inv (g : Graph) (roads : List Road) (source : Nat)
    (hg : GraphOk g roads) (hs : source < g.numVertices) :
    DijkstraInv g roads source (fun _ _ => True) (g.dijkstraInit source) ∧
    (unvisited (g.dijkstraInit source) g.numVertices).length = g.numVertices := by
  have hnn : ∀ r ∈ roads, 0 ≤ r.distance := fun r hr => (hg.road_edge r hr).2.2.1
  have hvis : ∀ x, (g.dijkstraInit source).visited.getD x false = false := by
    intro x
    exact getD_replicate _ _ _
  have hdist : ∀ x, x < g.numVertices →
      (g.dijkstraInit source).dist.getD x 0 = if source = x then 0 else INF := by
    intro x hxn
    unfold Graph.dijkstraInit
    simp only
    rw [getD_set_if _ _ _ _ _ (by simp; exact hs)]
    by_cases hx : source = x
    · rw [if_pos hx, if_pos hx]
    · rw [if_neg hx, if_neg hx]
      simp only [List.getD_eq_getElem?_getD, List.getElem?_replicate]
      rw [if_pos hxn]; rfl
  have hunv : unvisited (g.dijkstraInit source) g.numVertices = List.range g.numVertices := by
    unfold unvisited
    rw [List.filter_eq_self]
    intro a _
    rw [hvis a]; rfl
  refine ⟨⟨?_, ?_, ?_, ?_, ?_, ?_, ?_, ?_, ?_, ?_⟩, by rw [hunv, List.length_range]⟩
  · simp [Graph.dijkstraInit]
  · simp [Graph.dijkstraInit]
  · simp [Graph.dijkstraInit]
  · rw [hdist source hs, if_pos rfl]
  · intro v hv
    rw [hdist v hv]
    by_cases hx : source = v
    · rw [if_pos hx]
      right
      exact ⟨le_refl _, insideWeight_nonneg roads _ hnn⟩
    · rw [if_neg hx]; exact Or.inl rfl
  · intro v hv hne
    rw [hdist v hv] at hne ⊢
    by_cases hx : source = v
    · rw [if_pos hx, ← hx]; exact RoadPath.nil source
    · rw [if_neg hx] at hne; exact absurd rfl hne
  · intro u _ huv
    rw [hvis u] at huv; cases huv
  · intro x y _ _ hxv
    rw [hvis x] at hxv; cases hxv
  · intro u _ huv
    rw [hvis u] at huv; cases huv
  · refine ⟨fun _ => 0, ?_⟩
    intro v hv
    refine ⟨fun h => ?_, fun _ => ?_, Or.inl ?_⟩
    · rw [hvis v] at h; cases h
    · rw [hunv, List.length_range]; exact Nat.zero_add _
    · exact getD_replicate _ _ _

/-- When `dijkstra` leaves its main loop the invariant holds and all unvisited locations
are at equal distance. -/
theorem Graph.dijkstraRun_inv (g : Graph) (roads : List Road) (source : Nat)
    (hg : GraphOk g roads) (htot : totalDistance roads < INT_MAX)
    (hs : source < g.numVertices) :
    DijkstraInv g roads source (fun _ _ => True) (g.dijkstraRun source) ∧
    (∀ a b, a < g.numVertices → b < g.numVertices →
      (g.dijkstraRun source).visited.getD a false = false →
      (g.dijkstraRun source).visited.getD b false = false →
      (g.dijkstraRun source).dist.getD a 0 ≤ (g.dijkstraRun source).dist.getD b 0) := by
  obtain ⟨h1, h2⟩ := Graph.dijkstraInit_inv g roads source hg hs
  obtain ⟨i1, i2⟩ := DijkstraInv.loop g roads source hg htot (g.numVertices - 1)
    (g.dijkstraInit source) h1
  unfold Graph.dijkstraRun
  refine ⟨i1, ?_⟩
  rcases i2 with h | h
  · exact h
  · intro a b ha hb hva hvb
    rw [h2] at h
    have hlen : (unvisited (g.dijkstraLoop (g.numVertices - 1) (g.dijkstraInit source))
        g.numVertices).length = 1 := by omega
    obtain ⟨z, hz⟩ := List.length_eq_one.mp hlen
    have hma := (unvisited_mem _ g.numVertices a).mpr ⟨ha, hva⟩
    have hmb := (unvisited_mem _ g.numVertices b).mpr ⟨hb, hvb⟩
    rw [hz] at hma hmb
    simp only [List.mem_singleton] at hma hmb
    rw [hma, hmb]

/-- Along any road path, either the end is at most the start's distance plus the path
length away, or some unvisited location is. -/
theorem DijkstraInv.path_lower (g : Graph) (roads : List Road) (source : Nat)
    (hg : GraphOk g roads) (st : DijkstraState)
    (hinv : DijkstraInv g roads source (fun _ _ => True) st)
    (x t : Nat) (len : Int) (hp : RoadPath roads x t len) (hx : x < g.numVertices) :
    st.dist.getD t 0 ≤ st.dist.getD x 0 + len ∨
    ∃ y, y < g.numVertices ∧ st.visited.getD y false = false ∧
      st.dist.getD y 0 ≤ st.dist.getD x 0 + len := by
  have hnn : ∀ r ∈ roads, 0 ≤ r.distance := fun r hr => (hg.road_edge r hr).2.2.1
  induction hp with
  | nil u => left; omega
  | forward r t len hr hrest ih =>
    obtain ⟨h1, h2, h3, h4, h5⟩ := hg.road_edge r hr
    have hlen := RoadPath.nonneg roads hnn _ _ _ hrest
    by_cases hv : st.visited.getD r.source false = true
    · have hrel := hinv.relaxed r.source h1 hv _ h4 trivial
      simp only at hrel
      rcases ih h2 with h | ⟨y, hy, hyv, hyd⟩
      · left; omega
      · right; exact ⟨y, hy, hyv, by omega⟩
    · right
      exact ⟨r.source, h1, (Bool.not_eq_true _).mp hv, by omega⟩
  | backward r t len hr hrest ih =>
    obtain ⟨h1, h2, h3, h4, h5⟩ := hg.road_edge r hr
    have hlen := RoadPath.nonneg roads hnn _ _ _ hrest
    by_cases hv : st.visited.getD r.destination false = true
    · have hrel := hinv.relaxed r.destination h2 hv _ h5 trivial
      simp only at hrel
      rcases ih h1 with h | ⟨y, hy, hyv, hyd⟩
      · left; omega
      · right; exact ⟨y, hy, hyv, by omega⟩
    · right
      exact ⟨r.destination, h2, (Bool.not_eq_true _).mp hv, by omega⟩

/-- Along any road path from a reached location, either the end is reached or some
unvisited location is. -/
theorem DijkstraInv.path_reach (g : Graph) (roads : List Road) (source : Nat)
    (hg : GraphOk g roads) (htot : totalDistance roads < INT_MAX) (st : DijkstraState)
    (hinv : DijkstraInv g roads source (fun _ _ => True) st)
    (x t : Nat) (len : Int) (hp : RoadPath roads x t len) (hx : x < g.numVertices)
    (hfin : st.dist.getD x 0 ≠ INF) :
    st.dist.getD t 0 ≠ INF ∨
    ∃ y, y < g.numVertices ∧ st.visited.getD y false = false ∧ st.dist.getD y 0 ≠ INF := by
  have hstep : ∀ (u : Nat) (e : Edge), u < g.numVertices → e ∈ g.adj u →
      st.visited.getD u false = true → st.dist.getD e.destination 0 ≠ INF := by
    intro u e hu he hv
    by_cases hve : st.visited.getD e.destination false = true
    · exact hinv.finite _ (hg.edge_road u e he).2.1 hve
    · obtain ⟨-, -, hb⟩ := DijkstraInv.edge_bound g roads source _ st hg hinv u hu hv e he
        ((Bool.not_eq_true _).mp hve)
      have hrel := hinv.relaxed u hu hv e he trivial
      unfold INF; omega
  induction hp with
  | nil u => exact Or.inl hfin
  | forward r t len hr _ ih =>
    obtain ⟨h1, h2, h3, h4, h5⟩ := hg.road_edge r hr
    by_cases hv : st.visited.getD r.source false = true
    · exact ih h2 (hstep r.source _ h1 h4 hv)
    · exact Or.inr ⟨r.source, h1, (Bool.not_eq_true _).mp hv, hfin⟩
  | backward r t len hr _ ih =>
    obtain ⟨h1, h2, h3, h4, h5⟩ := hg.road_edge r hr
    by_cases hv : st.visited.getD r.destination false = true
    · exact ih h1 (hstep r.destination _ h2 h5 hv)
    · exact Or.inr ⟨r.destination, h2, (Bool.not_eq_true _).mp hv, hfin⟩

theorem Graph.pathFrom_end (parent : List Int) (room : Nat) :
    Graph.pathFrom parent room (-1) = some [] := by
  cases room <;> simp [Graph.pathFrom]

/-- Walking the parent pointers from a location ends within the room its rank allows. -/
theorem Graph.pathFrom_some (n : Nat) (parent : List Int) (rank : Nat → Nat)
    (hpar : ∀ v, v < n → parent.getD v (-1) = -1 ∨
      ∃ p, p < n ∧ parent.getD v (-1) = (p : Int) ∧ rank p < rank v) :
    ∀ (room c : Nat), c < n → rank c < room →
      ∃ path, Graph.pathFrom parent room (c : Int) = some path := by
  intro room
  induction room with
  | zero => intro c _ h; omega
  | succ room ih =>
    intro c hc hr
    simp only [Graph.pathFrom]
    have hne : (c : Int) ≠ -1 := by omega
    rw [if_pos hne]
    simp only [Int.toNat_ofNat]
    rcases hpar c hc with h | ⟨p, hp, hpe, hlt⟩
    · rw [h, Graph.pathFrom_end]
      exact ⟨_, rfl⟩
    · rw [hpe]
      obtain ⟨path, hpath⟩ := ih p hp (by omega)
      rw [hpath]
      exact ⟨_, rfl⟩

/-- C1: on a road network built by valid calls, with non-negative distances of total
below `INT_MAX`, `dijkstra(source, destination)` for a connected pair reports a route,
and the reported shortest distance is the minimum over all road paths from source to
destination of the sum of the road distances along the path: some path has that length
and no path is shorter. -/
theorem Graph.dijkstra_shortest (roads : List Road) (g : Graph) (source destination : Nat)
    (hb : Graph.Built roads g) (htot : totalDistance roads < INT_MAX)
    (hs : source < g.numVertices) (hd : destination < g.numVertices)
    (hconn : ∃ len, RoadPath roads source destination len) :
    ∃ (d : Int) (path : List Nat) (legs : List Int),
      g.dijkstra source destination = some (RouteResult.route d path legs) ∧
      RoadPath roads source destination d ∧
      ∀ len, RoadPath roads source destination len → d ≤ len := by
  have hg := Graph.ok_of_built roads g hb
  obtain ⟨hinv, hq⟩ := Graph.dijkstraRun_inv g roads source hg htot hs
  obtain ⟨len0, hp0⟩ := hconn
  have hsrc := hinv.src_zero
  have hfin : (g.dijkstraRun source).dist.getD destination 0 ≠ INF := by
    rcases DijkstraInv.path_reach g roads source hg htot _ hinv source destination len0 hp0 hs
      (by rw [hsrc]; decide) with h | ⟨y, hy, hyv, hyd⟩
    · exact h
    · by_cases hv : (g.dijkstraRun source).visited.getD destination false = true
      · exact hinv.finite destination hd hv
      · have h1 := hq destination y hd hy ((Bool.not_eq_true _).mp hv) hyv
        rcases hinv.bound y hy with h | ⟨-, hb2⟩
        · exact absurd h hyd
        · have := insideWeight_le_total roads
            (fun x => (g.dijkstraRun source).visited.getD x false || x == y)
            (fun r hr => (hg.road_edge r hr).2.2.1)
          unfold INF; omega
  have hpathSome : ∃ path, Graph.pathFrom (g.dijkstraRun source).parent MAX_VERTICES
      (destination : Int) = some path := by
    obtain ⟨rank, hrank⟩ := hinv.ranked
    apply Graph.pathFrom_some g.numVertices _ rank _ MAX_VERTICES destination hd
    · obtain ⟨r1, r2, -⟩ := hrank destination hd
      have hn := hg.n_le
      by_cases hv : (g.dijkstraRun source).visited.getD destination false = true
      · have := r1 hv; omega
      · have hv2 := (Bool.not_eq_true _).mp hv
        have := r2 hv2
        have hmem := (unvisited_mem _ g.numVertices destination).mpr ⟨hd, hv2⟩
        have := List.length_pos_of_mem hmem
        omega
    · intro v hv
      rcases (hrank v hv).2.2 with h | ⟨p, hp, hpe, -, hlt⟩
      · exact Or.inl h
      · exact Or.inr ⟨p, hp, hpe, hlt⟩
  obtain ⟨path, hpath⟩ := hpathSome
  refine ⟨(g.dijkstraRun source).dist.getD destination 0, path.reverse,
    g.legs path.reverse, ?_, hinv.path destination hd hfin, ?_⟩
  · unfold Graph.dijkstra
    rw [if_neg (by omega), if_neg (by omega)]
    simp only [Int.toNat_ofNat]
    rw [if_neg hfin, hpath]
  · intro len hp
    rcases DijkstraInv.path_lower g roads source hg _ hinv source destination len hp hs
      with h | ⟨y, hy, hyv, hyd⟩
    · rw [hsrc] at h; omega
    · rw [hsrc] at hyd
      by_cases hv : (g.dijkstraRun source).visited.getD destination false = true
      · have := hinv.mono destination y hd hy hv hyv
        omega
      · have := hq destination y hd hy ((Bool.not_eq_true _).mp hv) hyv
        omega

theorem Graph.built_addLocations (names : List String) :
    ∀ (roads : List Road) (g : Graph), Graph.Built roads g →
      Graph.Built roads (names.foldl Graph.addLocation g) := by
  induction names with
  | nil => intro roads g h; exact h
  | cons name names ih =>
    intro roads g h
    exact ih roads _ (Graph.Built.addLocation roads g name h)

theorem Graph.built_addRoads (rs : List Road) :
    ∀ (roads : List Road) (g g1 : Graph), Graph.Built roads g →
      (∀ r ∈ rs, r.source < g.numVertices ∧ r.destination < g.numVertices ∧ 0 ≤ r.distance) →
      Graph.addRoads g rs = some g1 → Graph.Built (rs.reverse ++ roads) g1 := by
  induction rs with
  | nil =>
    intro roads g g1 h _ hadd
    simp only [Graph.addRoads, Option.some.injEq] at hadd
    rw [← hadd]; exact h
  | cons r rs ih =>
    intro roads g g1 h hvalid hadd
    simp only [Graph.addRoads] at hadd
    obtain ⟨h1, h2, h3⟩ := hvalid r (List.mem_cons_self _ _)
    cases hr : g.addRoad r.source r.destination r.distance with
    | none => rw [hr] at hadd; cases hadd
    | some g2 =>
      rw [hr] at hadd
      simp only at hadd
      have hok := Graph.ok_of_built roads g h
      have hn := (Graph.addRoad_spec g g2 r.source r.destination r.distance hok.adj_len
        hok.n_le h1 h2 hr).1
      have hb2 := Graph.Built.addRoad roads g g2 r.source r.destination r.distance h h1 h2 h3 hr
      have := ih _ g2 g1 hb2
        (fun x hx => by rw [hn]; exact hvalid x (List.mem_cons_of_mem _ hx)) hadd
      simpa using this

theorem cityMap_built : Graph.Built mainRoads.reverse cityMap := by
  have h := Graph.built_addRoads mainRoads [] cityLocations cityMap
    (Graph.built_addLocations _ [] Graph.empty Graph.Built.empty) (by decide) (by rfl)
  simpa using h

theorem Graph.dijkstra_shortest_witness :
    Graph.Built mainRoads.reverse cityMap ∧ totalDistance mainRoads.reverse < INT_MAX ∧
    0 < cityMap.numVertices ∧ 4 < cityMap.numVertices ∧
    (∃ len, RoadPath mainRoads.reverse 0 4 len) ∧
    ∃ (d : Int) (path : List Nat) (legs : List Int),
      cityMap.dijkstra ((0 : Nat) : Int) ((4 : Nat) : Int)
        = some (RouteResult.route d path legs) ∧
      RoadPath mainRoads.reverse 0 4 d ∧
      ∀ len, RoadPath mainRoads.reverse 0 4 len → d ≤ len :=
  ⟨cityMap_built, by decide, by decide, by decide,
    ⟨15 + (25 + 0), RoadPath.forward ⟨0, 1, 15⟩ 4 (25 + 0) (by decide)
      (RoadPath.forward ⟨1, 4, 25⟩ 4 0 (by decide) (RoadPath.nil 4))⟩,
    Graph.dijkstra_shortest mainRoads.reverse cityMap 0 4 cityMap_built (by decide)
      (by decide) (by decide)
      ⟨15 + (25 + 0), RoadPath.forward ⟨0, 1, 15⟩ 4 (25 + 0) (by decide)
        (RoadPath.forward ⟨1, 4, 25⟩ 4 0 (by decide) (RoadPath.nil 4))⟩⟩

/-! ## Maintenance heap: scores read through the pointers, capacity, empty heap -/

theorem setCounters_other (mem : VehicleMem) (p q : VehiclePtr) (km : ℚ) (days : Int)
    (h : q ≠ p) : setCounters mem p km days q = mem q := by
  unfold setCounters
  rw [if_neg h]

theorem prio_setCounters (mem : VehicleMem) (p : VehiclePtr) (km : ℚ) (days : Int)
    (hsame : prio (setCounters mem p km days) p = prio mem p) :
    ∀ q, prio (setCounters mem p km days) q = prio mem q := by
  intro q
  by_cases hq : q = p
  · rw [hq]; exact hsame
  · unfold prio
    rw [setCounters_other mem p q km days hq]

/-- The heap operations use the memory only through the priority scores. -/
theorem MinHeap.heapifyUp_congr (mem mem1 : VehicleMem) (hp : ∀ q, prio mem1 q = prio mem q) :
    ∀ (fuel : Nat) (h : MinHeap) (index : Nat),
      MinHeap.heapifyUp mem1 fuel h index = MinHeap.heapifyUp mem fuel h index := by
  intro fuel
  induction fuel with
  | zero => intro h index; simp only [MinHeap.heapifyUp, hp]
  | succ fuel ih => intro h index; simp only [MinHeap.heapifyUp, hp, ih]

theorem MinHeap.minChild_congr (mem mem1 : VehicleMem) (hp : ∀ q, prio mem1 q = prio mem q)
    (h : MinHeap) (index : Nat) :
    MinHeap.minChild mem1 h index = MinHeap.minChild mem h index := by
  simp only [MinHeap.minChild, hp]

theorem MinHeap.heapifyDown_congr (mem mem1 : VehicleMem) (hp : ∀ q, prio mem1 q = prio mem q) :
    ∀ (fuel : Nat) (h : MinHeap) (index : Nat),
      MinHeap.heapifyDown mem1 fuel h index = MinHeap.heapifyDown mem fuel h index := by
  intro fuel
  induction fuel with
  | zero =>
    intro h index
    simp only [MinHeap.heapifyDown, MinHeap.minChild_congr mem mem1 hp]
  | succ fuel ih =>
    intro h index
    simp only [MinHeap.heapifyDown, MinHeap.minChild_congr mem mem1 hp, ih]

theorem MinHeap.extractMin_congr (mem mem1 : VehicleMem) (hp : ∀ q, prio mem1 q = prio mem q)
    (h : MinHeap) : MinHeap.extractMin mem1 h = MinHeap.extractMin mem h := by
  simp only [MinHeap.extractMin, MinHeap.heapifyDown_congr mem mem1 hp]

theorem MinHeap.extractAll_congr (mem mem1 : VehicleMem) (hp : ∀ q, prio mem1 q = prio mem q) :
    ∀ (fuel : Nat) (h : MinHeap),
      MinHeap.extractAll mem1 fuel h = MinHeap.extractAll mem fuel h := by
  intro fuel
  induction fuel with
  | zero => intro h; simp only [MinHeap.extractAll]
  | succ fuel ih =>
    intro h
    simp only [MinHeap.extractAll, MinHeap.extractMin_congr mem mem1 hp, ih]

/-- C12, as the code has it: the heap stores no score; it reads the score through the
vehicle pointer at every comparison.  Changing the counters of a vehicle that is in the
heap leaves the order of the following `extractMin` calls unchanged whenever the change
leaves the priority score of the vehicle unchanged. -/
theorem MinHeap.extract_order_same_score (mem : VehicleMem) (h : MinHeap) (fuel : Nat)
    (p : VehiclePtr) (km : ℚ) (days : Int)
    (hsame : (setCounters mem p km days p).getMaintenancePriority
      = (mem p).getMaintenancePriority) :
    MinHeap.extractAll (setCounters mem p km days) fuel h = MinHeap.extractAll mem fuel h :=
  MinHeap.extractAll_congr mem _ (prio_setCounters mem p km days hsame) fuel h

theorem MinHeap.extract_order_same_score_witness :
    (setCounters mainMem 104 9000 59 104).getMaintenancePriority
      = (mainMem 104).getMaintenancePriority ∧
    MinHeap.extractAll (setCounters mainMem 104 9000 59) 6 mainHeap
      = MinHeap.extractAll mainMem 6 mainHeap :=
  ⟨by with_unfolding_all rfl,
    MinHeap.extract_order_same_score mainMem mainHeap 6 104 9000 59 (by with_unfolding_all rfl)⟩

/-- C12, as stated, fails: after the six vehicles of `main` are in the heap, raising the
counters of V102 (score 3) to 50000 km and 300 days changes the order in which
`extractMin` returns the vehicles. -/
theorem MinHeap.extract_order_changes :
    MinHeap.insertAll mainMem MinHeap.empty [101, 102, 103, 104, 105, 106]
      = some (List.replicate 6 true, mainHeap) ∧
    MinHeap.extractAll mainMem 6 mainHeap = some [104, 102, 105, 106, 101, 103] ∧
    MinHeap.extractAll (setCounters mainMem 102 50000 300) 6 mainHeap
      = some [104, 106, 105, 101, 103, 102] ∧
    MinHeap.extractAll (setCounters mainMem 102 50000 300) 6 mainHeap
      ≠ MinHeap.extractAll mainMem 6 mainHeap := by
  have h1 : MinHeap.extractAll mainMem 6 mainHeap = some [104, 102, 105, 106, 101, 103] := by
    with_unfolding_all rfl
  have h2 : MinHeap.extractAll (setCounters mainMem 102 50000 300) 6 mainHeap
      = some [104, 106, 105, 101, 103, 102] := by
    with_unfolding_all rfl
  refine ⟨?_, h1, h2, ?_⟩
  · with_unfolding_all rfl
  · rw [h1, h2]
    decide

/-- The loop of `heapifyUp` ends within `index` iterations on every array, whatever the
scores are; it keeps `size` and the length of the array. -/
theorem MinHeap.heapifyUp_total (mem : VehicleMem) :
    ∀ (fuel : Nat) (h : MinHeap) (index : Nat), index ≤ fuel →
      ∃ h2, MinHeap.heapifyUp mem fuel h index = some h2 ∧ h2.size = h.size ∧
        h2.heap.length = h.heap.length := by
  intro fuel
  induction fuel with
  | zero =>
    intro h index hi
    refine ⟨h, ?_, rfl, rfl⟩
    unfold MinHeap.heapifyUp
    rw [if_neg (by omega)]
  | succ fuel ih =>
    intro h index hi
    unfold MinHeap.heapifyUp
    by_cases hc : index > 0 ∧ prio mem (h.elem (MinHeap.parent index)) > prio mem (h.elem index)
    · rw [if_pos hc]
      obtain ⟨h2, e1, e2, e3⟩ := ih (h.swap index (MinHeap.parent index)) (MinHeap.parent index)
        (by unfold MinHeap.parent; omega)
      exact ⟨h2, e1, by rw [e2, MinHeap.swap_size], by rw [e3, MinHeap.swap_length]⟩
    · rw [if_neg hc]
      exact ⟨h, rfl, rfl, rfl⟩

/-- Below capacity `insert` returns `true` on every array and adds one to `size`. -/
theorem MinHeap.insert_below_capacity (mem : VehicleMem) (h : MinHeap) (v : VehiclePtr)
    (hs : h.size < MAX_HEAP_SIZE) :
    ∃ h1, MinHeap.insert mem h v = some (true, h1) ∧ h1.size = h.size + 1 ∧
      h1.heap.length = h.heap.length := by
  obtain ⟨h2, e1, e2, e3⟩ := MinHeap.heapifyUp_total mem h.size
    { h with heap := h.heap.set h.size v } h.size (le_refl _)
  refine ⟨{ h2 with size := h2.size + 1 }, ?_, ?_, ?_⟩
  · unfold MinHeap.insert
    rw [if_neg (by omega)]
    simp only [e1]
  · simp only [e2]
  · simp only [e3, List.length_set]

/-- C19: on a heap of at most 100 entries, `insert` fails exactly when the heap already
holds `MAX_HEAP_SIZE = 100` vehicles: at size 100 it returns `false` and leaves the array
and `size` unchanged; at every size below 100 it returns `true` and `size` grows by
exactly one.  No assumption is made on the order of the array. -/
theorem MinHeap.insert_capacity (mem : VehicleMem) (h : MinHeap) (v : VehiclePtr)
    (hw : h.WellFormed) :
    MAX_HEAP_SIZE = 100 ∧
    (h.size = 100 → MinHeap.insert mem h v = some (false, h)) ∧
    (h.size < 100 → ∃ h1, MinHeap.insert mem h v = some (true, h1) ∧
      h1.getSize = h.getSize + 1 ∧ h1.WellFormed) ∧
    ((∃ h1, MinHeap.insert mem h v = some (false, h1)) ↔ h.size = 100) := by
  have hfull : h.size = 100 → MinHeap.insert mem h v = some (false, h) := fun hs =>
    MinHeap.heap_insert_full mem h v (by unfold MAX_HEAP_SIZE; omega)
  have hroom : h.size < 100 → ∃ h1, MinHeap.insert mem h v = some (true, h1) ∧
      h1.getSize = h.getSize + 1 ∧ h1.WellFormed := by
    intro hs
    obtain ⟨h1, e1, e2, e3⟩ := MinHeap.insert_below_capacity mem h v hs
    refine ⟨h1, e1, e2, ?_, ?_⟩
    · rw [e3]; exact hw.1
    · rw [e2]; unfold MAX_HEAP_SIZE; omega
  refine ⟨rfl, hfull, hroom, ?_, fun hs => ⟨h, hfull hs⟩⟩
  rintro ⟨h1, e⟩
  by_contra hne
  have hlt : h.size < 100 := by
    have := hw.2
    unfold MAX_HEAP_SIZE at this
    omega
  obtain ⟨h2, e1, -⟩ := hroom hlt
  rw [e1] at e
  simp only [Option.some.injEq, Prod.mk.injEq, Bool.true_eq_false, false_and] at e

theorem MinHeap.insert_capacity_witness :
    mainHeap.WellFormed ∧
    (MAX_HEAP_SIZE = 100 ∧
    (mainHeap.size = 100 → MinHeap.insert mainMem mainHeap 101 = some (false, mainHeap)) ∧
    (mainHeap.size < 100 → ∃ h1, MinHeap.insert mainMem mainHeap 101 = some (true, h1) ∧
      h1.getSize = mainHeap.getSize + 1 ∧ h1.WellFormed) ∧
    ((∃ h1, MinHeap.insert mainMem mainHeap 101 = some (false, h1)) ↔ mainHeap.size = 100)) ∧
    mainHeap.size = 6 ∧
    MinHeap.WellFormed { heap := List.replicate 100 101, size := 100 } ∧
    MinHeap.insert mainMem { heap := List.replicate 100 101, size := 100 } 102
      = some (false, { heap := List.replicate 100 101, size := 100 }) :=
  ⟨by unfold MinHeap.WellFormed; with_unfolding_all decide,
    MinHeap.insert_capacity mainMem mainHeap 101
      (by unfold MinHeap.WellFormed; with_unfolding_all decide),
    by with_unfolding_all rfl,
    by unfold MinHeap.WellFormed; decide,
    (MinHeap.insert_capacity mainMem { heap := List.replicate 100 101, size := 100 } 102
      (by unfold MinHeap.WellFormed; decide)).2.1 rfl⟩

/-- C18: on a non-empty heap that satisfies the min-heap property, `extractMin` returns
the vehicle that `peekMin` returns on the heap before the call, that vehicle is an entry
of the heap, its priority score is at most the score of every entry of the heap, and one
entry is removed.  The body of `peekMin` has no assignment, so it has no heap to return. -/
theorem MinHeap.extractMin_least (mem : VehicleMem) (h : MinHeap)
    (hw : h.WellFormed) (hp : MinHeap.HeapProperty mem h) (hs : 0 < h.size) :
    ∃ h1, MinHeap.extractMin mem h = some (h.peekMin, h1) ∧
      h.peekMin ∈ h.live ∧
      (∀ x ∈ h.live,
        (mem h.peekMin).getMaintenancePriority ≤ (mem x).getMaintenancePriority) ∧
      h1.getSize + 1 = h.getSize ∧ (h.peekMin :: h1.live).Perm h.live := by
  have hpeek : h.peekMin = h.elem 0 := by
    unfold MinHeap.peekMin MinHeap.isEmpty
    rw [if_neg (by simp only [beq_iff_eq]; omega)]
  obtain ⟨h1, e1, -, e3, -, e5⟩ := MinHeap.extractMin_spec mem h hw hp hs
  rw [hpeek]
  refine ⟨h1, e1, ?_, MinHeap.root_le_live mem h hp, e3, e5⟩
  exact e5.subset (List.mem_cons_self _ _)

theorem MinHeap.extractMin_least_witness :
    mainHeap.WellFormed ∧ MinHeap.HeapProperty mainMem mainHeap ∧ 0 < mainHeap.size ∧
    mainHeap.peekMin = 104 ∧
    ∃ h1, MinHeap.extractMin mainMem mainHeap = some (mainHeap.peekMin, h1) ∧
      mainHeap.peekMin ∈ mainHeap.live ∧
      (∀ x ∈ mainHeap.live,
        (mainMem mainHeap.peekMin).getMaintenancePriority
          ≤ (mainMem x).getMaintenancePriority) ∧
      h1.getSize + 1 = mainHeap.getSize ∧ (mainHeap.peekMin :: h1.live).Perm mainHeap.live :=
  ⟨by unfold MinHeap.WellFormed; with_unfolding_all decide,
    (MinHeap.reachable_keeps mainMem mainHeap
      (MinHeap.heap_reachable_insertAll mainMem _ _ _ _ MinHeap.Reachable.empty mainHeap_eq)).2,
    by with_unfolding_all decide, by with_unfolding_all rfl,
    MinHeap.extractMin_least mainMem mainHeap (by unfold MinHeap.WellFormed; with_unfolding_all decide)
      (MinHeap.reachable_keeps mainMem mainHeap
        (MinHeap.heap_reachable_insertAll mainMem _ _ _ _ MinHeap.Reachable.empty mainHeap_eq)).2
      (by with_unfolding_all decide)⟩

/-- C20: on an empty heap `extractMin` returns `NULL` and leaves the array and `size`
(which is 0) unchanged, and `peekMin` returns `NULL`. -/
theorem MinHeap.extractMin_on_empty (mem : VehicleMem) (h : MinHeap) (hs : h.isEmpty = true) :
    MinHeap.extractMin mem h = some (NULL, h) ∧ h.getSize = 0 ∧ h.peekMin = NULL := by
  have hz : h.size = 0 := by
    unfold MinHeap.isEmpty at hs
    exact beq_iff_eq.mp hs
  refine ⟨MinHeap.extractMin_empty mem h hz, hz, ?_⟩
  unfold MinHeap.peekMin
  rw [if_pos hs]

theorem MinHeap.extractMin_on_empty_witness :
    MinHeap.empty.isEmpty = true ∧
    MinHeap.extractMin mainMem MinHeap.empty = some (NULL, MinHeap.empty) ∧
    MinHeap.empty.getSize = 0 ∧ MinHeap.empty.peekMin = NULL :=
  ⟨rfl, MinHeap.extractMin_on_empty mainMem MinHeap.empty rfl⟩

/-! ## Sorted index: the run of `main`, and repeated ids -/

/-- C16: the six `insert` calls of `main` (ids V205, V203, V208, V201, V207, V202 in that
order) on an empty index leave the stored order V201, V202, V203, V205, V207, V208, and
`displayRange("V203", "V207")` then emits V203, V205, V207 in that order. -/
theorem BTree.main_index_order :
    [205, 203, 208, 201, 207, 202].map (vehicleIdOf mainMem)
      = ["V205", "V203", "V208", "V201", "V207", "V202"] ∧
    mainIndex = BTree.empty.insertAll mainMem [205, 203, 208, 201, 207, 202] ∧
    mainIndex.getTotalVehicles = 6 ∧
    mainIndex.stored.map (vehicleIdOf mainMem)
      = ["V201", "V202", "V203", "V205", "V207", "V208"] ∧
    mainIndex.stored = [201, 202, 203, 205, 207, 208] ∧
    (mainIndex.displayRange mainMem "V203" "V207").map (vehicleIdOf mainMem)
      = ["V203", "V205", "V207"] ∧
    mainIndex.displayRange mainMem "V203" "V207" = [203, 205, 207] := by
  refine ⟨?_, rfl, ?_, ?_, ?_, ?_, ?_⟩ <;> decide

/-- An id that is stored is met by the scan of `findInsertPosition`: the position found
is inside the stored sequence and holds the first entry with that id. -/
theorem BTree.findInsertPosition_present (mem : VehicleMem) (t : BTree) (hw : t.WellFormed)
    (hs : t.IsSorted mem) (id : String) (i : Nat) (hi : i < t.count)
    (hid : t.idAt mem i = id) :
    t.findInsertPosition mem id ≤ i ∧ t.idAt mem (t.findInsertPosition mem id) = id := by
  obtain ⟨-, hbelow, habove⟩ := BTree.findInsertPosition_spec mem t id
  have hle : t.findInsertPosition mem id ≤ i := by
    by_contra hgt
    have := hbelow i (by omega)
    rw [hid] at this
    exact lt_irrefl _ this
  refine ⟨hle, ?_⟩
  have h1 := habove (by omega)
  have h2 := BTree.sorted_idAt mem t hw hs (t.findInsertPosition mem id) i hle hi
  rw [hid] at h2
  have h3 : (t.idAt mem (t.findInsertPosition mem id)).toList = id.toList :=
    le_antisymm h2 (not_lt.mp h1)
  exact String.ext h3

/-- C17: on a sorted index of fewer than 100 entries, `insert` of a vehicle whose id is
already stored is not rejected: `count` grows by exactly one, the vehicle is put at the
position of the first stored entry with that id, every earlier entry is kept, and that
first entry with the same id follows the new one directly. -/
theorem BTree.insert_repeated_id (mem : VehicleMem) (t : BTree) (v : VehiclePtr)
    (hw : t.WellFormed) (hs : t.IsSorted mem) (hc : t.count < 100)
    (hdup : ∃ i, i < t.count ∧ t.idAt mem i = (mem v).vehicleId) :
    (t.insert mem v).getTotalVehicles = t.getTotalVehicles + 1 ∧
    ∃ pos, pos < t.count ∧
      (mem (t.stored.getD pos NULL)).vehicleId = (mem v).vehicleId ∧
      (t.insert mem v).stored = t.stored.take pos ++ v :: t.stored.drop pos ∧
      (t.insert mem v).stored.getD pos NULL = v ∧
      (t.insert mem v).stored.getD (pos + 1) NULL = t.stored.getD pos NULL := by
  obtain ⟨i, hi, hid⟩ := hdup
  obtain ⟨hle, hfirst⟩ := BTree.findInsertPosition_present mem t hw hs _ i hi hid
  obtain ⟨-, hcount, hst⟩ := BTree.stored_insert mem t v hw hc
  have hlen := BTree.stored_length t hw
  generalize t.findInsertPosition mem (mem v).vehicleId = pos at hle hfirst hst
  have hpos : pos < t.count := by omega
  have htake : (t.stored.take pos).length = pos := by
    rw [List.length_take]; omega
  refine ⟨hcount, pos, hpos, ?_, hst, ?_, ?_⟩
  · rw [BTree.stored_getD t pos hpos]; exact hfirst
  · rw [hst, getD_append_ge _ _ _ _ (by omega), htake, Nat.sub_self]
    rfl
  · rw [hst, getD_append_ge _ _ _ _ (by omega), htake]
    have : pos + 1 - pos = 1 := by omega
    rw [this]
    show (t.stored.drop pos).getD 0 NULL = _
    rw [getD_drop]
    rfl

theorem BTree.insert_repeated_id_witness :
    mainIndex.WellFormed ∧ mainIndex.IsSorted twinMem ∧ mainIndex.count < 100 ∧
    (∃ i, i < mainIndex.count ∧ mainIndex.idAt twinMem i = (twinMem 305).vehicleId) ∧
    (mainIndex.insert twinMem 305).stored = [201, 202, 203, 305, 205, 207, 208] ∧
    ((mainIndex.insert twinMem 305).getTotalVehicles = mainIndex.getTotalVehicles + 1 ∧
    ∃ pos, pos < mainIndex.count ∧
      (twinMem (mainIndex.stored.getD pos NULL)).vehicleId = (twinMem 305).vehicleId ∧
      (mainIndex.insert twinMem 305).stored
        = mainIndex.stored.take pos ++ 305 :: mainIndex.stored.drop pos ∧
      (mainIndex.insert twinMem 305).stored.getD pos NULL = 305 ∧
      (mainIndex.insert twinMem 305).stored.getD (pos + 1) NULL
        = mainIndex.stored.getD pos NULL) :=
  ⟨by unfold BTree.WellFormed; decide, by unfold BTree.IsSorted; decide, by decide,
    ⟨3, by decide, by decide⟩, by decide,
    BTree.insert_repeated_id twinMem mainIndex 305 (by unfold BTree.WellFormed; decide)
      (by unfold BTree.IsSorted; decide) (by decide) ⟨3, by decide, by decide⟩⟩

/-! ## Route planner: endpoint checks, the run of `main`, unreachable destinations -/

/-- An endpoint at or above `numVertices` makes `addRoad` return with the graph as it
was. -/
theorem Graph.addRoad_too_large (g : Graph) (source destination distance : Int)
    (h : source ≥ g.numVertices ∨ destination ≥ g.numVertices) :
    g.addRoad source destination distance = some g := by
  unfold Graph.addRoad
  rw [if_pos h]

/-- C11 fails for a negative endpoint: on the six locations of `main`, the test
`source >= numVertices || destination >= numVertices` of `addRoad(-1, 0, 5)` and of
`addRoad(0, -1, 5)` is false, so the call is not rejected and goes on to index
`adjacencyList[-1]`; it does not return with the graph unchanged.  The sibling
`getLocationName(-1)` does test `id >= 0`. -/
theorem Graph.addRoad_negative_endpoint :
    cityLocations.getNumVertices = 6 ∧
    ¬ ((-1 : Int) ≥ cityLocations.numVertices ∨ (0 : Int) ≥ cityLocations.numVertices) ∧
    cityLocations.addRoad (-1) 0 5 = none ∧
    cityLocations.addRoad (-1) 0 5 ≠ some cityLocations ∧
    cityLocations.addRoad 0 (-1) 5 = none ∧
    cityLocations.addRoad 0 (-1) 5 ≠ some cityLocations ∧
    cityLocations.addRoad 6 0 5 = some cityLocations ∧
    cityLocations.getLocationName (-1) = "Unknown" := by
  refine ⟨rfl, by decide, rfl, ?_, rfl, ?_, rfl, by decide⟩
  · intro h; cases h
  · intro h; cases h

/-- C15: on the six-location network of `main` (roads added in the order 0-1:15, 0-2:8,
1-3:12, 2-3:10, 3-4:18, 1-4:25, 2-5:14, 4-5:20), `dijkstra(0, 4)` reports the shortest
distance 36 and the path 0, 2, 3, 4: Warehouse, Service Station, Highway Junction,
Delivery Hub, with the legs 8, 10 and 18. -/
theorem Graph.city_route :
    cityLocations = ["Warehouse", "City Center", "Service Station", "Highway Junction",
      "Delivery Hub", "Industrial Area"].foldl Graph.addLocation Graph.empty ∧
    (List.range 6).map (fun i : Nat => cityMap.getLocationName i)
      = ["Warehouse", "City Center", "Service Station", "Highway Junction",
        "Delivery Hub", "Industrial Area"] ∧
    Graph.addRoads cityLocations
        [⟨0, 1, 15⟩, ⟨0, 2, 8⟩, ⟨1, 3, 12⟩, ⟨2, 3, 10⟩, ⟨3, 4, 18⟩, ⟨1, 4, 25⟩, ⟨2, 5, 14⟩,
          ⟨4, 5, 20⟩]
      = some cityMap ∧
    cityMap.dijkstra 0 4 = some (RouteResult.route 36 [0, 2, 3, 4] [8, 10, 18]) ∧
    [0, 2, 3, 4].map (fun i : Nat => cityMap.getLocationName i)
      = ["Warehouse", "Service Station", "Highway Junction", "Delivery Hub"] := by
  refine ⟨rfl, by decide, rfl, rfl, by decide⟩

/-- On a built network within the `int` range, a location joined to the source by a road
path is reached by `dijkstra`. -/
theorem Graph.dijkstraRun_reaches (roads : List Road) (g : Graph) (source destination : Nat)
    (hg : GraphOk g roads) (htot : totalDistance roads < INT_MAX)
    (hs : source < g.numVertices) (hd : destination < g.numVertices)
    (hconn : ∃ len, RoadPath roads source destination len) :
    (g.dijkstraRun source).dist.getD destination 0 ≠ INF := by
  obtain ⟨hinv, hq⟩ := Graph.dijkstraRun_inv g roads source hg htot hs
  obtain ⟨len0, hp0⟩ := hconn
  have hsrc := hinv.src_zero
  rcases DijkstraInv.path_reach g roads source hg htot _ hinv source destination len0 hp0 hs
    (by rw [hsrc]; decide) with h | ⟨y, hy, hyv, hyd⟩
  · exact h
  · by_cases hv : (g.dijkstraRun source).visited.getD destination false = true
    · exact hinv.finite destination hd hv
    · have h1 := hq destination y hd hy ((Bool.not_eq_true _).mp hv) hyv
      rcases hinv.bound y hy with h | ⟨-, hb2⟩
      · exact absurd h hyd
      · have := insideWeight_le_total roads
          (fun x => (g.dijkstraRun source).visited.getD x false || x == y)
          (fun r hr => (hg.road_edge r hr).2.2.1)
        unfold INF; omega

/-- The report "no route" is made exactly when `dist[destination]` is still `INF`. -/
theorem Graph.dijkstra_noRoute_iff (g : Graph) (source destination : Nat)
    (hs : source < g.numVertices) (hd : destination < g.numVertices) :
    g.dijkstra source destination = some RouteResult.noRoute ↔
      (g.dijkstraRun source).dist.getD destination 0 = INF := by
  unfold Graph.dijkstra
  rw [if_neg (by omega), if_neg (by omega)]
  simp only [Int.toNat_ofNat]
  by_cases h : (g.dijkstraRun source).dist.getD destination 0 = INF
  · rw [if_pos h]
    exact ⟨fun _ => h, fun _ => rfl⟩
  · rw [if_neg h]
    constructor
    · intro hr
      cases hp : Graph.pathFrom (g.dijkstraRun source).parent MAX_VERTICES (destination : Int) with
      | none => rw [hp] at hr; cases hr
      | some path => rw [hp] at hr; cases hr
    · intro h2; exact absurd h2 h

/-- A reported route comes from a finished walk of the parent pointers. -/
theorem Graph.dijkstra_route_inv (g : Graph) (source destination : Nat)
    (hs : source < g.numVertices) (hd : destination < g.numVertices)
    (d : Int) (path : List Nat) (legs : List Int)
    (h : g.dijkstra source destination = some (RouteResult.route d path legs)) :
    (g.dijkstraRun source).dist.getD destination 0 ≠ INF ∧
    d = (g.dijkstraRun source).dist.getD destination 0 ∧
    ∃ walk, Graph.pathFrom (g.dijkstraRun source).parent MAX_VERTICES (destination : Int)
        = some walk ∧ path = walk.reverse := by
  unfold Graph.dijkstra at h
  rw [if_neg (by omega), if_neg (by omega)] at h
  simp only [Int.toNat_ofNat] at h
  by_cases hinf : (g.dijkstraRun source).dist.getD destination 0 = INF
  · rw [if_pos hinf] at h; cases h
  · rw [if_neg hinf] at h
    cases hp : Graph.pathFrom (g.dijkstraRun source).parent MAX_VERTICES (destination : Int) with
    | none => rw [hp] at h; cases h
    | some walk =>
      rw [hp] at h
      simp only [Option.some.injEq, RouteResult.route.injEq] at h
      exact ⟨hinf, h.1.symm, walk, rfl, h.2.1.symm⟩

/-- C14: on a road network built with valid endpoints and non-negative distances of
total below `INT_MAX`, and for valid source and destination, `dijkstra` reports "no
route" if and only if no path of roads connects source to destination. -/
theorem Graph.dijkstra_noRoute (roads : List Road) (g : Graph) (source destination : Nat)
    (hb : Graph.Built roads g) (htot : totalDistance roads < INT_MAX)
    (hs : source < g.numVertices) (hd : destination < g.numVertices) :
    g.dijkstra source destination = some RouteResult.noRoute ↔
      ¬ ∃ len, RoadPath roads source destination len := by
  have hg := Graph.ok_of_built roads g hb
  rw [Graph.dijkstra_noRoute_iff g source destination hs hd]
  constructor
  · intro h hconn
    exact Graph.dijkstraRun_reaches roads g source destination hg htot hs hd hconn h
  · intro h
    by_contra hne
    obtain ⟨hinv, -⟩ := Graph.dijkstraRun_inv g roads source hg htot hs
    exact h ⟨_, hinv.path destination hd hne⟩

theorem splitMap_built :
    Graph.Built [⟨3, 4, 18⟩, ⟨0, 1, 15⟩] splitMap := by
  have h := Graph.built_addRoads [⟨0, 1, 15⟩, ⟨3, 4, 18⟩] [] cityLocations splitMap
    (Graph.built_addLocations _ [] Graph.empty Graph.Built.empty) (by decide) (by rfl)
  simpa using h

theorem Graph.dijkstra_noRoute_witness :
    Graph.Built [⟨3, 4, 18⟩, ⟨0, 1, 15⟩] splitMap ∧
    totalDistance [⟨3, 4, 18⟩, ⟨0, 1, 15⟩] < INT_MAX ∧
    0 < splitMap.numVertices ∧ 4 < splitMap.numVertices ∧
    splitMap.dijkstra 0 4 = some RouteResult.noRoute ∧
    (splitMap.dijkstra ((0 : Nat) : Int) ((4 : Nat) : Int) = some RouteResult.noRoute ↔
      ¬ ∃ len, RoadPath [⟨3, 4, 18⟩, ⟨0, 1, 15⟩] 0 4 len) :=
  ⟨splitMap_built, by decide, by decide, by decide, rfl,
    Graph.dijkstra_noRoute [⟨3, 4, 18⟩, ⟨0, 1, 15⟩] splitMap 0 4 splitMap_built (by decide)
      (by decide) (by decide)⟩

/-! ## Route planner: the reported path -/

theorem leastOf_foldl (xs : List Int) : ∀ a : Int,
    xs.foldl min a ≤ a ∧ (∀ y ∈ xs, xs.foldl min a ≤ y) ∧
      (xs.foldl min a = a ∨ xs.foldl min a ∈ xs) := by
  induction xs with
  | nil => intro a; exact ⟨le_refl _, fun y hy => absurd hy (List.not_mem_nil y), Or.inl rfl⟩
  | cons x xs ih =>
    intro a
    obtain ⟨h1, h2, h3⟩ := ih (min a x)
    simp only [List.foldl_cons]
    refine ⟨le_trans h1 (min_le_left _ _), ?_, ?_⟩
    · intro y hy
      rcases List.mem_cons.mp hy with h | h
      · rw [h]; exact le_trans h1 (min_le_right _ _)
      · exact h2 y h
    · rcases h3 with h | h
      · rcases min_choice a x with hc | hc
        · left; rw [h, hc]
        · right; rw [h, hc]; exact List.mem_cons_self _ _
      · right; exact List.mem_cons_of_mem _ h

/-- A member that is at most every member is the least. -/
theorem leastOf_eq (l : List Int) (x : Int) (hx : x ∈ l) (hmin : ∀ y ∈ l, x ≤ y) :
    leastOf l = x := by
  cases l with
  | nil => cases hx
  | cons a xs =>
    show xs.foldl min a = x
    obtain ⟨h1, h2, h3⟩ := leastOf_foldl xs a
    have hle : xs.foldl min a ≤ x := by
      rcases List.mem_cons.mp hx with h | h
      · rw [h]; exact h1
      · exact h2 x h
    have hge : x ≤ xs.foldl min a := by
      rcases h3 with h | h
      · rw [h]; exact hmin a (List.mem_cons_self _ _)
      · exact hmin _ (List.mem_cons_of_mem _ h)
    exact le_antisymm hle hge

theorem Graph.roadWeights_least (g : Graph) (u v : Nat) (e : Edge) (he : e ∈ g.adj u)
    (hev : e.destination = v)
    (hmin : ∀ e1 ∈ g.adj u, e1.destination = v → e.weight ≤ e1.weight) :
    leastOf (g.roadWeights u v) = e.weight := by
  apply leastOf_eq
  · unfold Graph.roadWeights
    exact List.mem_map.mpr ⟨e, List.mem_filter.mpr ⟨he, by rw [hev]; exact beq_self_eq_true v⟩, rfl⟩
  · intro y hy
    unfold Graph.roadWeights at hy
    obtain ⟨e1, he1, hy1⟩ := List.mem_map.mp hy
    obtain ⟨h1, h2⟩ := List.mem_filter.mp he1
    rw [← hy1]
    exact hmin e1 h1 (beq_iff_eq.mp h2)

/-- Relaxing one edge of a visited location keeps what the `parent` array records. -/
theorem ParentInv.relaxEdge_parent (g : Graph) (roads : List Road) (source : Nat)
    (done : Nat → Edge → Prop) (st : DijkstraState) (hg : GraphOk g roads)
    (htot : totalDistance roads < INT_MAX)
    (hinv : DijkstraInv g roads source done st) (hpar : ParentInv g source st)
    (u : Nat) (hu : u < g.numVertices) (hvis : st.visited.getD u false = true)
    (e : Edge) (he : e ∈ g.adj u) :
    ParentInv g source (Graph.relaxEdge u st e) := by
  obtain ⟨-, hvn, hw, -⟩ := hg.edge_road u e he
  rcases Graph.relaxEdge_cases u st e with ⟨-, heq⟩ | ⟨⟨hv, -, hlt⟩, heq⟩
  · rw [heq]; exact hpar
  · obtain ⟨h0, -, hb⟩ :=
      DijkstraInv.edge_bound g roads source done st hg hinv u hu hvis e he hv
    have hwrap : wrapInt32 (st.dist.getD u 0 + e.weight) = st.dist.getD u 0 + e.weight :=
      wrapInt32_of_range _ (by omega) (by omega)
    rw [hwrap] at hlt heq
    rw [heq]
    have hne_src : e.destination ≠ source := by
      intro h
      rw [h, hinv.src_zero] at hlt
      omega
    have hne_u : e.destination ≠ u := by
      intro h
      rw [h, hvis] at hv
      cases hv
    have hlp : e.destination < st.parent.length := by rw [hinv.len_parent]; exact hvn
    have hld : e.destination < st.dist.length := by rw [hinv.len_dist]; exact hvn
    refine ⟨?_, ?_, ?_⟩
    · show (st.parent.set e.destination (u : Int)).getD source (-1) = -1
      rw [getD_set_other _ _ _ _ _ hne_src]
      exact hpar.src_none
    · intro v hv1 hvs hp
      show (st.dist.set e.destination (st.dist.getD u 0 + e.weight)).getD v 0 = INF
      have hp1 : (st.parent.set e.destination (u : Int)).getD v (-1) = -1 := hp
      by_cases hve : e.destination = v
      · rw [← hve, getD_set_self _ _ _ _ hlp] at hp1
        omega
      · rw [getD_set_other _ _ _ _ _ hve] at hp1 ⊢
        exact hpar.rooted v hv1 hvs hp1
    · intro v hv1 hp
      show ∃ p, p < g.numVertices ∧
        (st.parent.set e.destination (u : Int)).getD v (-1) = (p : Int) ∧
        st.visited.getD p false = true ∧
        ∃ e1 ∈ g.adj p, e1.destination = v ∧
          (st.dist.set e.destination (st.dist.getD u 0 + e.weight)).getD v 0
            = (st.dist.set e.destination (st.dist.getD u 0 + e.weight)).getD p 0 + e1.weight
      have hp1 : (st.parent.set e.destination (u : Int)).getD v (-1) ≠ -1 := hp
      by_cases hve : e.destination = v
      · refine ⟨u, hu, ?_, hvis, e, he, hve, ?_⟩
        · rw [← hve, getD_set_self _ _ _ _ hlp]
        · rw [← hve, getD_set_self _ _ _ _ hld, getD_set_other _ _ _ _ _ hne_u]
      · rw [getD_set_other _ _ _ _ _ hve] at hp1 ⊢
        obtain ⟨p, hp2, hp3, hp4, e1, he1, he1v, hd1⟩ := hpar.linked v hv1 hp1
        have hpne : e.destination ≠ p := by
          intro h
          rw [h, hp4] at hv
          cases hv
        refine ⟨p, hp2, hp3, hp4, e1, he1, he1v, ?_⟩
        rw [getD_set_other _ _ _ _ _ hve, getD_set_other _ _ _ _ _ hpne]
        exact hd1

/-- Relaxing a run of edges of a visited location keeps what the `parent` array
records. -/
theorem ParentInv.relaxEdges_parent (g : Graph) (roads : List Road) (source : Nat)
    (hg : GraphOk g roads) (htot : totalDistance roads < INT_MAX) (u : Nat)
    (hu : u < g.numVertices) :
    ∀ (es : List Edge) (done : Nat → Edge → Prop) (st : DijkstraState),
      (∀ e ∈ es, e ∈ g.adj u) → DijkstraInv g roads source done st →
      st.visited.getD u false = true →
      (∀ x, x < g.numVertices → st.visited.getD x false = true →
        st.dist.getD x 0 ≤ st.dist.getD u 0) →
      ParentInv g source st →
      ParentInv g source (es.foldl (Graph.relaxEdge u) st) := by
  intro es
  induction es with
  | nil => intro done st _ _ _ _ hpar; exact hpar
  | cons e es ih =>
    intro done st hes hinv hvis hmax hpar
    have he := hes e (List.mem_cons_self _ _)
    obtain ⟨h1, h2, h3⟩ := DijkstraInv.relaxEdge_keeps g roads source done st hg htot hinv u hu
      hvis hmax e he
    have hpar1 := ParentInv.relaxEdge_parent g roads source done st hg htot hinv hpar u hu hvis e he
    have hvis1 : (Graph.relaxEdge u st e).visited.getD u false = true := by rw [h2]; exact hvis
    have hmax1 : ∀ x, x < g.numVertices → (Graph.relaxEdge u st e).visited.getD x false = true →
        (Graph.relaxEdge u st e).dist.getD x 0 ≤ (Graph.relaxEdge u st e).dist.getD u 0 := by
      intro x hx hxv
      rw [h2] at hxv
      rw [h3 x hxv, h3 u hvis]
      exact hmax x hx hxv
    exact ih _ (Graph.relaxEdge u st e)
      (fun e1 he1 => hes e1 (List.mem_cons_of_mem _ he1)) h1 hvis1 hmax1 hpar1

/-- One iteration of the main loop keeps what the `parent` array records. -/
theorem ParentInv.step_parent (g : Graph) (roads : List Road) (source : Nat)
    (hg : GraphOk g roads) (htot : totalDistance roads < INT_MAX) (st : DijkstraState)
    (hinv : DijkstraInv g roads source (fun _ _ => True) st) (hpar : ParentInv g source st)
    (st1 : DijkstraState) (hstep : g.dijkstraStep st = some st1) :
    ParentInv g source st1 := by
  unfold Graph.dijkstraStep at hstep
  simp only at hstep
  rcases g.findMinDistance_spec st.dist st.visited with ⟨h1, -⟩ | ⟨u, h1, hu, hv, hfin, hmin⟩
  · rw [h1] at hstep
    simp at hstep
  · rw [h1] at hstep
    have hne : ¬ ((u : Int) = -1) := by omega
    rw [if_neg hne] at hstep
    simp only [Int.toNat_ofNat, Option.some.injEq] at hstep
    obtain ⟨hmid, hvis1, hmax1, hsub⟩ :=
      DijkstraInv.mark_keeps g roads source hg st hinv u hu hv hfin hmin
    have hparMid : ParentInv g source { st with visited := st.visited.set u true } := by
      refine ⟨hpar.src_none, hpar.rooted, ?_⟩
      intro v hv1 hp
      obtain ⟨p, hp2, hp3, hp4, rest⟩ := hpar.linked v hv1 hp
      exact ⟨p, hp2, hp3, hsub p hp4, rest⟩
    rw [← hstep]
    exact ParentInv.relaxEdges_parent g roads source hg htot u hu (g.adj u) _
      { st with visited := st.visited.set u true } (fun e he => he) hmid hvis1 hmax1 hparMid

/-- The main loop keeps what the `parent` array records. -/
theorem ParentInv.loop_parent (g : Graph) (roads : List Road) (source : Nat)
    (hg : GraphOk g roads) (htot : totalDistance roads < INT_MAX) :
    ∀ (k : Nat) (st : DijkstraState), DijkstraInv g roads source (fun _ _ => True) st →
      ParentInv g source st → ParentInv g source (g.dijkstraLoop k st) := by
  intro k
  induction k with
  | zero => intro st _ hpar; exact hpar
  | succ k ih =>
    intro st hinv hpar
    simp only [Graph.dijkstraLoop]
    rcases DijkstraInv.step g roads source hg htot st hinv with ⟨h1, -⟩ | ⟨st1, h1, h2, -⟩
    · rw [h1]; exact hpar
    · rw [h1]
      exact ih st1 h2 (ParentInv.step_parent g roads source hg htot st hinv hpar st1 h1)

/-- When `dijkstra` leaves its main loop the `parent` array records a tree of stored
roads rooted at the source. -/
theorem Graph.dijkstraRun_parent (g : Graph) (roads : List Road) (source : Nat)
    (hg : GraphOk g roads) (htot : totalDistance roads < INT_MAX)
    (hs : source < g.numVertices) :
    ParentInv g source (g.dijkstraRun source) := by
  obtain ⟨h1, -⟩ := Graph.dijkstraInit_inv g roads source hg hs
  unfold Graph.dijkstraRun
  apply ParentInv.loop_parent g roads source hg htot _ _ h1
  refine ⟨?_, ?_, ?_⟩
  · exact getD_replicate _ _ _
  · intro v hv hvs _
    show ((List.replicate g.numVertices INF).set source 0).getD v 0 = INF
    rw [getD_set_other _ _ _ _ _ (fun h => hvs h.symm)]
    simp only [List.getD_eq_getElem?_getD, List.getElem?_replicate]
    rw [if_pos hv]; rfl
  · intro v _ hp
    exact absurd (getD_replicate _ _ _) hp

theorem Graph.routeLength_snoc (g : Graph) : ∀ (l : List Nat) (u c : Nat),
    l.getLast? = some u →
    g.routeLength (l ++ [c]) = g.routeLength l + leastOf (g.roadWeights u c) := by
  intro l
  induction l with
  | nil => intro u c h; cases h
  | cons a l ih =>
    intro u c h
    cases l with
    | nil =>
      simp only [List.getLast?_singleton, Option.some.injEq] at h
      subst h
      simp [Graph.routeLength]
    | cons b l1 =>
      have h1 : (b :: l1).getLast? = some u := by
        rw [List.getLast?_cons_cons] at h; exact h
      have hrec := ih u c h1
      show leastOf (g.roadWeights a b) + g.routeLength ((b :: l1) ++ [c]) =
        leastOf (g.roadWeights a b) + g.routeLength (b :: l1) + leastOf (g.roadWeights u c)
      rw [hrec]
      ring

/-- The walk of the parent pointers from a reached location, read backwards, is a route
of stored roads from the source whose length over the lightest roads is the distance of
the location. -/
theorem Graph.pathFrom_route (g : Graph) (roads : List Road) (source : Nat)
    (st : DijkstraState) (hinv : DijkstraInv g roads source (fun _ _ => True) st)
    (hpar : ParentInv g source st) :
    ∀ (room c : Nat) (walk : List Nat), c < g.numVertices → st.dist.getD c 0 ≠ INF →
      Graph.pathFrom st.parent room (c : Int) = some walk →
      walk.reverse.head? = some source ∧ walk.reverse.getLast? = some c ∧
      walk.reverse.Chain' g.Joined ∧ g.routeLength walk.reverse = st.dist.getD c 0 := by
  intro room
  induction room with
  | zero =>
    intro c walk _ _ h
    simp only [Graph.pathFrom] at h
    rw [if_pos (by omega)] at h
    cases h
  | succ room ih =>
    intro c walk hc hfin h
    simp only [Graph.pathFrom] at h
    have hne : (c : Int) ≠ -1 := by omega
    rw [if_pos hne] at h
    simp only [Int.toNat_ofNat] at h
    by_cases hp : st.parent.getD c (-1) = -1
    · rw [hp, Graph.pathFrom_end] at h
      simp only [Option.some.injEq] at h
      subst h
      have hcs : c = source := by
        by_contra hcs
        exact hfin (hpar.rooted c hc hcs hp)
      subst hcs
      refine ⟨rfl, rfl, List.chain'_singleton _, ?_⟩
      rw [hinv.src_zero]
      rfl
    · obtain ⟨p, hp2, hp3, hp4, e, he, hev, hd⟩ := hpar.linked c hc hp
      rw [hp3] at h
      cases hrest : Graph.pathFrom st.parent room (p : Int) with
      | none => rw [hrest] at h; cases h
      | some rest =>
        rw [hrest] at h
        simp only [Option.some.injEq] at h
        subst h
        obtain ⟨i1, i2, i3, i4⟩ := ih p rest hp2 (hinv.finite p hp2 hp4) hrest
        rw [List.reverse_cons]
        generalize rest.reverse = r at i1 i2 i3 i4
        have hleast : leastOf (g.roadWeights p c) = e.weight := by
          apply Graph.roadWeights_least g p c e he hev
          intro e1 he1 he1v
          have := hinv.relaxed p hp2 hp4 e1 he1 trivial
          rw [he1v] at this
          omega
        refine ⟨?_, ?_, ?_, ?_⟩
        · cases r with
          | nil => cases i2
          | cons a r1 => exact i1
        · simp
        · rw [List.chain'_append]
          refine ⟨i3, List.chain'_singleton _, ?_⟩
          intro x hx y hy
          rw [i2] at hx
          simp only [Option.mem_def, Option.some.injEq, List.head?_cons] at hx hy
          subst hx; subst hy
          exact ⟨e, he, hev⟩
        · rw [Graph.routeLength_snoc g r p c i2, i4, hleast, hd]

/-- C13: on a road network built with valid endpoints and non-negative distances of
total below `INT_MAX`, when `dijkstra` reports a route for valid source and destination,
the reported path starts at the source, ends at the destination, has a stored road
between each consecutive pair of its locations (an edge of the adjacency chain, which is
one of the roads given to `addRoad`), and its length over the lightest stored road of
each consecutive pair equals the reported shortest distance. -/
theorem Graph.dijkstra_path (roads : List Road) (g : Graph) (source destination : Nat)
    (hb : Graph.Built roads g) (htot : totalDistance roads < INT_MAX)
    (hs : source < g.numVertices) (hd : destination < g.numVertices)
    (d : Int) (path : List Nat) (legs : List Int)
    (hroute : g.dijkstra source destination = some (RouteResult.route d path legs)) :
    path.head? = some source ∧ path.getLast? = some destination ∧
    path.Chain' g.Joined ∧
    path.Chain' (fun a b => ∃ r ∈ roads,
      (r.source = a ∧ r.destination = b) ∨ (r.destination = a ∧ r.source = b)) ∧
    g.routeLength path = d := by
  have hg := Graph.ok_of_built roads g hb
  obtain ⟨hinv, -⟩ := Graph.dijkstraRun_inv g roads source hg htot hs
  have hpar := Graph.dijkstraRun_parent g roads source hg htot hs
  obtain ⟨hfin, hdist, walk, hwalk, hpath⟩ :=
    Graph.dijkstra_route_inv g source destination hs hd d path legs hroute
  obtain ⟨h1, h2, h3, h4⟩ := Graph.pathFrom_route g roads source _ hinv hpar MAX_VERTICES
    destination walk hd hfin hwalk
  rw [hpath, hdist]
  refine ⟨h1, h2, h3, ?_, h4⟩
  apply List.Chain'.imp _ h3
  intro a b hab
  obtain ⟨e, he, hev⟩ := hab
  obtain ⟨-, -, -, r, hr, -, hdir⟩ := hg.edge_road a e he
  rw [hev] at hdir
  exact ⟨r, hr, hdir⟩

theorem Graph.dijkstra_path_witness :
    Graph.Built mainRoads.reverse cityMap ∧ totalDistance mainRoads.reverse < INT_MAX ∧
    0 < cityMap.numVertices ∧ 4 < cityMap.numVertices ∧
    cityMap.dijkstra ((0 : Nat) : Int) ((4 : Nat) : Int)
      = some (RouteResult.route 36 [0, 2, 3, 4] [8, 10, 18]) ∧
    ([0, 2, 3, 4].head? = some 0 ∧ [0, 2, 3, 4].getLast? = some 4 ∧
    [0, 2, 3, 4].Chain' cityMap.Joined ∧
    [0, 2, 3, 4].Chain' (fun a b => ∃ r ∈ mainRoads.reverse,
      (r.source = a ∧ r.destination = b) ∨ (r.destination = a ∧ r.source = b)) ∧
    cityMap.routeLength [0, 2, 3, 4] = 36) :=
  ⟨cityMap_built, by decide, by decide, by decide, rfl,
    Graph.dijkstra_path mainRoads.reverse cityMap 0 4 cityMap_built (by decide) (by decide)
      (by decide) 36 [0, 2, 3, 4] [8, 10, 18] rfl⟩

/-! ## Driver queue: the empty queue and `peek` -/

/-- On a queue that carries no driver, `dequeue` returns `NULL` and the queue as it
was. -/
theorem DriverQueue.dequeue_nil (q : DriverQueue) (hq : q.Holds []) : q.dequeue = (NULL, q) := by
  unfold DriverQueue.dequeue
  rw [if_pos (DriverQueue.holds_nil_isEmpty q hq).1]

/-- A queue whose `front` is `NULL` carries no driver. -/
theorem DriverQueue.holds_of_isEmpty (q : DriverQueue) (waiting : List DriverPtr)
    (hq : q.Holds waiting) (he : q.isEmpty = true) : waiting = [] := by
  obtain ⟨cells, hmap, hlink, -, -, -, -⟩ := hq
  cases cells with
  | nil => rw [← hmap]; rfl
  | cons c rest =>
    obtain ⟨h1, h2, -⟩ := hlink
    unfold DriverQueue.isEmpty at he
    have hf : q.front = NULL := beq_iff_eq.mp he
    unfold NULL at hf
    omega

/-- Every queue reached by `enqueue` and `dequeue` calls carries a list of waiting
drivers, with `rear` and `size` in step. -/
theorem DriverQueue.holds_of_reachable (q : DriverQueue) (hr : q.Reachable) :
    ∃ waiting, q.Holds waiting := by
  induction hr with
  | empty => exact ⟨[], DriverQueue.holds_empty⟩
  | enqueue q d _ ih =>
    obtain ⟨waiting, hq⟩ := ih
    by_cases hd : d = NULL
    · refine ⟨waiting, ?_⟩
      unfold DriverQueue.enqueue
      rw [if_pos hd]
      exact hq
    · exact ⟨waiting ++ [d], DriverQueue.holds_enqueue q waiting d hq hd⟩
  | dequeue q _ ih =>
    obtain ⟨waiting, hq⟩ := ih
    cases waiting with
    | nil =>
      rw [DriverQueue.dequeue_nil q hq]
      exact ⟨[], hq⟩
    | cons d ds => exact ⟨ds, (DriverQueue.holds_dequeue q d ds hq).2⟩

/-- C22: on every queue reached by `enqueue` and `dequeue` calls that is empty,
`dequeue` returns `NULL` and leaves the queue unchanged: it is still empty and
`getSize` is still 0. -/
theorem DriverQueue.dequeue_on_empty (q : DriverQueue) (hr : q.Reachable)
    (he : q.isEmpty = true) :
    q.dequeue = (NULL, q) ∧ q.getSize = 0 ∧
    q.dequeue.2.isEmpty = true ∧ q.dequeue.2.getSize = 0 := by
  obtain ⟨waiting, hq⟩ := DriverQueue.holds_of_reachable q hr
  have hnil := DriverQueue.holds_of_isEmpty q waiting hq he
  subst hnil
  have hd := DriverQueue.dequeue_nil q hq
  have hs := (DriverQueue.holds_nil_isEmpty q hq).2
  rw [hd]
  exact ⟨rfl, hs, he, hs⟩

theorem DriverQueue.dequeue_on_empty_witness :
    ((DriverQueue.empty.enqueueAll [1, 2, 3]).dequeueN 3).2.Reachable ∧
    ((DriverQueue.empty.enqueueAll [1, 2, 3]).dequeueN 3).2.isEmpty = true ∧
    (((DriverQueue.empty.enqueueAll [1, 2, 3]).dequeueN 3).2.dequeue
        = (NULL, ((DriverQueue.empty.enqueueAll [1, 2, 3]).dequeueN 3).2) ∧
      ((DriverQueue.empty.enqueueAll [1, 2, 3]).dequeueN 3).2.getSize = 0 ∧
      ((DriverQueue.empty.enqueueAll [1, 2, 3]).dequeueN 3).2.dequeue.2.isEmpty = true ∧
      ((DriverQueue.empty.enqueueAll [1, 2, 3]).dequeueN 3).2.dequeue.2.getSize = 0) :=
  ⟨DriverQueue.Reachable.dequeue _ (DriverQueue.Reachable.dequeue _
      (DriverQueue.Reachable.dequeue _ (DriverQueue.Reachable.enqueue _ 3
        (DriverQueue.Reachable.enqueue _ 2
          (DriverQueue.Reachable.enqueue _ 1 DriverQueue.Reachable.empty))))),
    by decide,
    DriverQueue.dequeue_on_empty _
      (DriverQueue.Reachable.dequeue _ (DriverQueue.Reachable.dequeue _
        (DriverQueue.Reachable.dequeue _ (DriverQueue.Reachable.enqueue _ 3
          (DriverQueue.Reachable.enqueue _ 2
            (DriverQueue.Reachable.enqueue _ 1 DriverQueue.Reachable.empty))))))
      (by decide)⟩

/-- C23: on every queue reached by `enqueue` and `dequeue` calls, `peek` returns the
driver at the head of the waiting list, which is the driver the next `dequeue` returns,
and `NULL` when the queue is empty.  The body of `peek` has no assignment, so the model
of `peek` returns the driver only: chain, order and `size` are as before the call. -/
theorem DriverQueue.peek_front (q : DriverQueue) (hr : q.Reachable) :
    ∃ waiting, q.Holds waiting ∧ q.getSize = (waiting.length : Int) ∧
      q.peek = waiting.headD NULL ∧ q.peek = q.dequeue.1 ∧
      q.dequeue.2.Holds waiting.tail ∧
      (q.isEmpty = true → q.peek = NULL) := by
  obtain ⟨waiting, hq⟩ := DriverQueue.holds_of_reachable q hr
  have hsame : q.peek = q.dequeue.1 := by
    unfold DriverQueue.peek DriverQueue.dequeue
    by_cases he : q.isEmpty = true
    · rw [if_pos he, if_pos he]
    · rw [if_neg he, if_neg he]
  have hnull : q.isEmpty = true → q.peek = NULL := by
    intro he
    unfold DriverQueue.peek
    rw [if_pos he]
  have hsize : q.getSize = (waiting.length : Int) := by
    obtain ⟨cells, -, -, -, -, -, hs⟩ := hq
    exact hs
  refine ⟨waiting, hq, hsize, ?_, hsame, ?_, hnull⟩
  · cases waiting with
    | nil => exact hnull (DriverQueue.holds_nil_isEmpty q hq).1
    | cons d ds =>
      rw [hsame, (DriverQueue.holds_dequeue q d ds hq).1]
      rfl
  · cases waiting with
    | nil =>
      rw [DriverQueue.dequeue_nil q hq]
      exact hq
    | cons d ds => exact (DriverQueue.holds_dequeue q d ds hq).2

theorem DriverQueue.peek_front_witness :
    ((DriverQueue.empty.enqueueAll [1, 2, 3, 4, 5]).dequeueN 2).2.Reachable ∧
    ((DriverQueue.empty.enqueueAll [1, 2, 3, 4, 5]).dequeueN 2).2.peek = 3 ∧
    ((DriverQueue.empty.enqueueAll [1, 2, 3, 4, 5]).dequeueN 2).2.dequeue.1 = 3 ∧
    ∃ waiting, ((DriverQueue.empty.enqueueAll [1, 2, 3, 4, 5]).dequeueN 2).2.Holds waiting ∧
      ((DriverQueue.empty.enqueueAll [1, 2, 3, 4, 5]).dequeueN 2).2.getSize
        = (waiting.length : Int) ∧
      ((DriverQueue.empty.enqueueAll [1, 2, 3, 4, 5]).dequeueN 2).2.peek
        = waiting.headD NULL ∧
      ((DriverQueue.empty.enqueueAll [1, 2, 3, 4, 5]).dequeueN 2).2.peek
        = ((DriverQueue.empty.enqueueAll [1, 2, 3, 4, 5]).dequeueN 2).2.dequeue.1 ∧
      ((DriverQueue.empty.enqueueAll [1, 2, 3, 4, 5]).dequeueN 2).2.dequeue.2.Holds
        waiting.tail ∧
      (((DriverQueue.empty.enqueueAll [1, 2, 3, 4, 5]).dequeueN 2).2.isEmpty = true →
        ((DriverQueue.empty.enqueueAll [1, 2, 3, 4, 5]).dequeueN 2).2.peek = NULL) :=
  ⟨DriverQueue.Reachable.dequeue _ (DriverQueue.Reachable.dequeue _
      (DriverQueue.Reachable.enqueue _ 5 (DriverQueue.Reachable.enqueue _ 4
        (DriverQueue.Reachable.enqueue _ 3 (DriverQueue.Reachable.enqueue _ 2
          (DriverQueue.Reachable.enqueue _ 1 DriverQueue.Reachable.empty)))))),
    by decide, by decide,
    DriverQueue.peek_front _
      (DriverQueue.Reachable.dequeue _ (DriverQueue.Reachable.dequeue _
        (DriverQueue.Reachable.enqueue _ 5 (DriverQueue.Reachable.enqueue _ 4
          (DriverQueue.Reachable.enqueue _ 3 (DriverQueue.Reachable.enqueue _ 2
            (DriverQueue.Reachable.enqueue _ 1 DriverQueue.Reachable.empty)))))))⟩

/-! ## Maintenance heap: size after `extractMin` -/

/-- The index picked by `heapifyDown` is the index itself or a child inside the heap. -/
theorem MinHeap.minChild_range (mem : VehicleMem) (h : MinHeap) (index : Nat) :
    MinHeap.minChild mem h index = index ∨
    (index < MinHeap.minChild mem h index ∧ MinHeap.minChild mem h index < h.size) := by
  rcases MinHeap.minChild_spec mem h index with ⟨h1, -⟩ | ⟨h1, h2, -⟩
  · exact Or.inl h1
  · right
    rcases h1 with h1 | h1 <;> omega

/-- The recursion of `heapifyDown` ends within the cells left below `index`, on every
array, whatever the scores are; it keeps `size`. -/
theorem MinHeap.heapifyDown_total (mem : VehicleMem) :
    ∀ (fuel : Nat) (h : MinHeap) (index : Nat), h.size ≤ index + fuel →
      ∃ h2, MinHeap.heapifyDown mem fuel h index = some h2 ∧ h2.size = h.size := by
  intro fuel
  induction fuel with
  | zero =>
    intro h index hi
    refine ⟨h, ?_, rfl⟩
    unfold MinHeap.heapifyDown
    rcases MinHeap.minChild_range mem h index with h1 | ⟨h1, h2⟩
    · rw [if_neg (by rw [h1]; exact fun hne => hne rfl)]
    · omega
  | succ fuel ih =>
    intro h index hi
    unfold MinHeap.heapifyDown
    simp only
    rcases MinHeap.minChild_range mem h index with h1 | ⟨h1, h2⟩
    · rw [if_neg (by rw [h1]; exact fun hne => hne rfl)]
      exact ⟨h, rfl, rfl⟩
    · rw [if_pos (by omega)]
      obtain ⟨h3, e1, e2⟩ := ih (h.swap index (MinHeap.minChild mem h index))
        (MinHeap.minChild mem h index) (by rw [MinHeap.swap_size]; omega)
      exact ⟨h3, e1, by rw [e2, MinHeap.swap_size]⟩

/-- C21: on every non-empty heap, whatever the order of its array, `extractMin` returns
the vehicle of cell 0 and `getSize` is afterwards exactly one less. -/
theorem MinHeap.extractMin_size (mem : VehicleMem) (h : MinHeap) (hs : h.isEmpty = false) :
    ∃ h1, MinHeap.extractMin mem h = some (h.elem 0, h1) ∧ h1.getSize + 1 = h.getSize := by
  have hpos : 0 < h.size := by
    unfold MinHeap.isEmpty at hs
    have := beq_eq_false_iff_ne.mp hs
    omega
  unfold MinHeap.extractMin
  rw [hs]
  simp only [Bool.false_eq_true, if_false]
  by_cases h1 : h.size - 1 > 0
  · rw [if_pos h1]
    obtain ⟨h2, e1, e2⟩ := MinHeap.heapifyDown_total mem (h.size - 1)
      { heap := h.heap.set 0 (h.elem (h.size - 1)), size := h.size - 1 } 0 (by simp)
    rw [e1]
    refine ⟨h2, rfl, ?_⟩
    unfold MinHeap.getSize
    rw [e2]
    show h.size - 1 + 1 = h.size
    omega
  · rw [if_neg h1]
    refine ⟨_, rfl, ?_⟩
    show h.size - 1 + 1 = h.size
    omega

theorem MinHeap.extractMin_size_witness :
    mainHeap.isEmpty = false ∧ mainHeap.getSize = 6 ∧
    ∃ h1, MinHeap.extractMin mainMem mainHeap = some (mainHeap.elem 0, h1) ∧
      h1.getSize + 1 = mainHeap.getSize :=
  ⟨by with_unfolding_all rfl, by with_unfolding_all rfl,
    MinHeap.extractMin_size mainMem mainHeap (by with_unfolding_all rfl)⟩

/-! ## Vehicle directory: absent ids, the invariants of a reached table, other ids -/

theorem HashTable.mem_entries_aux (node : HashNode) :
    ∀ L : List (List HashNode),
      node ∈ L.foldr (fun chain acc => chain ++ acc) [] ↔ ∃ chain ∈ L, node ∈ chain := by
  intro L
  induction L with
  | nil => simp
  | cons c L ih =>
    simp only [List.foldr_cons, List.mem_append, ih, List.mem_cons, exists_eq_or_imp]

theorem HashTable.mem_entries (t : HashTable) (node : HashNode) :
    node ∈ t.entries ↔ ∃ chain ∈ t.table, node ∈ chain :=
  HashTable.mem_entries_aux node t.table

/-- An id that is the key of no entry is not stored. -/
theorem HashTable.not_stores_of_keys (t : HashTable) (id : String)
    (h : id ∉ t.entries.map HashNode.key) : ∀ p, ¬ t.Stores id p := by
  intro p hs
  apply h
  exact List.mem_map.mpr ⟨{ key := id, vehicle := p }, (HashTable.mem_entries t _).mpr hs, rfl⟩

/-- On every table (of `TABLE_SIZE` buckets) and for every id that is not stored in it
and whose hash is not negative, `deleteVehicle(id)` returns `false` and leaves the table
unchanged, so every `search` result and `getTotalVehicles` are as before. -/
theorem HashTable.delete_absent (t : HashTable) (id : String)
    (hsize : t.table.length = TABLE_SIZE) (hidx : 0 ≤ hashFunction id)
    (habsent : ∀ p, ¬ t.Stores id p) :
    ∃ t1, t.deleteVehicle id = some (false, t1) ∧ t1 = t ∧
      (∀ id2, t1.search id2 = t.search id2) ∧
      t1.getTotalVehicles = t.getTotalVehicles := by
  obtain ⟨chain, hb⟩ := HashTable.bucket_of_range t hsize _ hidx (hashFunction_lt id)
  obtain ⟨-, hi⟩ := HashTable.bucket_some t _ _ hb
  have hc : chain ∈ t.table := List.mem_iff_getElem?.mpr ⟨_, hi⟩
  have hany : chain.any (fun node => node.key == id) = false := by
    rw [Bool.eq_false_iff]
    intro h
    obtain ⟨node, hn, he⟩ := List.any_eq_true.mp h
    have hk : node.key = id := beq_iff_eq.mp he
    apply habsent node.vehicle
    refine ⟨chain, hc, ?_⟩
    rw [← hk]
    exact hn
  refine ⟨t, ?_, rfl, fun _ => rfl, rfl⟩
  unfold HashTable.deleteVehicle
  simp only [hb, hany, Bool.false_eq_true, if_false]

theorem HashTable.delete_absent_main :
    mainTable.table.length = TABLE_SIZE ∧ 0 ≤ hashFunction "V999" ∧
    (∀ p, ¬ mainTable.Stores "V999" p) ∧
    ∃ t1, mainTable.deleteVehicle "V999" = some (false, t1) ∧ t1 = mainTable ∧
      (∀ id2, t1.search id2 = mainTable.search id2) ∧
      t1.getTotalVehicles = mainTable.getTotalVehicles :=
  ⟨by decide, by decide, HashTable.not_stores_of_keys mainTable "V999" (by decide),
    HashTable.delete_absent mainTable "V999" (by decide) (by decide)
      (HashTable.not_stores_of_keys mainTable "V999" (by decide))⟩

/-- C4 fails for an id whose `char`s add up to a negative number: the id `é` is the two
bytes C3 A9, as `char`s -61 and -87, so `hashFunction` returns `-148 % 100 = -48`, and
`insert` of a vehicle with that id into the empty table reads `table[-48]`, outside the
array, where the claim has it stored and `true` returned; so does every run of inserts
that comes to this vehicle, also after the four vehicles of `main` were accepted. -/
theorem HashTable.insert_negative_hash :
    (accentMem 401).vehicleId = "é" ∧ stringChars "é" = [-61, -87] ∧
    hashFunction "é" = -48 ∧
    HashTable.empty.bucket (hashFunction "é") = none ∧
    HashTable.insert accentMem HashTable.empty 401 = none ∧
    ([1, 2, 3, 4, 401].map (vehicleIdOf accentMem)).Nodup ∧
    HashTable.insertAll accentMem HashTable.empty [1, 2, 3, 4]
      = some (List.replicate 4 true, mainTable) ∧
    HashTable.insertAll accentMem HashTable.empty [1, 2, 3, 4, 401] = none := by
  refine ⟨rfl, by decide, by decide, by decide, rfl, by decide, rfl, rfl⟩

/-- C24 fails for an id whose `char`s add up to a negative number: the id `é` is not
stored in the directory of `main`, its hash is `-48`, and `deleteVehicle` of it reads
`table[-48]`, outside the array, where the claim has `false` returned and the directory
unchanged. -/
theorem HashTable.delete_negative_hash :
    (∀ p, ¬ mainTable.Stores "é" p) ∧ hashFunction "é" = -48 ∧
    mainTable.bucket (hashFunction "é") = none ∧
    mainTable.deleteVehicle "é" = none ∧
    mainTable.deleteVehicle "é" ≠ some (false, mainTable) := by
  have h : mainTable.deleteVehicle "é" = none := rfl
  refine ⟨HashTable.not_stores_of_keys mainTable "é" (by decide), by decide, by decide, h, ?_⟩
  rw [h]
  exact fun hc => Option.noConfusion hc

theorem Graph.addLocation_full (g : Graph) (name : String)
    (h : g.numVertices ≥ MAX_VERTICES) : g.addLocation name = g := by
  unfold Graph.addLocation
  rw [if_pos h]

theorem Graph.addLocation_room (g : Graph) (name : String)
    (h : ¬ g.numVertices ≥ MAX_VERTICES) :
    g.addLocation name =
      { g with
        locations := g.locations.set g.numVertices { name := name, id := g.numVertices }
        numVertices := g.numVertices + 1 } := by
  unfold Graph.addLocation
  rw [if_neg h]

/-- The location table after one more `addLocation` call. -/
theorem Graph.addLocation_table (g : Graph) (given : List String) (name : String)
    (hlen : g.locations.length = MAX_VERTICES)
    (hn : g.numVertices = min given.length MAX_VERTICES)
    (hin : ∀ i, i < g.numVertices → g.locations.getD i { name := "", id := -1 }
      = { name := given.getD i "", id := (i : Int) })
    (hout : ∀ i, g.numVertices ≤ i → g.locations.getD i { name := "", id := -1 }
      = { name := "", id := -1 }) :
    (g.addLocation name).locations.length = MAX_VERTICES ∧
    (g.addLocation name).numVertices = min (given ++ [name]).length MAX_VERTICES ∧
    (∀ i, i < (g.addLocation name).numVertices →
      (g.addLocation name).locations.getD i { name := "", id := -1 }
        = { name := (given ++ [name]).getD i "", id := (i : Int) }) ∧
    (∀ i, (g.addLocation name).numVertices ≤ i →
      (g.addLocation name).locations.getD i { name := "", id := -1 }
        = { name := "", id := -1 }) := by
  have hl1 : (given ++ [name]).length = given.length + 1 := by simp
  by_cases hfull : g.numVertices ≥ MAX_VERTICES
  · rw [Graph.addLocation_full g name hfull]
    refine ⟨hlen, by omega, ?_, hout⟩
    intro i hi
    rw [hin i hi, getD_append_lt given [name] i "" (by omega)]
  · rw [Graph.addLocation_room g name hfull]
    have hgl : g.numVertices = given.length := by omega
    refine ⟨by simp only [List.length_set]; exact hlen, ?_, ?_, ?_⟩
    · show g.numVertices + 1 = _
      omega
    · intro i hi
      have hi1 : i < g.numVertices + 1 := hi
      show (g.locations.set g.numVertices { name := name, id := g.numVertices }).getD i
        { name := "", id := -1 } = _
      rw [getD_set_if _ _ _ _ _ (by rw [hlen]; omega)]
      by_cases hi2 : g.numVertices = i
      · rw [if_pos hi2, ← hi2, hgl, getD_append_length]
      · rw [if_neg hi2, hin i (by omega), getD_append_lt given [name] i "" (by omega)]
    · intro i hi
      have hi1 : g.numVertices + 1 ≤ i := hi
      show (g.locations.set g.numVertices { name := name, id := g.numVertices }).getD i
        { name := "", id := -1 } = _
      rw [getD_set_other _ _ _ _ _ (by omega)]
      exact hout i (by omega)

/-- The location table after a run of `addLocation` calls: the first `numVertices` cells
carry the names of the accepted calls with their position as id, the other cells are as
the constructor left them. -/
theorem Graph.addLocations_table (names : List String) :
    ∀ (g : Graph) (given : List String),
      g.locations.length = MAX_VERTICES → g.numVertices = min given.length MAX_VERTICES →
      (∀ i, i < g.numVertices → g.locations.getD i { name := "", id := -1 }
        = { name := given.getD i "", id := (i : Int) }) →
      (∀ i, g.numVertices ≤ i → g.locations.getD i { name := "", id := -1 }
        = { name := "", id := -1 }) →
      (names.foldl Graph.addLocation g).locations.length = MAX_VERTICES ∧
      (names.foldl Graph.addLocation g).numVertices
        = min (given ++ names).length MAX_VERTICES ∧
      (∀ i, i < (names.foldl Graph.addLocation g).numVertices →
        (names.foldl Graph.addLocation g).locations.getD i { name := "", id := -1 }
          = { name := (given ++ names).getD i "", id := (i : Int) }) ∧
      (∀ i, (names.foldl Graph.addLocation g).numVertices ≤ i →
        (names.foldl Graph.addLocation g).locations.getD i { name := "", id := -1 }
          = { name := "", id := -1 }) := by
  induction names with
  | nil =>
    intro g given hlen hn hin hout
    simp only [List.foldl_nil, List.append_nil]
    exact ⟨hlen, hn, hin, hout⟩
  | cons name names ih =>
    intro g given hlen hn hin hout
    obtain ⟨s1, s2, s3, s4⟩ := Graph.addLocation_table g given name hlen hn hin hout
    have hstep := ih (g.addLocation name) (given ++ [name]) s1 s2 s3 s4
    simp only [List.append_assoc, List.singleton_append] at hstep
    exact hstep

/-- C26: after any run of `addLocation` calls on an empty graph, `numVertices` is the
number of calls, capped at `MAX_VERTICES = 20`; for every `i < numVertices` the cell
`locations[i]` has id `i` and the name given in the `i`-th call (counted from 0), which
`getLocationName(i)` returns; the cells from `numVertices` on still have the id `-1` of
the constructor; and at `numVertices = 20` a further `addLocation` changes nothing. -/
theorem Graph.addLocation_ids (names : List String) :
    MAX_VERTICES = 20 ∧
    (names.foldl Graph.addLocation Graph.empty).getNumVertices = min names.length 20 ∧
    (∀ i : Nat, i < (names.foldl Graph.addLocation Graph.empty).numVertices →
      ((names.foldl Graph.addLocation Graph.empty).locations.getD i
        { name := "", id := -1 }).id = (i : Int) ∧
      ((names.foldl Graph.addLocation Graph.empty).locations.getD i
        { name := "", id := -1 }).name = names.getD i "" ∧
      (names.foldl Graph.addLocation Graph.empty).getLocationName i = names.getD i "") ∧
    (∀ i : Nat, (names.foldl Graph.addLocation Graph.empty).numVertices ≤ i →
      ((names.foldl Graph.addLocation Graph.empty).locations.getD i
        { name := "", id := -1 }).id = -1) ∧
    ((names.foldl Graph.addLocation Graph.empty).numVertices = 20 →
      ∀ name, (names.foldl Graph.addLocation Graph.empty).addLocation name
        = names.foldl Graph.addLocation Graph.empty) := by
  obtain ⟨-, h2, h3, h4⟩ := Graph.addLocations_table names Graph.empty []
    (by simp [Graph.empty]) rfl (fun i hi => absurd hi (Nat.not_lt_zero i))
    (fun i _ => getD_replicate _ _ _)
  rw [List.nil_append] at h2 h3
  refine ⟨rfl, h2, ?_, ?_, ?_⟩
  · intro i hi
    rw [h3 i hi]
    refine ⟨rfl, rfl, ?_⟩
    unfold Graph.getLocationName
    rw [if_pos ⟨by omega, by omega⟩]
    simp only [Int.toNat_ofNat]
    rw [h3 i hi]
  · intro i hi
    rw [h4 i hi]
  · intro hfull name
    exact Graph.addLocation_full _ name (by rw [hfull]; decide)

theorem Graph.addLocation_ids_witness :
    ((List.range 25).map toString).foldl Graph.addLocation Graph.empty
      = ((List.range 20).map toString).foldl Graph.addLocation Graph.empty ∧
    cityLocations.getNumVertices = 6 ∧
    cityLocations.getLocationName 4 = "Delivery Hub" ∧
    (MAX_VERTICES = 20 ∧
    (((List.range 25).map toString).foldl Graph.addLocation Graph.empty).getNumVertices
      = min ((List.range 25).map toString).length 20 ∧
    (∀ i : Nat, i < (((List.range 25).map toString).foldl Graph.addLocation
        Graph.empty).numVertices →
      ((((List.range 25).map toString).foldl Graph.addLocation Graph.empty).locations.getD i
        { name := "", id := -1 }).id = (i : Int) ∧
      ((((List.range 25).map toString).foldl Graph.addLocation Graph.empty).locations.getD i
        { name := "", id := -1 }).name = ((List.range 25).map toString).getD i "" ∧
      (((List.range 25).map toString).foldl Graph.addLocation Graph.empty).getLocationName i
        = ((List.range 25).map toString).getD i "") ∧
    (∀ i : Nat, (((List.range 25).map toString).foldl Graph.addLocation
        Graph.empty).numVertices ≤ i →
      ((((List.range 25).map toString).foldl Graph.addLocation Graph.empty).locations.getD i
        { name := "", id := -1 }).id = -1) ∧
    ((((List.range 25).map toString).foldl Graph.addLocation Graph.empty).numVertices = 20 →
      ∀ name, (((List.range 25).map toString).foldl Graph.addLocation
          Graph.empty).addLocation name
        = ((List.range 25).map toString).foldl Graph.addLocation Graph.empty)) :=
  ⟨by rfl, by decide, by decide, Graph.addLocation_ids ((List.range 25).map toString)⟩

/-- The adjacency chains after an `addRoad` call that returns: either the call was
rejected and nothing changed, or both endpoints are valid ids and the edge is put in
front of the chain of `source`, then its mirror in front of the chain of
`destination`. -/
theorem Graph.adj_addRoad (g g1 : Graph) (source destination distance : Int)
    (hlen : g.adjacencyList.length = MAX_VERTICES) (hn : g.numVertices ≤ MAX_VERTICES)
    (h : g.addRoad source destination distance = some g1) :
    g1 = g ∨
    (g1.adjacencyList.length = MAX_VERTICES ∧ g1.numVertices = g.numVertices ∧
      ∃ s d : Nat, source = (s : Int) ∧ destination = (d : Int) ∧
        s < g.numVertices ∧ d < g.numVertices ∧
        ∀ u, g1.adj u =
          (if u = d then [({ destination := s, weight := distance } : Edge)] else []) ++
          (if u = s then [({ destination := d, weight := distance } : Edge)] else []) ++
          g.adj u) := by
  unfold Graph.addRoad at h
  by_cases hrej : source ≥ g.numVertices ∨ destination ≥ g.numVertices
  · rw [if_pos hrej] at h
    left
    exact (Option.some.inj h).symm
  · rw [if_neg hrej] at h
    by_cases hneg : source < 0 ∨ destination < 0
    · rw [if_pos hneg] at h; cases h
    · rw [if_neg hneg] at h
      right
      obtain ⟨s, hs⟩ : ∃ s : Nat, source = (s : Int) := ⟨source.toNat, by omega⟩
      obtain ⟨d, hd⟩ : ∃ d : Nat, destination = (d : Int) := ⟨destination.toNat, by omega⟩
      subst hs; subst hd
      simp only [Int.toNat_ofNat, Option.some.injEq] at h
      subst h
      have hs1 : s < g.adjacencyList.length := by omega
      have hd1 : d < (g.adjacencyList.set s
          ({ destination := d, weight := distance } :: g.adjacencyList.getD s [])).length := by
        simp only [List.length_set]; omega
      refine ⟨by simp only [List.length_set]; exact hlen, rfl, s, d, rfl, rfl,
        by omega, by omega, ?_⟩
      intro u
      unfold Graph.adj
      simp only
      rw [getD_set_if _ _ _ _ _ hd1]
      by_cases hud : d = u
      · rw [if_pos hud, if_pos hud.symm, getD_set_if _ _ _ _ _ hs1]
        by_cases hsd : s = d
        · rw [if_pos hsd, if_pos (by omega : u = s)]
          subst hsd; subst hud
          rfl
        · rw [if_neg hsd, if_neg (by omega : ¬ u = s)]
          subst hud
          rfl
      · rw [if_neg hud, if_neg (fun h => hud h.symm), getD_set_if _ _ _ _ _ hs1]
        by_cases hus : s = u
        · rw [if_pos hus, if_pos hus.symm]
          subst hus
          rfl
        · rw [if_neg hus, if_neg (fun h => hus h.symm)]
          rfl

/-- Every graph reached by `addLocation` and `addRoad` calls has its `MAX_VERTICES`
chains, at most `MAX_VERTICES` locations, and as many edges from `u` to `v` of a weight
as from `v` to `u`. -/
theorem Graph.reachable_symm (g : Graph) (hr : g.Reachable) :
    g.adjacencyList.length = MAX_VERTICES ∧ g.numVertices ≤ MAX_VERTICES ∧
    ∀ (u v : Nat) (w : Int), g.edgeCount u v w = g.edgeCount v u w := by
  induction hr with
  | empty =>
    refine ⟨by simp [Graph.empty], by simp [Graph.empty], ?_⟩
    intro u v w
    have hadj : ∀ x, Graph.empty.adj x = [] := fun x => getD_replicate _ _ _
    unfold Graph.edgeCount
    rw [hadj u, hadj v]
    rfl
  | addLocation g name _ ih =>
    obtain ⟨h1, h2, h3⟩ := ih
    refine ⟨?_, ?_, ?_⟩
    · unfold Graph.addLocation
      split <;> exact h1
    · rcases (Graph.numVertices_addLocation g name).2 with h | h
      · exact h
      · rw [h]; exact h2
    · intro u v w
      unfold Graph.edgeCount
      rw [Graph.adj_addLocation, Graph.adj_addLocation]
      exact h3 u v w
  | addRoad g g1 source destination distance _ hadd ih =>
    obtain ⟨h1, h2, h3⟩ := ih
    rcases Graph.adj_addRoad g g1 source destination distance h1 h2 hadd with
      heq | ⟨k1, k2, s, d, -, -, -, -, hadj⟩
    · rw [heq]; exact ⟨h1, h2, h3⟩
    · refine ⟨k1, by rw [k2]; exact h2, ?_⟩
      intro u v w
      have hold := h3 u v w
      unfold Graph.edgeCount at hold ⊢
      rw [hadj u, hadj v]
      simp only [List.countP_append]
      rw [hold]
      have hone : ∀ (c : Prop) [Decidable c] (e : Edge) (a : Nat),
          List.countP (fun e => e.destination == a && e.weight == w)
            (if c then [e] else [])
          = if c ∧ e.destination = a ∧ e.weight = w then 1 else 0 := by
        intro c _ e a
        by_cases hc : c
        · rw [if_pos hc]
          by_cases hp : e.destination = a ∧ e.weight = w
          · rw [if_pos ⟨hc, hp⟩]
            simp [List.countP_cons, hp.1, hp.2]
          · rw [if_neg (fun h => hp h.2)]
            rw [List.countP_cons, List.countP_nil]
            have : (e.destination == a && e.weight == w) = false := by
              rw [Bool.eq_false_iff]
              intro h
              simp only [Bool.and_eq_true, beq_iff_eq] at h
              exact hp h
            rw [this]
            rfl
        · rw [if_neg hc, if_neg (fun h => hc h.1)]
          rfl
      rw [hone, hone, hone, hone]
      simp only
      have e1 : (if u = d ∧ s = v ∧ distance = w then 1 else 0)
          = (if v = s ∧ d = u ∧ distance = w then (1 : Nat) else 0) :=
        if_congr ⟨fun ⟨a, b, c⟩ => ⟨b.symm, a.symm, c⟩, fun ⟨a, b, c⟩ => ⟨b.symm, a.symm, c⟩⟩
          rfl rfl
      have e2 : (if u = s ∧ d = v ∧ distance = w then 1 else 0)
          = (if v = d ∧ s = u ∧ distance = w then (1 : Nat) else 0) :=
        if_congr ⟨fun ⟨a, b, c⟩ => ⟨b.symm, a.symm, c⟩, fun ⟨a, b, c⟩ => ⟨b.symm, a.symm, c⟩⟩
          rfl rfl
      omega

theorem Graph.reachable_of_built (roads : List Road) (g : Graph) (h : Graph.Built roads g) :
    g.Reachable := by
  induction h with
  | empty => exact Graph.Reachable.empty
  | addLocation roads g name _ ih => exact Graph.Reachable.addLocation g name ih
  | addRoad roads g g1 s d w _ _ _ _ hadd ih => exact Graph.Reachable.addRoad g g1 s d w ih hadd

/-- C25: in every graph built from the empty graph by `addLocation` and `addRoad` calls
the road relation is symmetric: for all location ids `u`, `v` and every distance `w`,
the chain of `u` holds an edge to `v` of weight `w` exactly as many times as the chain of
`v` holds an edge to `u` of weight `w`. -/
theorem Graph.roads_symmetric (g : Graph) (hr : g.Reachable) (u v : Nat) (w : Int) :
    ((g.adj u).filter (fun e => e.destination == v && e.weight == w)).length
      = ((g.adj v).filter (fun e => e.destination == u && e.weight == w)).length := by
  have h := (Graph.reachable_symm g hr).2.2 u v w
  unfold Graph.edgeCount at h
  rw [List.countP_eq_length_filter, List.countP_eq_length_filter] at h
  exact h

theorem Graph.roads_symmetric_witness :
    cityMap.Reachable ∧
    ((cityMap.adj 0).filter (fun e => e.destination == 2 && e.weight == 8)).length = 1 ∧
    ((cityMap.adj 0).filter (fun e => e.destination == 2 && e.weight == 8)).length
      = ((cityMap.adj 2).filter (fun e => e.destination == 0 && e.weight == 8)).length :=
  ⟨Graph.reachable_of_built _ _ cityMap_built, by decide,
    Graph.roads_symmetric cityMap (Graph.reachable_of_built _ _ cityMap_built) 0 2 8⟩

/-- Relaxing edges never writes the cells of a visited location. -/
theorem Graph.relaxEdges_visited (u A : Nat) :
    ∀ (es : List Edge) (st : DijkstraState), st.visited.getD A false = true →
      (es.foldl (Graph.relaxEdge u) st).dist.getD A 0 = st.dist.getD A 0 ∧
      (es.foldl (Graph.relaxEdge u) st).parent.getD A (-1) = st.parent.getD A (-1) ∧
      (es.foldl (Graph.relaxEdge u) st).visited = st.visited := by
  intro es
  induction es with
  | nil => intro st _; exact ⟨rfl, rfl, rfl⟩
  | cons e es ih =>
    intro st hA
    rw [List.foldl_cons]
    rcases Graph.relaxEdge_cases u st e with ⟨-, heq⟩ | ⟨⟨hv, -, -⟩, heq⟩
    · rw [heq]; exact ih st hA
    · have hne : e.destination ≠ A := by
        intro h
        rw [h, hA] at hv
        cases hv
      have hA1 : (Graph.relaxEdge u st e).visited.getD A false = true := by
        rw [heq]; exact hA
      obtain ⟨i1, i2, i3⟩ := ih (Graph.relaxEdge u st e) hA1
      rw [i1, i2, i3, heq]
      exact ⟨getD_set_other _ _ _ _ _ hne, getD_set_other _ _ _ _ _ hne, rfl⟩

/-- One iteration of the main loop of `dijkstra(A, ...)` leaves `dist[A] = 0` and
`parent[A] = -1`, and `A` is visited after it. -/
theorem Graph.dijkstraStep_self (g : Graph) (A : Nat) (st st1 : DijkstraState)
    (hlen : st.visited.length = g.numVertices)
    (hd : st.dist.getD A 0 = 0) (hp : st.parent.getD A (-1) = -1)
    (hcase : st.visited.getD A false = true ∨
      ∀ i, i < g.numVertices → i ≠ A → st.dist.getD i 0 = INF)
    (hstep : g.dijkstraStep st = some st1) :
    st1.visited.length = g.numVertices ∧ st1.dist.getD A 0 = 0 ∧
    st1.parent.getD A (-1) = -1 ∧ st1.visited.getD A false = true := by
  unfold Graph.dijkstraStep at hstep
  simp only at hstep
  rcases g.findMinDistance_spec st.dist st.visited with ⟨h1, -⟩ | ⟨u, h1, hu, hv, hfin, -⟩
  · rw [h1] at hstep
    simp at hstep
  · rw [h1] at hstep
    have hne : ¬ ((u : Int) = -1) := by omega
    rw [if_neg hne] at hstep
    simp only [Int.toNat_ofNat, Option.some.injEq] at hstep
    have hvisA : (st.visited.set u true).getD A false = true := by
      rw [getD_set_if _ _ _ _ _ (by rw [hlen]; exact hu)]
      by_cases huA : u = A
      · rw [if_pos huA]
      · rw [if_neg huA]
        rcases hcase with h | h
        · exact h
        · have := h u hu huA
          rw [this] at hfin
          exact absurd hfin (lt_irrefl _)
    obtain ⟨i1, i2, i3⟩ := Graph.relaxEdges_visited u A (g.adj u)
      { st with visited := st.visited.set u true } hvisA
    rw [← hstep]
    refine ⟨?_, ?_, ?_, ?_⟩
    · rw [i3]; simp only [List.length_set]; exact hlen
    · rw [i1]; exact hd
    · rw [i2]; exact hp
    · rw [i3]; exact hvisA

/-- The main loop of `dijkstra(A, ...)` leaves `dist[A] = 0` and `parent[A] = -1`. -/
theorem Graph.dijkstraLoop_self (g : Graph) (A : Nat) :
    ∀ (k : Nat) (st : DijkstraState), st.visited.length = g.numVertices →
      st.dist.getD A 0 = 0 → st.parent.getD A (-1) = -1 →
      (st.visited.getD A false = true ∨
        ∀ i, i < g.numVertices → i ≠ A → st.dist.getD i 0 = INF) →
      (g.dijkstraLoop k st).dist.getD A 0 = 0 ∧
      (g.dijkstraLoop k st).parent.getD A (-1) = -1 := by
  intro k
  induction k with
  | zero => intro st _ hd hp _; exact ⟨hd, hp⟩
  | succ k ih =>
    intro st hlen hd hp hcase
    simp only [Graph.dijkstraLoop]
    cases hstep : g.dijkstraStep st with
    | none => exact ⟨hd, hp⟩
    | some st1 =>
      obtain ⟨s1, s2, s3, s4⟩ := Graph.dijkstraStep_self g A st st1 hlen hd hp hcase hstep
      exact ih st1 s1 s2 s3 (Or.inl s4)

/-- The walk of the parent pointers from a location without parent is that location. -/
theorem Graph.pathFrom_root (parent : List Int) (room c : Nat)
    (h : parent.getD c (-1) = -1) :
    Graph.pathFrom parent (room + 1) (c : Int) = some [c] := by
  simp only [Graph.pathFrom]
  rw [if_pos (by omega)]
  simp only [Int.toNat_ofNat]
  rw [h, Graph.pathFrom_end]

/-- C27: for every graph and every valid location id `A`, `dijkstra(A, A)` reports the
shortest distance 0 and the path that consists of `A` alone (so no leg is printed).
Nothing is assumed of the distances of the roads. -/
theorem Graph.dijkstra_self (g : Graph) (A : Nat) (hA : A < g.numVertices) :
    g.dijkstra A A = some (RouteResult.route 0 [A] []) := by
  have hinit : (g.dijkstraInit A).dist.getD A 0 = 0 :=
    getD_set_self _ _ _ _ (by simp only [List.length_replicate]; exact hA)
  obtain ⟨h1, h2⟩ := Graph.dijkstraLoop_self g A (g.numVertices - 1) (g.dijkstraInit A)
    (by simp [Graph.dijkstraInit]) hinit (getD_replicate _ _ _)
    (Or.inr (fun i hi hne => by
      show ((List.replicate g.numVertices INF).set A 0).getD i 0 = INF
      rw [getD_set_other _ _ _ _ _ (fun h => hne h.symm)]
      simp only [List.getD_eq_getElem?_getD, List.getElem?_replicate]
      rw [if_pos hi]; rfl))
  unfold Graph.dijkstra
  rw [if_neg (by omega), if_neg (by omega)]
  simp only [Int.toNat_ofNat]
  have h1r : (g.dijkstraRun A).dist.getD A 0 = 0 := h1
  have h2r : (g.dijkstraRun A).parent.getD A (-1) = -1 := h2
  rw [h1r, if_neg (by decide)]
  rw [show MAX_VERTICES = 19 + 1 from rfl, Graph.pathFrom_root _ 19 A h2r]
  rfl

theorem Graph.dijkstra_self_witness :
    3 < cityMap.numVertices ∧
    cityMap.dijkstra ((3 : Nat) : Int) ((3 : Nat) : Int) = some (RouteResult.route 0 [3] []) :=
  ⟨by decide, Graph.dijkstra_self cityMap 3 (by decide)⟩

/-! ## Vehicle: the maintenance priority score -/

/-- The conversion `(int)x` of a non-negative exact number is its floor. -/
theorem truncToInt_floor (x : ℚ) (h : 0 ≤ x) : truncToInt x = ⌊x⌋ := by
  unfold truncToInt
  rw [Int.tdiv_eq_ediv (Rat.num_nonneg.mpr h) (Int.ofNat_nonneg _)]
  exact (Rat.floor_def' x).symm

/-- The score is an `int`: it never exceeds `INT_MAX`. -/
theorem Vehicle.priority_le_max (v : Vehicle) : v.getMaintenancePriority ≤ INT_MAX := by
  unfold Vehicle.getMaintenancePriority wrapInt32 INT_MAX
  simp only
  omega

/-- C28, as the code has it: for every vehicle with non-negative `kilometersRun` and
non-negative `daysSinceLastService` for which
`floor(kilometersRun / 5000) + floor(daysSinceLastService / 30)` is at most `INT_MAX`,
`getMaintenancePriority` returns that sum (kilometers taken as an exact number). -/
theorem Vehicle.priority_formula (v : Vehicle) (hkm : 0 ≤ v.kilometersRun)
    (hdays : 0 ≤ v.daysSinceLastService)
    (hfit : ⌊v.kilometersRun / 5000⌋ + v.daysSinceLastService / 30 ≤ INT_MAX) :
    v.getMaintenancePriority = ⌊v.kilometersRun / 5000⌋ + v.daysSinceLastService / 30 := by
  have hq : 0 ≤ v.kilometersRun / 5000 := div_nonneg hkm (by norm_num)
  have hf : 0 ≤ ⌊v.kilometersRun / 5000⌋ := Int.floor_nonneg.mpr hq
  have hd : 0 ≤ v.daysSinceLastService / 30 := Int.ediv_nonneg hdays (by decide)
  unfold Vehicle.getMaintenancePriority
  simp only
  rw [truncToInt_floor _ hq, Int.tdiv_eq_ediv hdays (by decide), zero_add,
    wrapInt32_of_range _ hf (by omega), wrapInt32_of_range _ (by omega) hfit]

theorem Vehicle.priority_formula_witness :
    (0 : ℚ) ≤ (mainMem 101).kilometersRun ∧ 0 ≤ (mainMem 101).daysSinceLastService ∧
    ⌊(mainMem 101).kilometersRun / 5000⌋ + (mainMem 101).daysSinceLastService / 30
      ≤ INT_MAX ∧
    (mainMem 101).getMaintenancePriority = 11 ∧
    (mainMem 101).getMaintenancePriority
      = ⌊(mainMem 101).kilometersRun / 5000⌋ + (mainMem 101).daysSinceLastService / 30 :=
  have hfloor : ⌊(mainMem 101).kilometersRun / 5000⌋ = 5 := by
    show ⌊(28000 : ℚ) / 5000⌋ = 5
    rw [Int.floor_eq_iff]
    constructor <;> norm_num
  have hdays : (mainMem 101).daysSinceLastService = 180 := rfl
  have hkm : (0 : ℚ) ≤ (mainMem 101).kilometersRun := by
    show (0 : ℚ) ≤ 28000
    norm_num
  have hfit : ⌊(mainMem 101).kilometersRun / 5000⌋ + (mainMem 101).daysSinceLastService / 30
      ≤ INT_MAX := by
    rw [hfloor, hdays]; decide
  ⟨hkm, by rw [hdays]; decide, hfit, by with_unfolding_all rfl,
    Vehicle.priority_formula (mainMem 101) hkm (by rw [hdays]; decide) hfit⟩

/-- C28, as stated, fails where the sum leaves the range of `int`: for a vehicle with
`kilometersRun = 10737418235000` (so `floor(km / 5000) = 2147483647 = INT_MAX`) and
`daysSinceLastService = 30` the formula gives `2147483648`, which no `int` holds; the
addition `priority += 1` overflows and the score is not the formula's value. -/
theorem Vehicle.priority_overflow :
    (0 : ℚ) ≤ (mainVehicle "V900" "" "" "" 2020 10737418235000 30).kilometersRun ∧
    0 ≤ (mainVehicle "V900" "" "" "" 2020 10737418235000 30).daysSinceLastService ∧
    ⌊(mainVehicle "V900" "" "" "" 2020 10737418235000 30).kilometersRun / 5000⌋
      + (mainVehicle "V900" "" "" "" 2020 10737418235000 30).daysSinceLastService / 30
      = 2147483648 ∧
    (mainVehicle "V900" "" "" "" 2020 10737418235000 30).getMaintenancePriority
      = -2147483648 ∧
    (mainVehicle "V900" "" "" "" 2020 10737418235000 30).getMaintenancePriority
      ≠ ⌊(mainVehicle "V900" "" "" "" 2020 10737418235000 30).kilometersRun / 5000⌋
        + (mainVehicle "V900" "" "" "" 2020 10737418235000 30).daysSinceLastService / 30 := by
  have hfloor : ⌊(mainVehicle "V900" "" "" "" 2020 10737418235000 30).kilometersRun / 5000⌋
      = 2147483647 := by
    show ⌊(10737418235000 : ℚ) / 5000⌋ = 2147483647
    rw [show (10737418235000 : ℚ) / 5000 = ((2147483647 : ℤ) : ℚ) by norm_num,
      Int.floor_intCast]
  have hdays : (mainVehicle "V900" "" "" "" 2020 10737418235000 30).daysSinceLastService
      = 30 := rfl
  have hsum : ⌊(mainVehicle "V900" "" "" "" 2020 10737418235000 30).kilometersRun / 5000⌋
      + (mainVehicle "V900" "" "" "" 2020 10737418235000 30).daysSinceLastService / 30
      = 2147483648 := by
    rw [hfloor, hdays]; decide
  have hprio : (mainVehicle "V900" "" "" "" 2020 10737418235000 30).getMaintenancePriority
      = -2147483648 := by
    with_unfolding_all rfl
  refine ⟨?_, by rw [hdays]; decide, hsum, hprio, ?_⟩
  · show (0 : ℚ) ≤ 10737418235000
    norm_num
  · rw [hsum, hprio]
    decide

/-! ## Driver queue: the size counter -/

/-- A run of calls keeps the chain invariant, keeps `NULL` out of the waiting drivers,
and moves `size` by the successful enqueues minus the successful dequeues. -/
theorem DriverQueue.runCalls_holds (calls : List QueueCall) :
    ∀ (q : DriverQueue) (waiting : List DriverPtr), q.Holds waiting →
      (∀ d ∈ waiting, d ≠ NULL) →
      ∃ waiting1, (q.runCalls calls).Holds waiting1 ∧ (∀ d ∈ waiting1, d ≠ NULL) ∧
        (q.runCalls calls).getSize = q.getSize + DriverQueue.netEnqueued q calls := by
  induction calls with
  | nil =>
    intro q waiting hq hnn
    refine ⟨waiting, hq, hnn, ?_⟩
    show q.getSize = q.getSize + 0
    omega
  | cons c calls ih =>
    intro q waiting hq hnn
    have hsize : q.getSize = (waiting.length : Int) := by
      obtain ⟨cells, -, -, -, -, -, hs⟩ := hq
      exact hs
    cases c with
    | enqueue d =>
      show ∃ waiting1, ((q.enqueue d).runCalls calls).Holds waiting1 ∧ _ ∧
        ((q.enqueue d).runCalls calls).getSize
          = q.getSize + ((if d ≠ NULL then 1 else 0)
            + DriverQueue.netEnqueued (q.enqueue d) calls)
      by_cases hd : d = NULL
      · have hsame : q.enqueue d = q := by
          unfold DriverQueue.enqueue
          rw [if_pos hd]
        rw [hsame, if_neg (fun h => h hd)]
        obtain ⟨w1, h1, h2, h3⟩ := ih q waiting hq hnn
        exact ⟨w1, h1, h2, by rw [h3]; omega⟩
      · have hq1 := DriverQueue.holds_enqueue q waiting d hq hd
        have hs1 : (q.enqueue d).getSize = ((waiting ++ [d]).length : Int) := by
          obtain ⟨cells, -, -, -, -, -, hs⟩ := hq1
          exact hs
        obtain ⟨w1, h1, h2, h3⟩ := ih (q.enqueue d) (waiting ++ [d]) hq1 (by
          intro x hx
          rcases List.mem_append.mp hx with h | h
          · exact hnn x h
          · rw [List.mem_singleton.mp h]; exact hd)
        refine ⟨w1, h1, h2, ?_⟩
        rw [h3, hs1, hsize, if_pos hd]
        simp only [List.length_append, List.length_singleton]
        push_cast
        omega
    | dequeue =>
      show ∃ waiting1, (q.dequeue.2.runCalls calls).Holds waiting1 ∧ _ ∧
        (q.dequeue.2.runCalls calls).getSize
          = q.getSize + ((if q.dequeue.1 ≠ NULL then -1 else 0)
            + DriverQueue.netEnqueued q.dequeue.2 calls)
      cases waiting with
      | nil =>
        rw [DriverQueue.dequeue_nil q hq]
        simp only
        rw [if_neg (fun h => h rfl)]
        obtain ⟨w1, h1, h2, h3⟩ := ih q [] hq hnn
        exact ⟨w1, h1, h2, by rw [h3]; omega⟩
      | cons d ds =>
        obtain ⟨e1, e2⟩ := DriverQueue.holds_dequeue q d ds hq
        have hs1 : q.dequeue.2.getSize = (ds.length : Int) := by
          obtain ⟨cells, -, -, -, -, -, hs⟩ := e2
          exact hs
        obtain ⟨w1, h1, h2, h3⟩ := ih q.dequeue.2 ds e2
          (fun x hx => hnn x (List.mem_cons_of_mem _ hx))
        refine ⟨w1, h1, h2, ?_⟩
        rw [h3, hs1, hsize, e1, if_pos (hnn d (List.mem_cons_self _ _))]
        simp only [List.length_cons]
        push_cast
        omega

/-- A queue that carries drivers is empty exactly when `size` is 0. -/
theorem DriverQueue.isEmpty_iff_size (q : DriverQueue) (waiting : List DriverPtr)
    (hq : q.Holds waiting) : q.isEmpty = true ↔ q.getSize = 0 := by
  have hsize : q.getSize = (waiting.length : Int) := by
    obtain ⟨cells, -, -, -, -, -, hs⟩ := hq
    exact hs
  constructor
  · intro he
    have := DriverQueue.holds_of_isEmpty q waiting hq he
    subst this
    exact hsize
  · intro hz
    rw [hsize] at hz
    have hnil : waiting = [] := List.length_eq_zero.mp (by exact_mod_cast hz)
    subst hnil
    exact (DriverQueue.holds_nil_isEmpty q hq).1

/-- C36: for every queue reached from the empty queue by a run of `enqueue` and
`dequeue` calls, `getSize` is the number of drivers waiting in the chain, which is the
number of successful enqueues minus the number of successful dequeues of the run;
`isEmpty` holds exactly when `getSize` is 0; and `enqueue` of a null driver changes
nothing. -/
theorem DriverQueue.size_counts (calls : List QueueCall) :
    ∃ waiting, (DriverQueue.empty.runCalls calls).Holds waiting ∧
      (DriverQueue.empty.runCalls calls).getSize = (waiting.length : Int) ∧
      (DriverQueue.empty.runCalls calls).getSize
        = DriverQueue.netEnqueued DriverQueue.empty calls ∧
      ((DriverQueue.empty.runCalls calls).isEmpty = true ↔
        (DriverQueue.empty.runCalls calls).getSize = 0) ∧
      (DriverQueue.empty.runCalls calls).enqueue NULL = DriverQueue.empty.runCalls calls := by
  obtain ⟨waiting, h1, -, h3⟩ := DriverQueue.runCalls_holds calls DriverQueue.empty []
    DriverQueue.holds_empty (fun d hd => absurd hd (List.not_mem_nil d))
  refine ⟨waiting, h1, ?_, ?_, DriverQueue.isEmpty_iff_size _ waiting h1, ?_⟩
  · obtain ⟨cells, -, -, -, -, -, hs⟩ := h1
    exact hs
  · rw [h3]
    show (0 : Int) + _ = _
    omega
  · unfold DriverQueue.enqueue
    rw [if_pos rfl]

theorem DriverQueue.size_counts_witness :
    (DriverQueue.empty.runCalls [QueueCall.dequeue, QueueCall.enqueue 1, QueueCall.enqueue 0,
      QueueCall.enqueue 2, QueueCall.dequeue, QueueCall.enqueue 3]).getSize = 2 ∧
    DriverQueue.netEnqueued DriverQueue.empty [QueueCall.dequeue, QueueCall.enqueue 1,
      QueueCall.enqueue 0, QueueCall.enqueue 2, QueueCall.dequeue, QueueCall.enqueue 3] = 2 ∧
    ∃ waiting, (DriverQueue.empty.runCalls [QueueCall.dequeue, QueueCall.enqueue 1,
        QueueCall.enqueue 0, QueueCall.enqueue 2, QueueCall.dequeue,
        QueueCall.enqueue 3]).Holds waiting ∧
      (DriverQueue.empty.runCalls [QueueCall.dequeue, QueueCall.enqueue 1,
        QueueCall.enqueue 0, QueueCall.enqueue 2, QueueCall.dequeue,
        QueueCall.enqueue 3]).getSize = (waiting.length : Int) ∧
      (DriverQueue.empty.runCalls [QueueCall.dequeue, QueueCall.enqueue 1,
        QueueCall.enqueue 0, QueueCall.enqueue 2, QueueCall.dequeue,
        QueueCall.enqueue 3]).getSize
        = DriverQueue.netEnqueued DriverQueue.empty [QueueCall.dequeue, QueueCall.enqueue 1,
          QueueCall.enqueue 0, QueueCall.enqueue 2, QueueCall.dequeue, QueueCall.enqueue 3] ∧
      ((DriverQueue.empty.runCalls [QueueCall.dequeue, QueueCall.enqueue 1,
        QueueCall.enqueue 0, QueueCall.enqueue 2, QueueCall.dequeue,
        QueueCall.enqueue 3]).isEmpty = true ↔
        (DriverQueue.empty.runCalls [QueueCall.dequeue, QueueCall.enqueue 1,
          QueueCall.enqueue 0, QueueCall.enqueue 2, QueueCall.dequeue,
          QueueCall.enqueue 3]).getSize = 0) ∧
      (DriverQueue.empty.runCalls [QueueCall.dequeue, QueueCall.enqueue 1,
        QueueCall.enqueue 0, QueueCall.enqueue 2, QueueCall.dequeue,
        QueueCall.enqueue 3]).enqueue NULL
        = DriverQueue.empty.runCalls [QueueCall.dequeue, QueueCall.enqueue 1,
          QueueCall.enqueue 0, QueueCall.enqueue 2, QueueCall.dequeue,
          QueueCall.enqueue 3] :=
  ⟨by decide, by decide,
    DriverQueue.size_counts [QueueCall.dequeue, QueueCall.enqueue 1, QueueCall.enqueue 0,
      QueueCall.enqueue 2, QueueCall.dequeue, QueueCall.enqueue 3]⟩

/-! ## Vehicle directory: the range of `hashFunction` -/

/-- Keys with the same characters in another order have the same character sum. -/
theorem charSum_perm (key key2 : String) (h : key2.toList.Perm key.toList) :
    charSum key2 = charSum key := by
  unfold charSum
  exact (h.map _).sum_eq

theorem validKey_perm (key key2 : String) (h : key2.toList.Perm key.toList)
    (hkey : validKey key) : validKey key2 := by
  refine ⟨fun c hc => hkey.1 c (h.subset hc), ?_⟩
  rw [charSum_perm key key2 h]
  exact hkey.2

/-- C34: for every key of ASCII characters whose character sum does not overflow `int`,
`hashFunction` returns the sum of the character codes modulo 100, which lies in
`[0, TABLE_SIZE)`; so in every table the bucket read by `insert`, `search` and
`deleteVehicle` for that key exists and the three calls return; and a key with the same
characters in another order has the same hash. -/
theorem hashFunction_in_table (key : String) (hkey : validKey key) :
    hashFunction key = charSum key % 100 ∧
    0 ≤ hashFunction key ∧ hashFunction key < (TABLE_SIZE : Int) ∧
    (∀ t : HashTable, t.table.length = TABLE_SIZE →
      (∃ chain, t.bucket (hashFunction key) = some chain) ∧
      (∃ p, t.search key = some p) ∧
      (∃ r, t.deleteVehicle key = some r) ∧
      (∀ (mem : VehicleMem) (v : VehiclePtr), (mem v).vehicleId = key →
        ∃ r, HashTable.insert mem t v = some r)) ∧
    (∀ key2 : String, key2.toList.Perm key.toList →
      hashFunction key2 = hashFunction key) := by
  obtain ⟨h0, h1⟩ := hashFunction_range key hkey
  refine ⟨hashFunction_eq key hkey, h0, h1, ?_, ?_⟩
  · intro t hsize
    obtain ⟨chain, hb⟩ := HashTable.bucket_of_range t hsize _ h0 h1
    refine ⟨⟨chain, hb⟩, ?_, ?_, ?_⟩
    · unfold HashTable.search
      rw [hb]
      simp only
      cases chain.find? (fun node => node.key == key) with
      | none => exact ⟨_, rfl⟩
      | some node => exact ⟨_, rfl⟩
    · unfold HashTable.deleteVehicle
      simp only [hb]
      split
      · exact ⟨_, rfl⟩
      · exact ⟨_, rfl⟩
    · intro mem v hv
      unfold HashTable.insert
      by_cases hnull : v = NULL
      · rw [if_pos hnull]; exact ⟨_, rfl⟩
      · rw [if_neg hnull]
        simp only [hv, hb]
        split
        · exact ⟨_, rfl⟩
        · exact ⟨_, rfl⟩
  · intro key2 hperm
    have hk2 := validKey_perm key key2 hperm hkey
    rw [hashFunction_eq key hkey, hashFunction_eq key2 hk2, charSum_perm key key2 hperm]

theorem hashFunction_in_table_witness :
    validKey "V102" ∧ "V201".toList.Perm "V102".toList ∧
    charSum "V102" = 233 ∧ hashFunction "V102" = 33 ∧ hashFunction "V201" = 33 ∧
    (hashFunction "V102" = charSum "V102" % 100 ∧
    0 ≤ hashFunction "V102" ∧ hashFunction "V102" < (TABLE_SIZE : Int) ∧
    (∀ t : HashTable, t.table.length = TABLE_SIZE →
      (∃ chain, t.bucket (hashFunction "V102") = some chain) ∧
      (∃ p, t.search "V102" = some p) ∧
      (∃ r, t.deleteVehicle "V102" = some r) ∧
      (∀ (mem : VehicleMem) (v : VehiclePtr), (mem v).vehicleId = "V102" →
        ∃ r, HashTable.insert mem t v = some r)) ∧
    (∀ key2 : String, key2.toList.Perm "V102".toList →
      hashFunction key2 = hashFunction "V102")) :=
  ⟨by decide, by decide, by decide, by decide, by decide,
    hashFunction_in_table "V102" (by decide)⟩

/-! ## Maintenance heap: what goes in comes out -/

/-- C31: at most 100 vehicles inserted into an empty heap are all accepted, the entries
of the heap are then a permutation of the inserted vehicles, and calling `extractMin`
until the heap is empty returns a permutation of the inserted vehicles.  Step by step,
on every heap reached by `insert` and `extractMin` calls: an `insert` below capacity adds
exactly the new vehicle to the entries, and an `extractMin` on a non-empty heap returns
an entry and removes exactly one occurrence of it, keeping every other entry. -/
theorem MinHeap.extract_permutation (mem : VehicleMem) (vs : List VehiclePtr)
    (hlen : vs.length ≤ 100) :
    (∃ h out,
      MinHeap.insertAll mem MinHeap.empty vs = some (List.replicate vs.length true, h) ∧
      h.live.Perm vs ∧ MinHeap.extractAll mem vs.length h = some out ∧ out.Perm vs) ∧
    (∀ (g : MinHeap) (v : VehiclePtr), MinHeap.Reachable mem g → g.size < 100 →
      ∃ g1, MinHeap.insert mem g v = some (true, g1) ∧ g1.live.Perm (v :: g.live)) ∧
    (∀ g : MinHeap, MinHeap.Reachable mem g → 0 < g.size →
      ∃ v g1, MinHeap.extractMin mem g = some (v, g1) ∧ v ∈ g.live ∧
        (v :: g1.live).Perm g.live) := by
  refine ⟨?_, ?_, ?_⟩
  · obtain ⟨h, e1, e2, e3, e4, e5⟩ := MinHeap.insertAll_spec mem vs MinHeap.empty
      MinHeap.heap_wellFormed_empty (MinHeap.heapProperty_empty mem)
      (by simpa [MinHeap.empty, MAX_HEAP_SIZE] using hlen)
    obtain ⟨out, f1, f2, -⟩ := MinHeap.extractAll_spec mem vs.length h e2 e3
      (by rw [e4]; simp [MinHeap.empty])
    rw [MinHeap.live_empty, List.append_nil] at e5
    exact ⟨h, out, e1, e5, f1, f2.trans e5⟩
  · intro g v hr hs
    obtain ⟨hw, hp⟩ := MinHeap.reachable_keeps mem g hr
    obtain ⟨g1, e1, -, -, -, e5⟩ := MinHeap.insert_spec mem g v hw hp hs
    exact ⟨g1, e1, e5⟩
  · intro g hr hs
    obtain ⟨hw, hp⟩ := MinHeap.reachable_keeps mem g hr
    obtain ⟨g1, e1, -, -, -, e5⟩ := MinHeap.extractMin_spec mem g hw hp hs
    exact ⟨g.elem 0, g1, e1, e5.subset (List.mem_cons_self _ _), e5⟩

theorem MinHeap.extract_permutation_witness :
    [101, 102, 103, 104, 105, 106].length ≤ 100 ∧
    MinHeap.extractAll mainMem 6 mainHeap = some [104, 102, 105, 106, 101, 103] ∧
    (∃ h out,
      MinHeap.insertAll mainMem MinHeap.empty [101, 102, 103, 104, 105, 106]
        = some (List.replicate [101, 102, 103, 104, 105, 106].length true, h) ∧
      h.live.Perm [101, 102, 103, 104, 105, 106] ∧
      MinHeap.extractAll mainMem [101, 102, 103, 104, 105, 106].length h = some out ∧
      out.Perm [101, 102, 103, 104, 105, 106]) :=
  ⟨by decide, by with_unfolding_all rfl,
    (MinHeap.extract_permutation mainMem [101, 102, 103, 104, 105, 106] (by decide)).1⟩

/-! ## Vehicle: the priority score grows with the counters -/

/-- Within the range of `int` the score is the sum of the two floors. -/
theorem Vehicle.priority_eq (v : Vehicle) (hkm : 0 ≤ v.kilometersRun)
    (hdays : 0 ≤ v.daysSinceLastService)
    (hfit : ⌊v.kilometersRun / 5000⌋ + v.daysSinceLastService / 30 ≤ INT_MAX) :
    v.getMaintenancePriority = ⌊v.kilometersRun / 5000⌋ + v.daysSinceLastService / 30 := by
  have hq : 0 ≤ v.kilometersRun / 5000 := div_nonneg hkm (by norm_num)
  have hf : 0 ≤ ⌊v.kilometersRun / 5000⌋ := Int.floor_nonneg.mpr hq
  have hd : 0 ≤ v.daysSinceLastService / 30 := Int.ediv_nonneg hdays (by decide)
  unfold Vehicle.getMaintenancePriority
  simp only
  rw [truncToInt_floor _ hq, Int.tdiv_eq_ediv hdays (by decide), zero_add,
    wrapInt32_of_range _ hf (by omega), wrapInt32_of_range _ (by omega) hfit]

/-- C35, as the code has it: for vehicles `a` and `b` with non-negative counters,
`a.kilometersRun <= b.kilometersRun` and
`a.daysSinceLastService <= b.daysSinceLastService`, and with the score of `b` within the
range of `int` (`floor(km / 5000) + floor(days / 30) <= INT_MAX`), the score of `a` is
at most the score of `b` and not negative; a vehicle with zero kilometers and zero days
has the score 0; and when such a vehicle is among at most 100 vehicles inserted into an
empty heap, no vehicle extracted before it has a score above 0. -/
theorem Vehicle.priority_monotone (a b : Vehicle) (hakm : 0 ≤ a.kilometersRun)
    (hadays : 0 ≤ a.daysSinceLastService) (hkm : a.kilometersRun ≤ b.kilometersRun)
    (hdays : a.daysSinceLastService ≤ b.daysSinceLastService)
    (hfit : ⌊b.kilometersRun / 5000⌋ + b.daysSinceLastService / 30 ≤ INT_MAX) :
    a.getMaintenancePriority ≤ b.getMaintenancePriority ∧
    0 ≤ a.getMaintenancePriority ∧
    (a.kilometersRun = 0 → a.daysSinceLastService = 0 → a.getMaintenancePriority = 0) ∧
    (∀ (mem : VehicleMem) (vs : List VehiclePtr) (z : VehiclePtr), vs.length ≤ 100 →
      mem z = a → a.kilometersRun = 0 → a.daysSinceLastService = 0 →
      ∃ h out,
        MinHeap.insertAll mem MinHeap.empty vs = some (List.replicate vs.length true, h) ∧
        MinHeap.extractAll mem vs.length h = some out ∧
        ∀ l1 l2, out = l1 ++ z :: l2 → ∀ y ∈ l1, (mem y).getMaintenancePriority ≤ 0) := by
  have hfloor : ⌊a.kilometersRun / 5000⌋ ≤ ⌊b.kilometersRun / 5000⌋ :=
    Int.floor_le_floor (div_le_div_of_nonneg_right hkm (by norm_num))
  have hdiv : a.daysSinceLastService / 30 ≤ b.daysSinceLastService / 30 :=
    Int.ediv_le_ediv (by decide) hdays
  have hq : 0 ≤ a.kilometersRun / 5000 := div_nonneg hakm (by norm_num)
  have hf : 0 ≤ ⌊a.kilometersRun / 5000⌋ := Int.floor_nonneg.mpr hq
  have hd : 0 ≤ a.daysSinceLastService / 30 := Int.ediv_nonneg hadays (by decide)
  have ha := Vehicle.priority_eq a hakm hadays (by omega)
  have hb := Vehicle.priority_eq b (le_trans hakm hkm) (le_trans hadays hdays) hfit
  have hzero : a.kilometersRun = 0 → a.daysSinceLastService = 0 →
      a.getMaintenancePriority = 0 := by
    intro h1 h2
    rw [ha, h1, h2]
    simp
  refine ⟨by rw [ha, hb]; omega, by rw [ha]; omega, hzero, ?_⟩
  intro mem vs z hlen hz h1 h2
  obtain ⟨h, e1, e2, e3, e4, -⟩ := MinHeap.insertAll_spec mem vs MinHeap.empty
    MinHeap.heap_wellFormed_empty (MinHeap.heapProperty_empty mem)
    (by simpa [MinHeap.empty, MAX_HEAP_SIZE] using hlen)
  obtain ⟨out, f1, -, f3⟩ := MinHeap.extractAll_spec mem vs.length h e2 e3
    (by rw [e4]; simp [MinHeap.empty])
  refine ⟨h, out, e1, f1, ?_⟩
  intro l1 l2 hout y hy
  rw [hout, List.pairwise_append] at f3
  have := f3.2.2 y hy z (List.mem_cons_self _ _)
  unfold prio at this
  rw [hz, hzero h1 h2] at this
  exact this

theorem Vehicle.priority_monotone_witness :
    (0 : ℚ) ≤ (mainMem 104).kilometersRun ∧ 0 ≤ (mainMem 104).daysSinceLastService ∧
    (mainMem 104).kilometersRun ≤ (mainMem 101).kilometersRun ∧
    (mainMem 104).daysSinceLastService ≤ (mainMem 101).daysSinceLastService ∧
    ⌊(mainMem 101).kilometersRun / 5000⌋ + (mainMem 101).daysSinceLastService / 30
      ≤ INT_MAX ∧
    (mainMem 104).getMaintenancePriority = 2 ∧ (mainMem 101).getMaintenancePriority = 11 ∧
    (mainMem 104).getMaintenancePriority ≤ (mainMem 101).getMaintenancePriority :=
  have hfloor : ⌊(mainMem 101).kilometersRun / 5000⌋ = 5 := by
    show ⌊(28000 : ℚ) / 5000⌋ = 5
    rw [Int.floor_eq_iff]
    constructor <;> norm_num
  have hd101 : (mainMem 101).daysSinceLastService = 180 := rfl
  have hd104 : (mainMem 104).daysSinceLastService = 40 := rfl
  have hakm : (0 : ℚ) ≤ (mainMem 104).kilometersRun := by
    show (0 : ℚ) ≤ 6000
    norm_num
  have hkm : (mainMem 104).kilometersRun ≤ (mainMem 101).kilometersRun := by
    show (6000 : ℚ) ≤ 28000
    norm_num
  have hfit : ⌊(mainMem 101).kilometersRun / 5000⌋ + (mainMem 101).daysSinceLastService / 30
      ≤ INT_MAX := by
    rw [hfloor, hd101]; decide
  ⟨hakm, by rw [hd104]; decide, hkm, by rw [hd104, hd101]; decide, hfit,
    by with_unfolding_all rfl, by with_unfolding_all rfl,
    (Vehicle.priority_monotone (mainMem 104) (mainMem 101) hakm (by rw [hd104]; decide) hkm
      (by rw [hd104, hd101]; decide) hfit).1⟩

/-- C35, as stated, fails where the score leaves the range of `int`: a vehicle with zero
counters has the score 0, and a vehicle with `kilometersRun = 10737418235000` and
`daysSinceLastService = 30`, whose counters are both larger, has a score below 0, the
addition `priority += 1` having overflowed. -/
theorem Vehicle.priority_not_monotone :
    (0 : ℚ) ≤ (Vehicle.new "V0" "" "" "" 2020).kilometersRun ∧
    0 ≤ (Vehicle.new "V0" "" "" "" 2020).daysSinceLastService ∧
    (Vehicle.new "V0" "" "" "" 2020).kilometersRun
      ≤ (mainVehicle "V900" "" "" "" 2020 10737418235000 30).kilometersRun ∧
    (Vehicle.new "V0" "" "" "" 2020).daysSinceLastService
      ≤ (mainVehicle "V900" "" "" "" 2020 10737418235000 30).daysSinceLastService ∧
    (Vehicle.new "V0" "" "" "" 2020).getMaintenancePriority = 0 ∧
    (mainVehicle "V900" "" "" "" 2020 10737418235000 30).getMaintenancePriority
      = -2147483648 ∧
    ¬ ((Vehicle.new "V0" "" "" "" 2020).getMaintenancePriority
      ≤ (mainVehicle "V900" "" "" "" 2020 10737418235000 30).getMaintenancePriority) := by
  have h0 : (Vehicle.new "V0" "" "" "" 2020).getMaintenancePriority = 0 := by
    with_unfolding_all rfl
  have h1 : (mainVehicle "V900" "" "" "" 2020 10737418235000 30).getMaintenancePriority
      = -2147483648 := by
    with_unfolding_all rfl
  refine ⟨?_, by decide, ?_, by decide, h0, h1, ?_⟩
  · show (0 : ℚ) ≤ 0
    norm_num
  · show (0 : ℚ) ≤ 10737418235000
    norm_num
  · rw [h0, h1]
    decide

/-! ## Route planner: the distances printed between the stops -/

theorem twinRoadMap_built : Graph.Built [⟨0, 1, 9⟩, ⟨0, 1, 5⟩] twinRoadMap := by
  have h := Graph.built_addRoads [⟨0, 1, 5⟩, ⟨0, 1, 9⟩] []
    (["Depot", "Yard"].foldl Graph.addLocation Graph.empty) twinRoadMap
    (Graph.built_addLocations _ [] Graph.empty Graph.Built.empty) (by decide) (by rfl)
  simpa using h

/-- C32 fails where two locations are joined by several roads: with the locations Depot
and Yard and the calls `addRoad(0, 1, 5)`, `addRoad(0, 1, 9)`, the chain of Depot holds
the 9 km road first; `dijkstra(0, 1)` reports the shortest distance 5 and the path
Depot, Yard, but the leg printed between them is the first road found, 9 km, so the
printed legs sum to 9 and not to the reported 5. -/
theorem Graph.legs_mismatch :
    Graph.Built [⟨0, 1, 9⟩, ⟨0, 1, 5⟩] twinRoadMap ∧
    totalDistance [⟨0, 1, 9⟩, ⟨0, 1, 5⟩] < INT_MAX ∧
    twinRoadMap.adj 0 = [⟨1, 9⟩, ⟨1, 5⟩] ∧
    twinRoadMap.dijkstra 0 1 = some (RouteResult.route 5 [0, 1] [9]) ∧
    twinRoadMap.legs [0, 1] = [9] ∧
    (twinRoadMap.legs [0, 1]).sum ≠ 5 := by
  refine ⟨twinRoadMap_built, by decide, rfl, rfl, rfl, by decide⟩

/-- The first edge found from `a` to `b`, when it is a lightest one, is the lightest
stored road from `a` to `b`. -/
theorem Graph.legDistance_least (g : Graph) (a b : Nat) (hj : g.Joined a b)
    (hfirst : ∀ e ∈ g.adj a, e.destination = b → g.legDistance a b ≤ e.weight) :
    g.legDistance a b = leastOf (g.roadWeights a b) := by
  obtain ⟨e0, he0, hb0⟩ := hj
  have hsome : ∃ e, (g.adj a).find? (fun e => e.destination == b) = some e := by
    cases hf : (g.adj a).find? (fun e => e.destination == b) with
    | some e => exact ⟨e, rfl⟩
    | none =>
      rw [List.find?_eq_none] at hf
      have := hf e0 he0
      simp only [beq_iff_eq] at this
      exact absurd hb0 this
  obtain ⟨e, he⟩ := hsome
  have hmem : e ∈ g.adj a := List.mem_of_find?_eq_some he
  have hdest : e.destination = b := by
    have := List.find?_some he
    exact beq_iff_eq.mp this
  have hleg : g.legDistance a b = e.weight := by
    unfold Graph.legDistance
    rw [he]
  rw [hleg]
  symm
  apply Graph.roadWeights_least g a b e hmem hdest
  intro e1 he1 hd1
  rw [← hleg]
  exact hfirst e1 he1 hd1

theorem Graph.legs_sum_chain (g : Graph)
    (hfirst : ∀ a, ∀ e ∈ g.adj a, g.legDistance a e.destination ≤ e.weight) :
    ∀ path : List Nat, path.Chain' g.Joined → (g.legs path).sum = g.routeLength path := by
  intro path
  induction path with
  | nil => intro _; rfl
  | cons a rest ih =>
    intro hc
    cases rest with
    | nil => rfl
    | cons b rest1 =>
      rw [List.chain'_cons] at hc
      have h1 := ih hc.2
      show (g.legDistance a b :: g.legs (b :: rest1)).sum
        = leastOf (g.roadWeights a b) + g.routeLength (b :: rest1)
      rw [List.sum_cons, h1, Graph.legDistance_least g a b hc.1
        (fun e he hd => by rw [← hd]; exact hfirst a e he)]

/-- Where the first road found between two locations is always a lightest one (as when
no two locations are joined by more than one road), the printed legs of a reported
route sum to the reported shortest distance. -/
theorem Graph.legs_sum_first_lightest (roads : List Road) (g : Graph)
    (source destination : Nat)
    (hb : Graph.Built roads g) (htot : totalDistance roads < INT_MAX)
    (hs : source < g.numVertices) (hd : destination < g.numVertices)
    (hfirst : ∀ a, ∀ e ∈ g.adj a, g.legDistance a e.destination ≤ e.weight)
    (d : Int) (path : List Nat) (legs : List Int)
    (hroute : g.dijkstra source destination = some (RouteResult.route d path legs)) :
    legs.sum = d := by
  have hg := Graph.ok_of_built roads g hb
  obtain ⟨hinv, -⟩ := Graph.dijkstraRun_inv g roads source hg htot hs
  have hpar := Graph.dijkstraRun_parent g roads source hg htot hs
  obtain ⟨hfin, hdist, walk, hwalk, hpath⟩ :=
    Graph.dijkstra_route_inv g source destination hs hd d path legs hroute
  obtain ⟨-, -, h3, h4⟩ := Graph.pathFrom_route g roads source _ hinv hpar MAX_VERTICES
    destination walk hd hfin hwalk
  have hlegs : legs = g.legs path := by
    unfold Graph.dijkstra at hroute
    rw [if_neg (by omega), if_neg (by omega)] at hroute
    simp only [Int.toNat_ofNat] at hroute
    rw [if_neg hfin, hwalk] at hroute
    simp only [Option.some.injEq, RouteResult.route.injEq] at hroute
    rw [← hroute.2.2, hpath]
  rw [hlegs, hpath, Graph.legs_sum_chain g hfirst _ h3, h4, hdist]

/-! ## Route planner: indexes and the length of the parent walk -/

/-- Relaxing one edge of a visited location keeps the visiting order. -/
theorem RankInv.relaxEdge_rank (g : Graph) (st : DijkstraState) (hinv : RankInv g st)
    (u : Nat) (hu : u < g.numVertices) (hvis : st.visited.getD u false = true) (e : Edge) :
    RankInv g (Graph.relaxEdge u st e) ∧ (Graph.relaxEdge u st e).visited = st.visited := by
  rcases Graph.relaxEdge_cases u st e with ⟨-, heq⟩ | ⟨⟨hv, -, -⟩, heq⟩
  · rw [heq]; exact ⟨hinv, rfl⟩
  · have hvisEq : (Graph.relaxEdge u st e).visited = st.visited := by rw [heq]
    have hunv : unvisited (Graph.relaxEdge u st e) g.numVertices = unvisited st g.numVertices := by
      unfold unvisited; rw [hvisEq]
    refine ⟨⟨?_, ?_, ?_⟩, hvisEq⟩
    · rw [hvisEq]; exact hinv.len_visited
    · rw [heq]; simp only [List.length_set]; exact hinv.len_parent
    · obtain ⟨rank, hrank⟩ := hinv.ranked
      refine ⟨rank, ?_⟩
      intro x hx
      rw [hunv, hvisEq]
      obtain ⟨r1, r2, r3⟩ := hrank x hx
      refine ⟨r1, r2, ?_⟩
      have hpar : (Graph.relaxEdge u st e).parent.getD x (-1)
          = (st.parent.set e.destination (u : Int)).getD x (-1) := by rw [heq]
      rw [hpar]
      by_cases hex : e.destination = x
      · right
        refine ⟨u, hu, ?_, hvis, ?_⟩
        · rw [hex]
          exact getD_set_self _ _ _ _ (by rw [hinv.len_parent]; exact hx)
        · have hu1 := (hrank u hu).1 hvis
          have hx2 := r2 (by rw [← hex]; exact hv)
          omega
      · rw [getD_set_other _ _ _ _ _ hex]
        exact r3

/-- Relaxing a run of edges of a visited location keeps the visiting order. -/
theorem RankInv.relaxEdges_rank (g : Graph) (u : Nat) (hu : u < g.numVertices) :
    ∀ (es : List Edge) (st : DijkstraState), RankInv g st →
      st.visited.getD u false = true →
      RankInv g (es.foldl (Graph.relaxEdge u) st) ∧
      (es.foldl (Graph.relaxEdge u) st).visited = st.visited := by
  intro es
  induction es with
  | nil => intro st hinv _; exact ⟨hinv, rfl⟩
  | cons e es ih =>
    intro st hinv hvis
    obtain ⟨h1, h2⟩ := RankInv.relaxEdge_rank g st hinv u hu hvis e
    obtain ⟨i1, i2⟩ := ih (Graph.relaxEdge u st e) h1 (by rw [h2]; exact hvis)
    exact ⟨i1, by rw [List.foldl_cons, i2, h2]⟩

/-- Marking an unvisited location as visited keeps the visiting order: the location
takes the next rank. -/
theorem RankInv.mark_rank (g : Graph) (st : DijkstraState) (hinv : RankInv g st)
    (u : Nat) (hu : u < g.numVertices) (hv : st.visited.getD u false = false) :
    RankInv g { st with visited := st.visited.set u true } ∧
    (st.visited.set u true).getD u false = true := by
  have hcount := unvisited_mark st g.numVertices u hu hinv.len_visited hv
  have hvget : ∀ x, (st.visited.set u true).getD x false =
      if u = x then true else st.visited.getD x false := by
    intro x
    exact getD_set_if _ _ _ _ _ (by rw [hinv.len_visited]; exact hu)
  have hsub : ∀ x, st.visited.getD x false = true →
      (st.visited.set u true).getD x false = true := by
    intro x hx
    rw [hvget x]; split
    · rfl
    · exact hx
  refine ⟨⟨?_, hinv.len_parent, ?_⟩, by rw [hvget u, if_pos rfl]⟩
  · simp only [List.length_set]; exact hinv.len_visited
  · obtain ⟨rank, hrank⟩ := hinv.ranked
    refine ⟨fun v => if (st.visited.set u true).getD v false = true then rank v
      else rank v + 1, ?_⟩
    intro x hx
    obtain ⟨r1, r2, r3⟩ := hrank x hx
    simp only
    refine ⟨?_, ?_, ?_⟩
    · intro hxv
      rw [if_pos hxv]
      rw [hvget x] at hxv
      by_cases hxu : u = x
      · have := r2 (by rw [← hxu]; exact hv)
        omega
      · rw [if_neg hxu] at hxv
        have := r1 hxv
        omega
    · intro hxv
      rw [if_neg (by rw [hxv]; decide)]
      rw [hvget x] at hxv
      have hxu : ¬ u = x := by
        intro h; rw [if_pos h] at hxv; cases hxv
      rw [if_neg hxu] at hxv
      have := r2 hxv
      omega
    · rcases r3 with h | ⟨p, hp, hpar, hpv, hlt⟩
      · exact Or.inl h
      · right
        refine ⟨p, hp, hpar, hsub p hpv, ?_⟩
        rw [if_pos (hsub p hpv)]
        split
        · exact hlt
        · omega

/-- One iteration of the main loop keeps the visiting order. -/
theorem RankInv.step_rank (g : Graph) (st st1 : DijkstraState) (hinv : RankInv g st)
    (hstep : g.dijkstraStep st = some st1) : RankInv g st1 := by
  unfold Graph.dijkstraStep at hstep
  simp only at hstep
  rcases g.findMinDistance_spec st.dist st.visited with ⟨h1, -⟩ | ⟨u, h1, hu, hv, -, -⟩
  · rw [h1] at hstep
    simp at hstep
  · rw [h1] at hstep
    have hne : ¬ ((u : Int) = -1) := by omega
    rw [if_neg hne] at hstep
    simp only [Int.toNat_ofNat, Option.some.injEq] at hstep
    obtain ⟨hmid, hvis1⟩ := RankInv.mark_rank g st hinv u hu hv
    rw [← hstep]
    exact (RankInv.relaxEdges_rank g u hu (g.adj u)
      { st with visited := st.visited.set u true } hmid hvis1).1

/-- The main loop keeps the visiting order. -/
theorem RankInv.loop_rank (g : Graph) :
    ∀ (k : Nat) (st : DijkstraState), RankInv g st → RankInv g (g.dijkstraLoop k st) := by
  intro k
  induction k with
  | zero => intro st hinv; exact hinv
  | succ k ih =>
    intro st hinv
    simp only [Graph.dijkstraLoop]
    cases hstep : g.dijkstraStep st with
    | none => exact hinv
    | some st1 => exact ih st1 (RankInv.step_rank g st st1 hinv hstep)

/-- When `dijkstra` leaves its main loop the visiting order holds, for every graph and
every source. -/
theorem Graph.dijkstraRun_rank (g : Graph) (source : Nat) :
    RankInv g (g.dijkstraRun source) := by
  unfold Graph.dijkstraRun
  apply RankInv.loop_rank
  have hvis : ∀ x, (g.dijkstraInit source).visited.getD x false = false := by
    intro x
    exact getD_replicate _ _ _
  have hunv : unvisited (g.dijkstraInit source) g.numVertices = List.range g.numVertices := by
    unfold unvisited
    rw [List.filter_eq_self]
    intro a _
    rw [hvis a]; rfl
  refine ⟨by simp [Graph.dijkstraInit], by simp [Graph.dijkstraInit], fun _ => 0, ?_⟩
  intro v hv
  refine ⟨fun h => ?_, fun _ => ?_, Or.inl ?_⟩
  · rw [hvis v] at h; cases h
  · rw [hunv, List.length_range]; exact Nat.zero_add _
  · exact getD_replicate _ _ _

/-- Along the walk of the parent pointers the rank falls strictly: the walk repeats no
location, stays inside the valid ids and is no longer than the rank of its start
allows. -/
theorem Graph.pathFrom_ranked (n : Nat) (parent : List Int) (rank : Nat → Nat)
    (hpar : ∀ v, v < n → parent.getD v (-1) = -1 ∨
      ∃ p, p < n ∧ parent.getD v (-1) = (p : Int) ∧ rank p < rank v) :
    ∀ (room c : Nat) (walk : List Nat), c < n →
      Graph.pathFrom parent room (c : Int) = some walk →
      walk.length ≤ rank c + 1 ∧ (∀ x ∈ walk, x < n ∧ rank x ≤ rank c) ∧ walk.Nodup := by
  intro room
  induction room with
  | zero =>
    intro c walk _ h
    simp only [Graph.pathFrom] at h
    rw [if_pos (by omega)] at h
    cases h
  | succ room ih =>
    intro c walk hc h
    simp only [Graph.pathFrom] at h
    have hne : (c : Int) ≠ -1 := by omega
    rw [if_pos hne] at h
    simp only [Int.toNat_ofNat] at h
    rcases hpar c hc with hp | ⟨p, hp, hpe, hlt⟩
    · rw [hp, Graph.pathFrom_end] at h
      simp only [Option.some.injEq] at h
      subst h
      refine ⟨by simp, ?_, List.nodup_singleton c⟩
      intro x hx
      rw [List.mem_singleton.mp hx]
      exact ⟨hc, le_refl _⟩
    · rw [hpe] at h
      cases hrest : Graph.pathFrom parent room (p : Int) with
      | none => rw [hrest] at h; cases h
      | some rest =>
        rw [hrest] at h
        simp only [Option.some.injEq] at h
        subst h
        obtain ⟨i1, i2, i3⟩ := ih p rest hp hrest
        refine ⟨by simp only [List.length_cons]; omega, ?_, ?_⟩
        · intro x hx
          rcases List.mem_cons.mp hx with h | h
          · rw [h]; exact ⟨hc, le_refl _⟩
          · exact ⟨(i2 x h).1, by have := (i2 x h).2; omega⟩
        · rw [List.nodup_cons]
          refine ⟨?_, i3⟩
          intro hmem
          have := (i2 c hmem).2
          omega

/-- C33: on every graph built by `addLocation` and `addRoad` calls with valid endpoints
and non-negative distances, and for valid source and destination, `dijkstra` stays
inside its arrays: `numVertices` is at most 20; every edge leads to a valid id;
`findMinDistance` returns `-1` or a valid id; every cell of `parent` holds `-1` or a
valid id; the walk of the parent pointers from the destination repeats no location,
stays inside the valid ids and ends after at most `numVertices` cells of `path`; and
the call returns its report.  The `int` additions wrap, and no bound on the distances
is needed. -/
theorem Graph.dijkstra_in_bounds (roads : List Road) (g : Graph) (source destination : Nat)
    (hb : Graph.Built roads g) (hs : source < g.numVertices)
    (hd : destination < g.numVertices) :
    g.numVertices ≤ 20 ∧
    (∀ (u : Nat) (e : Edge), e ∈ g.adj u → e.destination < g.numVertices) ∧
    (∀ (dist : List Int) (visited : List Bool), g.findMinDistance dist visited = -1 ∨
      (0 ≤ g.findMinDistance dist visited ∧
        g.findMinDistance dist visited < (g.numVertices : Int))) ∧
    (∀ v, v < g.numVertices → (g.dijkstraRun source).parent.getD v (-1) = -1 ∨
      (0 ≤ (g.dijkstraRun source).parent.getD v (-1) ∧
        (g.dijkstraRun source).parent.getD v (-1) < (g.numVertices : Int))) ∧
    ∃ walk, Graph.pathFrom (g.dijkstraRun source).parent MAX_VERTICES (destination : Int)
        = some walk ∧
      walk.Nodup ∧ walk.length ≤ g.numVertices ∧ (∀ x ∈ walk, x < g.numVertices) ∧
      (g.dijkstra source destination = some RouteResult.noRoute ∨
        ∃ d legs, g.dijkstra source destination
          = some (RouteResult.route d walk.reverse legs)) := by
  have hg := Graph.ok_of_built roads g hb
  have hn : g.numVertices ≤ 20 := hg.n_le
  have hinv := Graph.dijkstraRun_rank g source
  obtain ⟨rank, hrank⟩ := hinv.ranked
  have hpar : ∀ v, v < g.numVertices → (g.dijkstraRun source).parent.getD v (-1) = -1 ∨
      ∃ p, p < g.numVertices ∧ (g.dijkstraRun source).parent.getD v (-1) = (p : Int) ∧
        rank p < rank v := by
    intro v hv
    rcases (hrank v hv).2.2 with h | ⟨p, hp, hpe, -, hlt⟩
    · exact Or.inl h
    · exact Or.inr ⟨p, hp, hpe, hlt⟩
  have hrk : rank destination < g.numVertices := by
    obtain ⟨r1, r2, -⟩ := hrank destination hd
    by_cases hv : (g.dijkstraRun source).visited.getD destination false = true
    · have := r1 hv; omega
    · have hv2 := (Bool.not_eq_true _).mp hv
      have := r2 hv2
      have hmem := (unvisited_mem _ g.numVertices destination).mpr ⟨hd, hv2⟩
      have := List.length_pos_of_mem hmem
      omega
  obtain ⟨walk, hwalk⟩ := Graph.pathFrom_some g.numVertices _ rank hpar MAX_VERTICES
    destination hd (by unfold MAX_VERTICES; omega)
  obtain ⟨w1, w2, w3⟩ := Graph.pathFrom_ranked g.numVertices _ rank hpar MAX_VERTICES
    destination walk hd hwalk
  refine ⟨hn, fun u e he => (hg.edge_road u e he).2.1, ?_, ?_,
    walk, hwalk, w3, by omega, fun x hx => (w2 x hx).1, ?_⟩
  · intro dist visited
    rcases g.findMinDistance_spec dist visited with ⟨h1, -⟩ | ⟨u, h1, hu, -⟩
    · exact Or.inl h1
    · right
      rw [h1]
      omega
  · intro v hv
    rcases hpar v hv with h | ⟨p, hp, hpe, -⟩
    · exact Or.inl h
    · right
      rw [hpe]
      omega
  · unfold Graph.dijkstra
    rw [if_neg (by omega), if_neg (by omega)]
    simp only [Int.toNat_ofNat]
    by_cases hinf : (g.dijkstraRun source).dist.getD destination 0 = INF
    · left
      rw [if_pos hinf]
    · right
      rw [if_neg hinf, hwalk]
      exact ⟨_, _, rfl⟩

theorem Graph.dijkstra_in_bounds_witness :
    Graph.Built mainRoads.reverse cityMap ∧ 0 < cityMap.numVertices ∧
    4 < cityMap.numVertices ∧
    Graph.pathFrom (cityMap.dijkstraRun 0).parent MAX_VERTICES ((4 : Nat) : Int)
      = some [4, 3, 2, 0] ∧
    (cityMap.numVertices ≤ 20 ∧
    (∀ (u : Nat) (e : Edge), e ∈ cityMap.adj u → e.destination < cityMap.numVertices) ∧
    (∀ (dist : List Int) (visited : List Bool), cityMap.findMinDistance dist visited = -1 ∨
      (0 ≤ cityMap.findMinDistance dist visited ∧
        cityMap.findMinDistance dist visited < (cityMap.numVertices : Int))) ∧
    (∀ v, v < cityMap.numVertices → (cityMap.dijkstraRun 0).parent.getD v (-1) = -1 ∨
      (0 ≤ (cityMap.dijkstraRun 0).parent.getD v (-1) ∧
        (cityMap.dijkstraRun 0).parent.getD v (-1) < (cityMap.numVertices : Int))) ∧
    ∃ walk, Graph.pathFrom (cityMap.dijkstraRun 0).parent MAX_VERTICES ((4 : Nat) : Int)
        = some walk ∧
      walk.Nodup ∧ walk.length ≤ cityMap.numVertices ∧
      (∀ x ∈ walk, x < cityMap.numVertices) ∧
      (cityMap.dijkstra ((0 : Nat) : Int) ((4 : Nat) : Int) = some RouteResult.noRoute ∨
        ∃ d legs, cityMap.dijkstra ((0 : Nat) : Int) ((4 : Nat) : Int)
          = some (RouteResult.route d walk.reverse legs))) :=
  ⟨cityMap_built, by decide, by decide, by rfl,
    Graph.dijkstra_in_bounds mainRoads.reverse cityMap 0 4 cityMap_built (by decide)
      (by decide)⟩

end Fleet
